import Mathlib

/-!
Verification of the core runtime of the `hsm` hierarchical state machine
library (Go).  The Go source (`hsm.go` of the v2 module) is embedded
shallowly: pure functions become Lean functions, the mutable dispatch loop
becomes explicit state passing, and the `context`/concurrency plumbing that
does not affect the state-machine semantics is elided.  User-supplied
behaviors (entry/exit/effect functions) are tracked as an execution trace of
their qualified names; user-supplied guards are modelled by a deterministic
evaluation oracle `String → Event → Bool` (qualified guard name and event to
verdict), matching a guard function that depends only on the event and the
machine state at evaluation time.
-/

namespace HsmSpec

/-! ### Event kinds and events

Modelled from the spec: the `kind` package of the repository is not part of
the provided sources.  Per §3 of the spec, event kinds form the closed set
{Normal, Completion, Time, Error}; `kind.IsKind(k, kind.CompletionEvent)`
holds exactly for completion events. -/

inductive EventKind where
  | Unset
  | Normal
  | Completion
  | Time
  | Error
  deriving DecidableEq, Repr

/-- Modelled from the spec: membership test used by `queue.push`,
`kind.IsKind(event.Kind, kind.CompletionEvent)`. -/
def EventKind.isCompletion : EventKind → Bool
  | .Completion => true
  | _ => false

/-- Embeds the `Event` record (`elements.Event`): `{kind, name, id, data}`.
The opaque `data` payload plays no role in any claim and is omitted;
`id = 0` denotes an unassigned id and `kind = Unset` Go's zero `Kind`, both
normalized during dispatch/processing, as in Go. -/
structure Event where
  name : List Char
  kind : EventKind
  id : Nat := 0
  deriving DecidableEq, Repr

instance : Inhabited Event := ⟨⟨[], .Normal, 0⟩⟩

/-! ### The two-bucket event queue

Embeds the `queue` struct of `hsm.go`: `completionEvents []Event // lifo`
and `events []Event // fifo`.  The mutex only serializes access and is
dropped; the claims below are about the sequential contents. -/

structure Queue where
  completionEvents : List Event
  events : List Event
  deriving DecidableEq, Repr

def Queue.empty : Queue := ⟨[], []⟩

/-- Embeds `queue.pop`: return the most recently pushed completion event if
any, else the oldest normal event, else nothing. -/
def Queue.pop (q : Queue) : Option (Event × Queue) :=
  match q.completionEvents.getLast? with
  | some e => some (e, ⟨q.completionEvents.dropLast, q.events⟩)
  | none =>
    match q.events with
    | [] => none
    | e :: rest => some (e, ⟨q.completionEvents, rest⟩)

/-- Embeds `queue.push` for a single event: completion-kind events are
appended to the completion (LIFO) bucket, all others to the normal (FIFO)
bucket. -/
def Queue.push1 (q : Queue) (e : Event) : Queue :=
  if e.kind.isCompletion then
    ⟨q.completionEvents ++ [e], q.events⟩
  else
    ⟨q.completionEvents, q.events ++ [e]⟩

/-- Embeds variadic `queue.push(events...)`: events are bucketed in order. -/
def Queue.push (q : Queue) (es : List Event) : Queue :=
  es.foldl Queue.push1 q

/-! ### Go `path` package: Clean, Dir, Join

The repository manipulates qualified names with Go's `path` standard
library.  Qualified names are modelled as `List Char` (Go strings are byte
slices; the algorithms are alphabet generic).  `clean` is a direct port of
Go `path.Clean`'s lazybuf algorithm; the output buffer is kept reversed, so
its length plays the role of Go's write index `out.w`. -/

/-- Embeds the backtracking loop of the `..` case of Go `path.Clean`:
`out.w--; for out.w > dotdot && out.index(out.w) != '/' { out.w-- }`.
`popped` is the character most recently removed from the reversed buffer
`out`. -/
def popSeg (dotdot : Nat) : Char → List Char → List Char
  | _, [] => []
  | popped, c :: rest =>
    if dotdot < (c :: rest).length ∧ popped ≠ '/' then popSeg dotdot c rest
    else c :: rest

/-- Embeds the main loop of Go `path.Clean`.  `s` is the unread input
(Go's `path[r:]`), `dotdot` the write barrier, `out` the reversed output
buffer.  Every Go iteration consumes at least one input character, so the
loop is driven by structural fuel; `clean` supplies the input length, which
is always sufficient. -/
def cleanLoop (rooted : Bool) : Nat → List Char → Nat → List Char → List Char
  | 0, _, _, out => out
  | _ + 1, [], _, out => out
  | fuel + 1, c :: rest, dotdot, out =>
    if c = '/' then
      cleanLoop rooted fuel rest dotdot out
    else if c = '.' ∧ (rest = [] ∨ rest.head? = some '/') then
      cleanLoop rooted fuel rest dotdot out
    else if c = '.' ∧ rest.head? = some '.' ∧
        (rest.tail = [] ∨ rest.tail.head? = some '/') then
      -- the ".." path element: r += 2, then pop or emit ".."
      if dotdot < out.length then
        match out with
        | [] => cleanLoop rooted fuel rest.tail dotdot out
        | p :: out' => cleanLoop rooted fuel rest.tail dotdot (popSeg dotdot p out')
      else if rooted = false then
        let out1 := if 0 < out.length then '/' :: out else out
        cleanLoop rooted fuel rest.tail (out1.length + 2) ('.' :: '.' :: out1)
      else
        cleanLoop rooted fuel rest.tail dotdot out
    else
      -- a real path element: maybe emit '/', then copy until the next '/'
      let out1 :=
        if (rooted ∧ out.length ≠ 1) ∨ (rooted = false ∧ out.length ≠ 0) then
          '/' :: out
        else out
      let seg := (c :: rest).takeWhile (· ≠ '/')
      cleanLoop rooted fuel ((c :: rest).dropWhile (· ≠ '/')) dotdot (seg.reverse ++ out1)

/-- Embeds Go `path.Clean`. -/
def clean (p : List Char) : List Char :=
  match p with
  | [] => ['.']
  | c :: rest =>
    let rooted := c = '/'
    let out :=
      if rooted then cleanLoop true rest.length rest 1 ['/']
      else cleanLoop false (c :: rest).length (c :: rest) 0 []
    if out = [] then ['.'] else out.reverse

/-- Embeds the directory part of Go `path.Split`: everything up to and
including the final slash. -/
def dirRaw (p : List Char) : List Char :=
  (p.reverse.dropWhile (· ≠ '/')).reverse

/-- Embeds Go `path.Dir`: `Clean` of the directory part. -/
def dir (p : List Char) : List Char := clean (dirRaw p)

/-- Embeds the buffer-building loop of Go `path.Join`. -/
def joinBuf : List (List Char) → List Char → List Char
  | [], buf => buf
  | e :: rest, buf =>
    if 0 < buf.length ∨ e ≠ [] then
      joinBuf rest (buf ++ (if 0 < buf.length then ['/'] else []) ++ e)
    else joinBuf rest buf

/-- Embeds Go `path.Join`. -/
def join (elems : List (List Char)) : List Char :=
  if elems.all (· = []) then [] else clean (joinBuf elems [])

/-! ### Segment semantics of qualified names

The model builder only ever produces qualified names of the canonical form
`/seg1/seg2/...` (root is `/`), built with `path.Join` from the root.  The
following vocabulary expresses the path algebra's specification. -/

/-- A valid path segment: nonempty, no separator, not one of the special
elements `.` and `..`. -/
def SegOk (s : List Char) : Prop :=
  s ≠ [] ∧ '/' ∉ s ∧ s ≠ ['.'] ∧ s ≠ ['.', '.']

instance (s : List Char) : Decidable (SegOk s) := by
  unfold SegOk; infer_instance

/-- Concatenation of segments, each preceded by a slash. -/
def catSegs : List (List Char) → List Char
  | [] => []
  | s :: ss => '/' :: s ++ catSegs ss

/-- The canonical rooted path with the given segments (`[]` is the root). -/
def fromSegs (ss : List (List Char)) : List Char :=
  if ss = [] then ['/'] else catSegs ss

/-- Longest common prefix of two segment lists. -/
def commonPrefix : List (List Char) → List (List Char) → List (List Char)
  | a :: as, b :: bs => if a = b then a :: commonPrefix as bs else []
  | _, _ => []

/-! ### IsAncestor and LCA

Direct ports of the repository's `IsAncestor` and `LCA`.  Both contain
loops/recursion that Go runs unboundedly (and that diverge on degenerate
non-rooted inputs); here they take explicit fuel, with the top-level
wrappers supplying fuel that is proved sufficient for all canonical rooted
paths. -/

/-- Embeds the ancestor-walk loop of `IsAncestor`:
`for parent != "/" { if parent == current { return true }; parent = path.Dir(parent) }`. -/
def isAncestorLoop : Nat → List Char → List Char → Bool
  | 0, _, _ => false
  | fuel + 1, current, parent =>
    if parent = ['/'] then false
    else if parent = current then true
    else isAncestorLoop fuel current (dir parent)

/-- Embeds `IsAncestor(current, target)` from `hsm.go`. -/
def IsAncestor (current target : List Char) : Bool :=
  let c := clean current
  let t := clean target
  if c = t ∨ c = ['.'] ∨ t = ['.'] then false
  else if c = ['/'] then true
  else isAncestorLoop (t.length + 1) c (dir t)

/-- Embeds the recursion of `LCA(a, b)` from `hsm.go`, with fuel. -/
def LCAfuel : Nat → List Char → List Char → List Char
  | 0, _, _ => []
  | fuel + 1, a, b =>
    if a = b then dir a
    else if a = [] then b
    else if b = [] then a
    else if dir a = dir b then dir a
    else if IsAncestor a b then a
    else if IsAncestor b a then b
    else LCAfuel fuel (dir a) (dir b)

/-- Embeds `LCA(a, b)` from `hsm.go`. -/
def LCA (a b : List Char) : List Char :=
  LCAfuel (a.length + b.length + 1) a b

/-! ### The glob matcher

`parse` of `hsm.go` is an iterative wildcard matcher with goto-driven
backtracking over the last `'*'`.  The loop state is
`(valueIndex, patternIndex, star)` where `star = some (psi, vsi)` records
Go's `patternStarIndex`/`valueStarIndex` pair (`none` is Go's -1).  Every Go
iteration either advances an index or the backtrack position, so the loop is
driven by structural fuel; `parse` supplies a fuel proved sufficient in the
correctness lemmas below. -/

/-- Embeds the loop body of `parse` from `hsm.go` (`LOOP_START` onwards). -/
def parseLoop (v p : List Char) : Nat → Nat → Nat → Option (Nat × Nat) → Bool
  | 0, _, _, _ => false
  | fuel + 1, vi, pi, star =>
    -- Check if the current pattern character is '*'
    if p.get? pi = some '*' then
      if pi + 1 = p.length then true
      else parseLoop v p fuel vi (pi + 1) (some (pi, vi))
    -- Check if current characters match
    else if vi < v.length ∧ pi < p.length ∧ v.get? vi = p.get? pi then
      parseLoop v p fuel (vi + 1) (pi + 1) star
    -- Check if we have reached the end of both strings
    else if vi = v.length ∧ pi = p.length then true
    -- End of the value string, but the pattern string remains:
    -- consume any trailing '*' characters, then require exhaustion
    else if vi = v.length ∧ pi < p.length then
      decide (pi + ((p.drop pi).takeWhile (· = '*')).length = p.length)
    -- Mismatch: backtrack over the last '*' if one was seen
    else
      match star with
      | some (psi, vsi) =>
        if vsi + 1 > v.length then false
        else parseLoop v p fuel (vsi + 1) (psi + 1) (some (psi, vsi + 1))
      | none => false

/-- Embeds `parse(value, pattern)` from `hsm.go`. -/
def parse (value pattern : List Char) : Bool :=
  parseLoop value pattern
    ((value.length + 2) * (value.length + pattern.length + 1)) 0 0 none

/-- Embeds `Match(value, patterns...)` from `hsm.go`: fast paths for exact
match, pure wildcard, empty pattern and star-terminated prefix, then the
full matcher. -/
def Match (value : List Char) : List (List Char) → Bool
  | [] => false
  | pattern :: rest =>
    if pattern = value then true
    else if pattern = ['*'] then true
    else if pattern.length = 0 then decide (value = [])
    else if pattern.getLast? = some '*' ∧ pattern.dropLast <+: value then true
    else if parse value pattern then true
    else Match value rest

/-- The specification matcher: anchored glob matching where `'*'` matches
zero or more arbitrary characters (first argument is the pattern). -/
def glob : List Char → List Char → Bool
  | [], v => decide (v = [])
  | c :: ps, v =>
    if c = '*' then
      glob ps v ||
        (match v with
         | [] => false
         | _ :: vs => glob (c :: ps) vs)
    else
      match v with
      | [] => false
      | d :: vs => c = d && glob ps vs
termination_by p v => (v.length, p.length)

/-- The backtrack bookkeeping invariant of `parse`: the recorded star is a
`'*'` in the pattern, and the pattern slice after it up to the current
pattern index is star-free and equal to the value slice from the backtrack
position to the current value index. -/
def StarInv (v p : List Char) (vi pi : Nat) : Option (Nat × Nat) → Prop
  | none => True
  | some (psi, vsi) =>
      p.get? psi = some '*' ∧ psi + 1 ≤ pi ∧ vsi ≤ vi ∧
      vi = vsi + (pi - (psi + 1)) ∧
      (p.drop (psi + 1)).take (pi - (psi + 1)) =
        (v.drop vsi).take (pi - (psi + 1)) ∧
      '*' ∉ (p.drop (psi + 1)).take (pi - (psi + 1))

/-- The backtrack component of the termination measure of `parse`'s loop:
Go's `valueStarIndex + 1`, with `none` (Go's -1) mapped to 0. -/
def starN : Option (Nat × Nat) → Nat
  | none => 0
  | some (_, vsi) => vsi + 1

/-! ### The compiled model

Embeds the element structs of `hsm.go` (`element`, `vertex`, `state`,
`transition`, `behavior`, `constraint`).  Qualified names are `List Char`;
the members map is an association list with unique keys.  Go's interface
types are a closed sum here: `Member.mstate` covers the Go `*state` struct
(element kind `State` or `FinalState`), `Member.mvertex` the Go `*vertex`
struct (kind `Initial` or `Choice`).  Element kinds are modelled from the
spec (§3) because the repository's `kind` package is not in the provided
sources. -/

abbrev QName := List Char

/-- Vertex element kinds (modelled from the spec, §3). -/
inductive VKind where
  | State
  | FinalState
  | Initial
  | Choice
  deriving DecidableEq, Repr

/-- Transition kinds, derived at build time (spec §3 / `hsm.go`). -/
inductive TKind where
  | Self
  | Internal
  | Local
  | External
  deriving DecidableEq, Repr

/-- Embeds the `paths` struct: a precomputed `(enter, exit)` pair. -/
structure Paths where
  enter : List QName
  exit : List QName
  deriving DecidableEq, Repr

/-- Embeds the `state` struct's model-relevant fields. -/
structure StateData where
  initial : QName := []
  entry : List QName := []
  exit : List QName := []
  activities : List QName := []
  deferred : List (List Char) := []
  transitions : List QName := []
  deriving DecidableEq, Repr

/-- Embeds the `transition` struct.  `paths` is the per-leaf path table
(a Go map keyed by qualified name). -/
structure TransitionData where
  source : QName
  target : QName := []
  guard : QName := []
  effect : List QName := []
  events : List (List Char) := []
  kind : TKind := .External
  paths : List (QName × Paths) := []
  deriving DecidableEq, Repr

/-- The closed sum of model members (Go's `elements.NamedElement`
implementations). -/
inductive Member where
  | mstate (kind : VKind) (s : StateData)
  | mvertex (kind : VKind) (transitions : List QName)
  | mtransition (t : TransitionData)
  | mbehavior
  | mconstraint
  deriving DecidableEq, Repr

/-- Embeds the model's `members` name map. -/
structure Model where
  members : List (QName × Member)
  deriving DecidableEq, Repr

/-- Map lookup in `model.members`. -/
def Model.find? (m : Model) (q : QName) : Option Member :=
  (m.members.find? (fun kv => kv.1 = q)).map (·.2)

/-- Embeds `get[*state](model, name)`: the typed lookup returns nil for a
missing name, the empty name, or a member that is not a `*state`. -/
def Model.getState? (m : Model) (q : QName) : Option (VKind × StateData) :=
  if q = [] then none
  else
    match m.find? q with
    | some (.mstate k s) => some (k, s)
    | _ => none

/-- Embeds `get[*vertex](model, name)`. -/
def Model.getVertex? (m : Model) (q : QName) : Option (VKind × List QName) :=
  if q = [] then none
  else
    match m.find? q with
    | some (.mvertex k ts) => some (k, ts)
    | _ => none

/-- Embeds `get[*transition](model, name)`. -/
def Model.getTransition? (m : Model) (q : QName) : Option TransitionData :=
  if q = [] then none
  else
    match m.find? q with
    | some (.mtransition t) => some t
    | _ => none

/-- Embeds `get[*behavior[T]](model, name)`. -/
def Model.isBehavior (m : Model) (q : QName) : Bool :=
  if q = [] then false
  else
    match m.find? q with
    | some .mbehavior => true
    | _ => false

/-- Embeds `get[*constraint[T]](model, name)`. -/
def Model.isConstraint (m : Model) (q : QName) : Bool :=
  if q = [] then false
  else
    match m.find? q with
    | some .mconstraint => true
    | _ => false

/-- Embeds `element.Owner()`: empty for the root, else `path.Dir`. -/
def Owner (q : QName) : QName :=
  if q = ['/'] then [] else dir q

/-! ### Build-time computations

Embeds the deferred computations pushed by the `Transition` and `State`
builders: transition-kind derivation, the shared enter list, the per-leaf
exit lists, and the wildcards-last stable sort of a state's outgoing
transitions. -/

/-- Embeds the kind derivation in the `Transition` builder. -/
def transitionKind (source target : QName) : TKind :=
  if target = source then .Self
  else if target = [] then .Internal
  else if IsAncestor source target then .Local
  else .External

/-- Embeds the enter-list loop of the `Transition` builder:
`for entering != lca && entering != "/" && entering != ""` walking
`path.Dir` upward, prepending each visited name.  Fueled (the Go loop
terminates for canonical rooted names; callers pass the name length). -/
def enterChain : Nat → QName → QName → List QName
  | 0, _, _ => []
  | fuel + 1, entering, lca =>
    if entering = lca ∨ entering = ['/'] ∨ entering = [] then []
    else enterChain fuel (dir entering) lca ++ [entering]

/-- Embeds the per-leaf exit-list loop of the `Transition` builder:
`for exiting != lca && exiting != ""` appending each visited name, breaking
after appending the root. -/
def exitChain : Nat → QName → QName → List QName
  | 0, _, _ => []
  | fuel + 1, exiting, lca =>
    if exiting = lca ∨ exiting = [] then []
    else exiting :: (if exiting = ['/'] then [] else exitChain fuel (dir exiting) lca)

/-- Embeds the shared enter list: the upward walk from the target, plus the
source once more for `Self` transitions. -/
def computeEnter (source target : QName) (kind : TKind) : List QName :=
  enterChain (target.length + 1) target (LCA source target) ++
    (if kind = .Self then [source] else [])

/-- Embeds the path-table computation pushed by the `Transition` builder:
for every member whose qualified name has the source as a string prefix and
whose element kind is a vertex, record the shared enter list and the walk
from that member up to (excluding) the LCA (empty for `Internal`). -/
def computePaths (members : List (QName × Member)) (source target : QName)
    (kind : TKind) : List (QName × Paths) :=
  let lca := LCA source target
  let enter := computeEnter source target kind
  members.filterMap (fun kv =>
    match kv with
    | (q, .mstate _ _) =>
      if source.isPrefixOf q then
        some (q, ⟨enter, if kind = .Internal then [] else exitChain (q.length + 1) q lca⟩)
      else none
    | (q, .mvertex _ _) =>
      if source.isPrefixOf q then
        some (q, ⟨enter, if kind = .Internal then [] else exitChain (q.length + 1) q lca⟩)
      else none
    | _ => none)

/-- Embeds `hasWildcard(events...)`: some event pattern contains `'*'`. -/
def hasWildcard (events : List (List Char)) : Bool :=
  events.any (fun e => e.contains '*')

/-- Whether a transition name's event set contains a wildcard pattern (the
sort key of the `State` builder's deferred sort). -/
def transHasWildcard (m : Model) (q : QName) : Bool :=
  match m.getTransition? q with
  | some t => hasWildcard t.events
  | none => false

/-- Embeds the effect of the `State` builder's
`slices.SortStableFunc(element.transitions, ...)`: the comparator orders
solely by the boolean `hasWildcard` key (non-wildcard before wildcard,
ties equal), and a stable sort by a boolean key is exactly the stable
partition that keeps non-wildcard transitions first, preserving relative
order within each class. -/
def sortTransitions (m : Model) (ts : List QName) : List QName :=
  ts.filter (fun q => ¬ transHasWildcard m q) ++ ts.filter (fun q => transHasWildcard m q)

/-! ### The transition engine

Embeds `hsm.enter`, `hsm.exit`, `hsm.transition`, `hsm.enabled` and the
walk of `hsm.process`.  Behaviors and guards are user code; executing a
behavior is recorded as a trace step, and guards are decided by the
oracle `geval` (deterministic per guard name and event).  The `enter` /
`transition` mutual recursion is driven by structural fuel; Go recurses
unboundedly (and overflows on degenerate cyclic choice models). -/

/-- One observable action of the engine.  `exitEl` / `enterEl` mark the
exit / entry protocol being invoked on an element; `exitB` / `entryB` /
`act` / `eff` record an individual behavior execution. -/
inductive Step where
  | exitEl (q : QName)
  | enterEl (q : QName)
  | exitB (q : QName)
  | entryB (q : QName)
  | act (q : QName)
  | eff (q : QName)
  deriving DecidableEq, Repr

/-- Embeds `hsm.exit`: for a `*state`, cancel its activities (a concurrency
effect outside the trace) and run its exit behaviors; nothing otherwise.
The leading `exitEl` marks the protocol invocation. -/
def exitProtocol (m : Model) (q : QName) : List Step :=
  Step.exitEl q ::
    (match m.find? q with
     | some (.mstate _ s) =>
       s.exit.filterMap (fun b => if m.isBehavior b then some (.exitB b) else none)
     | _ => [])

/-- The engine's recursion, merged into one fueled function: `.enter`
embeds `hsm.enter` (with the default-entry flag), `.trans` embeds
`hsm.transition` (whose first argument is the current element); `.choose`
and `.enters` embed, respectively, the branch loop of the `Choice` case of
`hsm.enter` and the enter loop of `hsm.transition` (plain Go loops, spread
over fuel only so the whole recursion is structural).  Returns the
resulting element (Go returns `nil` on misuse; `none`, also on fuel
exhaustion — Go recurses unboundedly) and the trace of observable
actions. -/
inductive Call where
  | enter (q : QName) (defaultEntry : Bool)
  | trans (current : QName) (t : TransitionData)
  | choose (q : QName) (ts : List QName)
  | enters (t : TransitionData) (cur : QName) (rest : List QName)

def engine (m : Model) (geval : QName → Event → Bool) (ev : Event) :
    Nat → Call → Option QName × List Step
  | 0, _ => (none, [])
  | fuel + 1, .enter q defaultEntry =>
    match m.find? q with
    | some (.mstate .State s) =>
      let tr := Step.enterEl q ::
        (s.entry.filterMap (fun b => if m.isBehavior b then some (.entryB b) else none) ++
          s.activities.filterMap (fun b => if m.isBehavior b then some (.act b) else none))
      if ¬ defaultEntry ∨ s.initial = [] then (some q, tr)
      else
        match m.getVertex? s.initial with
        | some (_, t0 :: _) =>
          match m.getTransition? t0 with
          | some t =>
            let r := engine m geval ev fuel (.trans q t)
            (r.1, tr ++ r.2)
          | none => (some q, tr)
        | _ => (some q, tr)
    | some (.mvertex .Choice ts) =>
      -- the `FinalState` owner-is-root termination side effect of Go's
      -- `sm.enter` is a context cancellation, outside the embedded state
      let r := engine m geval ev fuel (.choose q ts)
      (r.1, Step.enterEl q :: r.2)
    | some (.mstate .FinalState _) => (some q, [Step.enterEl q])
    | _ => (none, [Step.enterEl q])
  | fuel + 1, .choose q ts =>
    match ts with
    | [] => (none, [])
    | tq :: rest =>
      match m.getTransition? tq with
      | none => engine m geval ev fuel (.choose q rest)
      | some t =>
        if m.isConstraint t.guard ∧ ¬ geval t.guard ev then
          engine m geval ev fuel (.choose q rest)
        else
          engine m geval ev fuel (.trans q t)
  | fuel + 1, .trans current t =>
    match (t.paths.find? (fun kv => kv.1 = current)).map (·.2) with
    | none => (none, [])
    | some path =>
      let exitsOk := path.exit.all (fun x => (m.find? x).isSome)
      let exTr := ((path.exit.takeWhile (fun x => (m.find? x).isSome)).map
        (exitProtocol m)).flatten
      if ¬ exitsOk then (none, exTr)
      else
        let current2 := match path.exit.getLast? with
          | some last => last
          | none => current
        let efTr := t.effect.filterMap
          (fun b => if m.isBehavior b then some (Step.eff b) else none)
        if t.kind = .Internal then (some current2, exTr ++ efTr)
        else
          let r := engine m geval ev fuel (.enters t current2 path.enter)
          (r.1, exTr ++ efTr ++ r.2)
  | fuel + 1, .enters t cur rest =>
    match rest with
    | [] => (if (m.find? t.target).isSome then some t.target else none, [])
    | e :: rest' =>
      if (m.find? e).isSome then
        let defaultEntry := e = t.target
        let r := engine m geval ev fuel (.enter e defaultEntry)
        if defaultEntry then r
        else
          let r2 := engine m geval ev fuel
            (.enters t (match r.1 with | some x => x | none => cur) rest')
          (r2.1, r.2 ++ r2.2)
      else (none, [])

/-! ### Event processing: `hsm.enabled`, the walk of `hsm.process`, the
run-to-completion loop, `hsm.stop` and `hsm.Dispatch`. -/

/-- Embeds the inner pattern loop of `hsm.enabled`: for each event pattern
of the transition, if the pattern does not match, continue; else if a guard
constraint exists and rejects, continue; else the transition is enabled. -/
def enabledOn (m : Model) (geval : QName → Event → Bool) (ev : Event)
    (guard : QName) : List (List Char) → Bool
  | [] => false
  | evt :: rest =>
    if ¬ Match ev.name [evt] then enabledOn m geval ev guard rest
    else if m.isConstraint guard ∧ ¬ geval guard ev then enabledOn m geval ev guard rest
    else true

/-- Embeds `hsm.enabled`: the first outgoing transition (in stored order)
with a matching pattern and satisfied guard. -/
def enabledF (m : Model) (geval : QName → Event → Bool) (ev : Event) :
    List QName → Option TransitionData
  | [] => none
  | tq :: rest =>
    match m.getTransition? tq with
    | none => enabledF m geval ev rest
    | some t =>
      if enabledOn m geval ev t.guard t.events then some t
      else enabledF m geval ev rest

/-- Outcome of the per-event walk inside `hsm.process`: a transition fired
(with the new stored leaf), fired but `hsm.transition` returned nil (no
store), the event was set aside as deferred, or nothing applied. -/
inductive WalkResult where
  | fired (newLeaf : QName) (tr : List Step)
  | firedAbort (tr : List Step)
  | deferredEv
  | dropped
  deriving DecidableEq, Repr

/-- Embeds the `for qualifiedName != ""` walk of `hsm.process` for one
event.  `leaf` is the current state element passed to `hsm.transition`;
the walk variable starts at the same name.  Fueled: Go's loop terminates
because the owner chain reaches `""`. -/
def processWalk (m : Model) (geval : QName → Event → Bool) (engineFuel : Nat)
    (ev : Event) (leaf : QName) : Nat → QName → WalkResult
  | 0, _ => .dropped
  | fuel + 1, q =>
    if q = [] then .dropped
    else
      match m.getState? q with
      | none => .dropped
      | some (_, s) =>
        match enabledF m geval ev s.transitions with
        | some t =>
          let r := engine m geval ev engineFuel (.trans leaf t)
          match r.1 with
          | none => .firedAbort r.2
          | some st => .fired st r.2
        | none =>
          if s.deferred ≠ [] ∧ Match ev.name s.deferred then .deferredEv
          else processWalk m geval engineFuel ev leaf fuel (Owner q)

/-- The mutable state of one `hsm.process` invocation: the stored leaf, the
queue, the deferred list, and the id counter modelling `muid.Make()`. -/
structure RoundState where
  leaf : QName
  queue : Queue
  deferred : List Event
  nextId : Nat
  deriving DecidableEq, Repr

/-- The outcome of handling one popped event: the new round state, the
push batches performed (for the requeue bookkeeping), and the events set
aside as deferred by this step. -/
structure StepOut where
  st : RoundState
  pushed : List (List Event)
  deferredNow : List Event
  deriving DecidableEq, Repr

/-- Embeds one iteration of the `for ok` loop of `hsm.process` on the
already-popped event `ev0`: assign an id if zero, walk for an enabled
transition, store the new leaf and re-queue the held deferred events when
one fires, set the event aside when deferred, and drop it otherwise. -/
def roundStep (m : Model) (geval : QName → Event → Bool) (engineFuel : Nat)
    (st : RoundState) (ev0 : Event) : StepOut :=
  let ev := if ev0.id = 0 then { ev0 with id := st.nextId } else ev0
  let n' := if ev0.id = 0 then st.nextId + 1 else st.nextId
  match processWalk m geval engineFuel ev st.leaf (st.leaf.length + 1) st.leaf with
  | .fired newLeaf _ =>
    if st.deferred ≠ [] then
      ⟨⟨newLeaf, st.queue.push st.deferred, [], n'⟩, [st.deferred], []⟩
    else
      ⟨⟨newLeaf, st.queue, st.deferred, n'⟩, [], []⟩
  | .firedAbort _ => ⟨⟨st.leaf, st.queue, st.deferred, n'⟩, [], []⟩
  | .deferredEv => ⟨⟨st.leaf, st.queue, st.deferred ++ [ev], n'⟩, [], [ev]⟩
  | .dropped => ⟨⟨st.leaf, st.queue, st.deferred, n'⟩, [], []⟩

/-- Embeds the full `for ok` loop of `hsm.process` plus the final
`sm.queue.push(deferred...)`.  Returns the final round state, the log of
push-back batches, the log of deferrals (in order), and whether the loop
drained the queue within fuel. -/
def processRound (m : Model) (geval : QName → Event → Bool) (engineFuel : Nat) :
    Nat → RoundState → RoundState × List (List Event) × List Event × Bool
  | 0, st => (st, [], [], false)
  | fuel + 1, st =>
    match st.queue.pop with
    | none =>
      (⟨st.leaf, st.queue.push st.deferred, [], st.nextId⟩, [st.deferred], [], true)
    | some (ev0, q') =>
      let out := roundStep m geval engineFuel ⟨st.leaf, q', st.deferred, st.nextId⟩ ev0
      let r := processRound m geval engineFuel fuel out.st
      (r.1, out.pushed ++ r.2.1, out.deferredNow ++ r.2.2.1, r.2.2.2)

/-- Embeds the exit walk of `hsm.stop`: exit the current element, look up
its owner among the members, store it and continue while found.  Returns
the last stored name and the exit trace. -/
def stopLoop (m : Model) : Nat → QName → QName → QName × List Step
  | 0, _, stored => (stored, [])
  | fuel + 1, q, stored =>
    let tr := exitProtocol m q
    match m.find? (Owner q) with
    | some _ =>
      let r := stopLoop m fuel (Owner q) (Owner q)
      (r.1, tr ++ r.2)
    | none => (stored, tr)

/-- `hsm.stop` from the active leaf: the state left stored when the walk
ends. -/
def stopFinal (m : Model) (leaf : QName) : QName × List Step :=
  stopLoop m (leaf.length + 1) leaf leaf

/-- What `hsm.Dispatch` does with an event. -/
inductive DispatchAction where
  | closedChannel
  | enqueue
  deriving DecidableEq, Repr

/-- Embeds `hsm.Dispatch` on a live (non-nil) machine value:
return the already-closed channel when the loaded state is nil, otherwise
normalize a zero kind to `kind.Event`, push the event and schedule
processing. -/
def DispatchF (stateLoaded : Option QName) (ev : Event) (q : Queue) :
    DispatchAction × Queue :=
  match stateLoaded with
  | none => (.closedChannel, q)
  | some _ =>
    let ev' := if ev.kind = .Unset then { ev with kind := .Normal } else ev
    (.enqueue, q.push [ev'])

/-- Embeds `hsm.State` on a non-nil machine: the loaded element's qualified
name, or the empty string when no state is loaded. -/
def StateF : Option QName → List Char
  | none => []
  | some q => q

/-! ### Canonical names and model well-formedness

The builder only produces canonical rooted qualified names; the
well-formedness predicate below packages what `Define` guarantees for a
compiled model, phrased decidably so concrete models can discharge it by
evaluation. -/

/-- Splits a slash-separated run into segments. -/
def splitOnSlash : List Char → List (List Char)
  | [] => [[]]
  | c :: rest =>
    if c = '/' then [] :: splitOnSlash rest
    else
      match splitOnSlash rest with
      | [] => [[c]]
      | s :: ss => (c :: s) :: ss

/-- The segments of a canonical rooted name (garbage on other inputs). -/
def segsOf (q : QName) : List (List Char) :=
  match q with
  | '/' :: rest => if rest = [] then [] else splitOnSlash rest
  | _ => []

/-- A canonical rooted qualified name: it round-trips through its segment
list and every segment is valid. -/
def CanonName (q : QName) : Prop :=
  q = fromSegs (segsOf q) ∧ ∀ s ∈ segsOf q, SegOk s

instance (q : QName) : Decidable (CanonName q) := by
  unfold CanonName; infer_instance

/-- Whether a member is a vertex of one of the given kinds. -/
def kindIs (m : Model) (q : QName) (ks : List VKind) : Prop :=
  match m.find? q with
  | some (.mstate k _) => k ∈ ks
  | some (.mvertex k _) => k ∈ ks
  | _ => False

instance (m : Model) (q : QName) (ks : List VKind) : Decidable (kindIs m q ks) := by
  unfold kindIs
  rcases m.find? q with _ | el
  · exact inferInstanceAs (Decidable False)
  · cases el <;> simp only <;> infer_instance

/-- Whether the member at `q` is a plain `State` kind state. -/
def stateAtB (m : Model) (q : QName) : Bool :=
  match m.find? q with
  | some (.mstate .State _) => true
  | _ => false

/-- Whether `tq` names a transition whose source field is `q`. -/
def sourceOkB (m : Model) (q : QName) (tq : QName) : Bool :=
  match m.getTransition? tq with
  | some t => decide (t.source = q)
  | none => false

/-- Whether the member at `q` is an `Initial` vertex. -/
def initialVertexB (m : Model) (q : QName) : Bool :=
  match m.find? q with
  | some (.mvertex .Initial _) => true
  | _ => false

/-- Build guarantees for one transition member. -/
def TransWF (m : Model) (t : TransitionData) : Prop :=
  t.source ≠ [] ∧ CanonName t.source ∧ (m.find? t.source).isSome ∧
  (t.target ≠ [] → CanonName t.target ∧ (m.find? t.target).isSome) ∧
  t.kind = transitionKind t.source t.target ∧
  (∀ b ∈ t.effect, m.isBehavior b) ∧
  (kindIs m t.source [.Initial] → t.target ≠ []) ∧
  (if kindIs m t.source [.Initial] then
    t.paths = [(dir t.source,
      ⟨computeEnter t.source t.target t.kind, [t.source]⟩)]
   else t.paths = computePaths m.members t.source t.target t.kind)

instance (m : Model) (t : TransitionData) : Decidable (TransWF m t) := by
  unfold TransWF; infer_instance

/-- Build guarantees for one member at name `q`.  States and vertices are
always declared inside a `State()` (or at the root), so their parent name
is a state; behaviors and constraints can be owned by transitions, so no
such clause holds for them. -/
def MemberWF (m : Model) (q : QName) : Member → Prop
  | .mtransition t => TransWF m t
  | .mstate k s =>
    (k = .State ∨ k = .FinalState) ∧
    (q ≠ ['/'] → stateAtB m (dir q) = true) ∧
    (∀ tq ∈ s.transitions, sourceOkB m q tq = true) ∧
    s.transitions = sortTransitions m s.transitions ∧
    (s.initial ≠ [] → initialVertexB m s.initial = true)
  | .mvertex k ts =>
    (k = .Initial ∨ k = .Choice) ∧
    (q ≠ ['/'] → stateAtB m (dir q) = true) ∧
    (∀ tq ∈ ts, sourceOkB m q tq = true)
  | _ => True

instance (m : Model) (q : QName) (el : Member) : Decidable (MemberWF m q el) := by
  cases el <;> unfold MemberWF <;> infer_instance

/-- Build guarantees for a compiled model, as established by `Define` and
the element builders of `hsm.go`. -/
def ModelWF (m : Model) : Prop :=
  (m.members.map (·.1)).Nodup ∧
  stateAtB m ['/'] = true ∧
  (∀ kv ∈ m.members, CanonName kv.1 ∧ MemberWF m kv.1 kv.2)

instance (m : Model) : Decidable (ModelWF m) := by
  unfold ModelWF
  infer_instance

/-! ### Claim-side selection (§4.D step 1 as worded)

The claim describes the search as: walk the ancestor chain; at each state,
examine the outgoing transitions in declaration order with wildcard-pattern
transitions moved after the others (stably), and select the first whose
event pattern matches and whose guard holds.  It does not mention that the
upward search is cut short by a matching deferral pattern. -/

/-- Claim-side per-transition enabledness: some event pattern matches and
the guard (when present) holds. -/
def claimEnabledF (m : Model) (geval : QName → Event → Bool) (ev : Event) :
    List QName → Option TransitionData
  | [] => none
  | tq :: rest =>
    match m.getTransition? tq with
    | none => claimEnabledF m geval ev rest
    | some t =>
      if (t.events.any (fun p => Match ev.name [p])) ∧
          (m.isConstraint t.guard → geval t.guard ev) then some t
      else claimEnabledF m geval ev rest

/-- The search exactly as the claim words it: no deferral cut-off. -/
def claimSelect (m : Model) (geval : QName → Event → Bool) (ev : Event) :
    Nat → QName → Option TransitionData
  | 0, _ => none
  | fuel + 1, q =>
    if q = [] then none
    else
      match m.getState? q with
      | none => none
      | some (_, s) =>
        match claimEnabledF m geval ev (sortTransitions m s.transitions) with
        | some t => some t
        | none => claimSelect m geval ev fuel (Owner q)

/-- The selection the code's walk performs (the transition part of
`processWalk`): as `claimSelect`, except that the walk stops — selecting
nothing — at the first visited state whose deferral patterns match the
event. -/
def selectTransition (m : Model) (geval : QName → Event → Bool) (ev : Event) :
    Nat → QName → Option TransitionData
  | 0, _ => none
  | fuel + 1, q =>
    if q = [] then none
    else
      match m.getState? q with
      | none => none
      | some (_, s) =>
        match enabledF m geval ev s.transitions with
        | some t => some t
        | none =>
          if s.deferred ≠ [] ∧ Match ev.name s.deferred then none
          else selectTransition m geval ev fuel (Owner q)

/-- Whether the member at `q` is a state member (of either state kind). -/
def mstateAtB (m : Model) (q : QName) : Bool :=
  match m.find? q with
  | some (.mstate _ _) => true
  | _ => false

/-- Whether the member at `q` is a state or a pseudostate vertex. -/
def vertexAtB (m : Model) (q : QName) : Bool :=
  match m.find? q with
  | some (.mstate _ _) => true
  | some (.mvertex _ _) => true
  | _ => false

/-- Whether `t` is one of the model's transition members. -/
def transMemB (m : Model) (t : TransitionData) : Bool :=
  m.members.any (fun kv => kv.2 = Member.mtransition t)

/-- Every transition out of a `Choice` vertex has a target.  The builder
does not enforce this: a targetless (internal, effect-only) branch is
accepted inside `Choice(...)`. -/
def choiceTargetsOkB (m : Model) : Bool :=
  m.members.all (fun kv =>
    match kv.2 with
    | .mtransition t =>
      !(decide (kindIs m t.source [.Choice])) || decide (t.target ≠ [])
    | _ => true)

/-- The precondition each engine call form maintains (see the C6
invariant): transitions are members, an internal transition is executed
with a state as the current element, choices hand their own branch list to
the branch loop, and an enter sequence either still ends at the target or
the target itself is a state member. -/
def CallOk (m : Model) : Call → Prop
  | .enter _ _ => True
  | .trans current t =>
    transMemB m t = true ∧ vertexAtB m t.source = true ∧
      (t.kind = .Internal → mstateAtB m current = true)
  | .choose q ts =>
    (∀ tq ∈ ts, sourceOkB m q tq = true) ∧ kindIs m q [.Choice]
  | .enters t _ rest =>
    transMemB m t = true ∧
      (rest.getLast? = some t.target ∨
        (t.target ≠ [] ∧ mstateAtB m t.target = true))

/-- The claim-side search amended with the code's deferral cut-off: the
walk stops (selecting nothing) at the first visited state whose deferral
patterns match the event name. -/
def claimSelectD (m : Model) (geval : QName → Event → Bool) (ev : Event) :
    Nat → QName → Option TransitionData
  | 0, _ => none
  | fuel + 1, q =>
    if q = [] then none
    else
      match m.getState? q with
      | none => none
      | some (_, s) =>
        match claimEnabledF m geval ev (sortTransitions m s.transitions) with
        | some t => some t
        | none =>
          if s.deferred ≠ [] ∧ Match ev.name s.deferred then none
          else claimSelectD m geval ev fuel (Owner q)

/-- A queue operation: `some es` pushes the batch `es`, `none` pops (the
popped event, if any, is handed to the consumer and leaves the queue). -/
def Queue.apply (q : Queue) (op : Option (List Event)) : Queue :=
  match op with
  | some es => q.push es
  | none =>
    match q.pop with
    | some (_, q') => q'
    | none => q

/-- Runs a sequence of push/pop operations from a starting queue. -/
def Queue.runOps (ops : List (Option (List Event))) (q : Queue) : Queue :=
  ops.foldl Queue.apply q

/-- Bucket discipline: the completion bucket holds only completion-kind
events and the normal bucket holds none. -/
def QueueWF (q : Queue) : Prop :=
  (∀ e ∈ q.completionEvents, e.kind.isCompletion) ∧
    (∀ e ∈ q.events, ¬ e.kind.isCompletion)

instance (q : Queue) : Decidable (QueueWF q) := by
  unfold QueueWF; infer_instance

/-! ### Concrete compiled models

`buildPaths` replays, over a finished member list, the deferred
computations the builders push: every transition gets its derived kind and
its precomputed path table (with the special single-entry table for
initial-vertex sources).  The concrete models below are used to evaluate
the claims on explicit inputs. -/

/-- Shorthand for writing qualified names. -/
def qn (s : String) : QName := s.data

/-- Replays the build-time kind derivation and path precomputation of the
`Transition` builder over a finished member list. -/
def buildPaths (members : List (QName × Member)) : List (QName × Member) :=
  members.map (fun kv =>
    match kv with
    | (q, .mtransition t) =>
      let k := transitionKind t.source t.target
      let isInit : Bool :=
        match members.find? (fun kv2 : QName × Member => decide (kv2.1 = t.source)) with
        | some (_, .mvertex .Initial _) => true
        | _ => false
      (q, .mtransition { t with
        kind := k
        paths :=
          if isInit = true then
            [(dir t.source, ⟨computeEnter t.source t.target k, [t.source]⟩)]
          else computePaths members t.source t.target k })
    | other => other)

/-- Raw members of the running example model: states `/a` (defers `u`, one
outgoing transition `t1` to `/b/b1` on `c`) and `/b` (internal transition
`t2` on `i`), with entry/exit behaviors and effects. -/
def exRaw : List (QName × Member) :=
  [ (qn "/", .mstate .State {}),
    (qn "/a", .mstate .State
      { deferred := [("u").data], transitions := [qn "/a/t1"],
        entry := [qn "/a/en"], exit := [qn "/a/ex"] }),
    (qn "/a/en", .mbehavior),
    (qn "/a/ex", .mbehavior),
    (qn "/a/t1", .mtransition
      { source := qn "/a", target := qn "/b/b1", events := [("c").data],
        effect := [qn "/a/t1/eff"] }),
    (qn "/a/t1/eff", .mbehavior),
    (qn "/b", .mstate .State
      { entry := [qn "/b/en"], transitions := [qn "/b/t2"] }),
    (qn "/b/en", .mbehavior),
    (qn "/b/b1", .mstate .State { entry := [qn "/b/b1/en"] }),
    (qn "/b/b1/en", .mbehavior),
    (qn "/b/t2", .mtransition
      { source := qn "/b", target := [], events := [("i").data],
        effect := [qn "/b/t2/eff"] }),
    (qn "/b/t2/eff", .mbehavior) ]

/-- The compiled example model. -/
def exampleM : Model := ⟨buildPaths exRaw⟩

/-- The compiled transition `/a/t1` of the example model. -/
def exT1 : TransitionData :=
  { source := qn "/a", target := qn "/b/b1", events := [("c").data],
    effect := [qn "/a/t1/eff"],
    kind := transitionKind (qn "/a") (qn "/b/b1"),
    paths := computePaths exRaw (qn "/a") (qn "/b/b1")
      (transitionKind (qn "/a") (qn "/b/b1")) }

/-- The compiled transition `/b/t2` (internal) of the example model. -/
def exT2 : TransitionData :=
  { source := qn "/b", target := [], events := [("i").data],
    effect := [qn "/b/t2/eff"],
    kind := transitionKind (qn "/b") [],
    paths := computePaths exRaw (qn "/b") [] (transitionKind (qn "/b") []) }

/-- Raw members of the choice-internal model: `/a --e--> /c`, where the
choice `/c` has a single targetless branch carrying only an effect. -/
def mc6Raw : List (QName × Member) :=
  [ (qn "/", .mstate .State {}),
    (qn "/a", .mstate .State { transitions := [qn "/a/t"] }),
    (qn "/a/t", .mtransition
      { source := qn "/a", target := qn "/c", events := [("e").data] }),
    (qn "/c", .mvertex .Choice [qn "/c/t0"]),
    (qn "/c/t0", .mtransition
      { source := qn "/c", target := [], effect := [qn "/c/t0/eff"] }),
    (qn "/c/t0/eff", .mbehavior) ]

/-- The compiled choice-internal model. -/
def mc6 : Model := ⟨buildPaths mc6Raw⟩

/-- The compiled transition `/a/t` of the choice-internal model. -/
def mc6T : TransitionData :=
  { source := qn "/a", target := qn "/c", events := [("e").data],
    kind := transitionKind (qn "/a") (qn "/c"),
    paths := computePaths mc6Raw (qn "/a") (qn "/c")
      (transitionKind (qn "/a") (qn "/c")) }

/-- Modelled from the spec: the chain of elements strictly below the
ancestor with `l` segments, down a canonical name with segment list `gs` —
the names `fromSegs (gs.take k)` for `k` from `l + 1` up to `gs.length`,
in descending-depth order it is reversed. -/
def chainBelow (l : Nat) (gs : List (List Char)) : List QName :=
  (List.range' (l + 1) (gs.length - l)).map (fun k => fromSegs (gs.take k))

/-- Modelled from the spec: the segment list of `LCA(s, g)` on canonical
names — the parent when the names are equal, the longest common segment
prefix otherwise. -/
def lcaSegs (ss gs : List (List Char)) : List (List Char) :=
  if ss = gs then ss.dropLast else commonPrefix ss gs

/-- The element-level projection of an engine trace: which elements had
their exit or entry protocol invoked and which effects ran, dropping the
individual entry/exit/activity behavior executions. -/
def elMarkers : List Step → List Step :=
  List.filterMap (fun s =>
    match s with
    | Step.exitEl q => some (Step.exitEl q)
    | Step.enterEl q => some (Step.enterEl q)
    | Step.eff b => some (Step.eff b)
    | _ => none)

/-- Raw members of the self-transition model: `/s --e--> /s`. -/
def mc2Raw : List (QName × Member) :=
  [ (qn "/", .mstate .State {}),
    (qn "/s", .mstate .State
      { transitions := [qn "/s/t"], entry := [qn "/s/en"],
        exit := [qn "/s/ex"] }),
    (qn "/s/en", .mbehavior),
    (qn "/s/ex", .mbehavior),
    (qn "/s/t", .mtransition
      { source := qn "/s", target := qn "/s", events := [("e").data],
        effect := [qn "/s/t/eff"] }),
    (qn "/s/t/eff", .mbehavior) ]

/-- The compiled self-transition model. -/
def mc2 : Model := ⟨buildPaths mc2Raw⟩

/-- The compiled transition `/s/t` of the self-transition model. -/
def mc2T : TransitionData :=
  { source := qn "/s", target := qn "/s", events := [("e").data],
    effect := [qn "/s/t/eff"],
    kind := transitionKind (qn "/s") (qn "/s"),
    paths := computePaths mc2Raw (qn "/s") (qn "/s")
      (transitionKind (qn "/s") (qn "/s")) }

/-- Raw members of the requeue-timing model: `/d` defers `u` and fires on
`c` to `/d2`. -/
def mc4Raw : List (QName × Member) :=
  [ (qn "/", .mstate .State {}),
    (qn "/d", .mstate .State
      { deferred := [("u").data], transitions := [qn "/d/t"] }),
    (qn "/d/t", .mtransition
      { source := qn "/d", target := qn "/d2", events := [("c").data] }),
    (qn "/d2", .mstate .State {}) ]

/-- The compiled requeue-timing model. -/
def mc4 : Model := ⟨buildPaths mc4Raw⟩

/-- Raw members of the deferral-shadowing model: the leaf `/p/a` defers
`e`, while its parent `/p` has a transition on `e`. -/
def mc1Raw : List (QName × Member) :=
  [ (qn "/", .mstate .State {}),
    (qn "/p", .mstate .State { transitions := [qn "/p/t"] }),
    (qn "/p/t", .mtransition
      { source := qn "/p", target := qn "/p/b", events := [("e").data] }),
    (qn "/p/a", .mstate .State { deferred := [("e").data] }),
    (qn "/p/b", .mstate .State {}) ]

/-- The compiled deferral-shadowing model. -/
def mc1 : Model := ⟨buildPaths mc1Raw⟩

/-- The compiled transition `/p/t` of the deferral-shadowing model. -/
def mc1T : TransitionData :=
  { source := qn "/p", target := qn "/p/b", events := [("e").data],
    kind := transitionKind (qn "/p") (qn "/p/b"),
    paths := computePaths mc1Raw (qn "/p") (qn "/p/b")
      (transitionKind (qn "/p") (qn "/p/b")) }

lemma takeWhile_append_all (p : Char → Bool) (s t : List Char)
    (hs : ∀ c ∈ s, p c) (ht : ∀ c t', t = c :: t' → p c = false) :
    (s ++ t).takeWhile p = s ∧ (s ++ t).dropWhile p = t := by
  induction s with
  | nil =>
    simp only [List.nil_append]
    cases t with
    | nil => simp
    | cons c t' =>
      have := ht c t' rfl
      simp [List.takeWhile, List.dropWhile, this]
  | cons c s' ih =>
    have hc := hs c (List.mem_cons_self c s')
    have ih' := ih (fun x hx => hs x (List.mem_cons_of_mem c hx))
    simp [List.takeWhile, List.dropWhile, hc, ih'.1, ih'.2]

lemma catSegs_append (a b : List (List Char)) :
    catSegs (a ++ b) = catSegs a ++ catSegs b := by
  induction a with
  | nil => simp [catSegs]
  | cons s a ih => simp [catSegs, ih]

lemma fromSegs_nil : fromSegs [] = ['/'] := rfl

lemma fromSegs_cons (s : List Char) (ss : List (List Char)) :
    fromSegs (s :: ss) = '/' :: s ++ catSegs ss := by
  simp [fromSegs, catSegs]

lemma fromSegs_ne_nil (ss : List (List Char)) : fromSegs ss ≠ [] := by
  cases ss with
  | nil => simp [fromSegs]
  | cons s ss => simp [fromSegs_cons]

lemma fromSegs_head (ss : List (List Char)) : (fromSegs ss).head? = some '/' := by
  cases ss with
  | nil => rfl
  | cons s ss => simp [fromSegs_cons]

lemma length_fromSegs_eq_one_iff (ss : List (List Char)) (h : ∀ s ∈ ss, SegOk s) :
    (fromSegs ss).length = 1 ↔ ss = [] := by
  cases ss with
  | nil => simp [fromSegs]
  | cons s ss =>
    have hs := h s (List.mem_cons_self s ss)
    have : s ≠ [] := hs.1
    simp only [fromSegs_cons, List.cons_append, List.length_cons, List.length_append]
    constructor
    · intro hl
      exfalso
      cases s with
      | nil => exact this rfl
      | cons c cs => simp at hl
    · intro hl
      exact absurd hl (List.cons_ne_nil s ss)

lemma fromSegs_append_concat (acc : List (List Char)) (s : List Char) :
    fromSegs (acc ++ [s]) = fromSegs acc ++ '/' :: s ∨
      (acc = [] ∧ fromSegs (acc ++ [s]) = '/' :: s) := by
  cases acc with
  | nil => right; exact ⟨rfl, by simp [fromSegs, catSegs]⟩
  | cons a acc =>
    left
    show fromSegs ((a :: acc) ++ [s]) = fromSegs (a :: acc) ++ '/' :: s
    rw [fromSegs, fromSegs, if_neg (by simp), if_neg (by simp), catSegs_append]
    simp [catSegs]

lemma cleanLoop_nil (rooted : Bool) (fuel dotdot : Nat) (out : List Char) :
    cleanLoop rooted fuel [] dotdot out = out := by
  cases fuel <;> rfl

lemma cleanLoop_slash (rooted : Bool) (fuel : Nat) (rest : List Char)
    (dotdot : Nat) (out : List Char) :
    cleanLoop rooted (fuel + 1) ('/' :: rest) dotdot out =
      cleanLoop rooted fuel rest dotdot out := by
  simp [cleanLoop]

lemma clean_rooted (rest : List Char) :
    clean ('/' :: rest) =
      (if cleanLoop true rest.length rest 1 ['/'] = [] then ['.']
       else (cleanLoop true rest.length rest 1 ['/']).reverse) := by
  simp [clean]

lemma cleanLoop_default_step (s t : List Char) (hs : SegOk s)
    (ht : t = [] ∨ t.head? = some '/') (fuel : Nat) (out : List Char) :
    cleanLoop true (fuel + 1) (s ++ t) 1 out =
      cleanLoop true fuel t 1
        (s.reverse ++ (if out.length ≠ 1 then '/' :: out else out)) := by
  obtain ⟨hne, hsl, hdot, hdd⟩ := hs
  obtain ⟨c, s', rfl⟩ : ∃ c s', s = c :: s' := by
    cases s with
    | nil => exact absurd rfl hne
    | cons c s' => exact ⟨c, s', rfl⟩
  have hc : c ≠ '/' := fun h => hsl (h ▸ List.mem_cons_self c s')
  have h2 : ¬ (c = '.' ∧ (s' ++ t = [] ∨ (s' ++ t).head? = some '/')) := by
    rintro ⟨rfl, h | h⟩
    · cases s' with
      | nil => exact hdot rfl
      | cons d s'' => simp at h
    · cases s' with
      | nil => exact hdot rfl
      | cons d s'' =>
        simp only [List.cons_append, List.head?_cons, Option.some.injEq] at h
        exact hsl (h ▸ List.mem_cons_of_mem _ (List.mem_cons_self d s''))
  have h3 : ¬ (c = '.' ∧ (s' ++ t).head? = some '.' ∧
      ((s' ++ t).tail = [] ∨ (s' ++ t).tail.head? = some '/')) := by
    rintro ⟨rfl, hh, htl⟩
    cases s' with
    | nil => exact hdot rfl
    | cons d s'' =>
      simp only [List.cons_append, List.head?_cons, Option.some.injEq] at hh
      subst hh
      cases s'' with
      | nil => exact hdd rfl
      | cons e s''' =>
        simp only [List.cons_append, List.tail_cons, List.head?_cons] at htl
        rcases htl with htl | htl
        · simp at htl
        · simp only [Option.some.injEq] at htl
          refine hsl ?_
          rw [htl] at *
          exact List.mem_cons_of_mem _ (List.mem_cons_of_mem _ (List.mem_cons_self _ _))
  have hsplit := takeWhile_append_all (fun x => x ≠ '/') (c :: s') t
    (fun x hx => by
      simp only [ne_eq, decide_eq_true_eq]
      exact fun hEq => hsl (hEq ▸ hx))
    (fun x t' hxt => by
      rcases ht with rfl | hth
      · simp at hxt
      · rw [hxt] at hth
        simp only [List.head?_cons, Option.some.injEq] at hth
        simp [hth])
  show cleanLoop true (fuel + 1) (c :: (s' ++ t)) 1 out = _
  simp only [cleanLoop]
  rw [if_neg hc, if_neg h2, if_neg h3]
  rcases hsplit with ⟨htake, hdrop⟩
  simp only [List.cons_append] at htake hdrop
  rw [htake, hdrop]
  by_cases hlen : out.length = 1
  · simp [hlen]
  · simp [hlen]

lemma revseg_out (acc : List (List Char)) (s : List Char)
    (hacc : ∀ x ∈ acc, SegOk x) :
    s.reverse ++ (if (fromSegs acc).reverse.length ≠ 1
        then '/' :: (fromSegs acc).reverse else (fromSegs acc).reverse) =
      (fromSegs (acc ++ [s])).reverse := by
  cases acc with
  | nil =>
    rw [if_neg (by simp [fromSegs])]
    simp [fromSegs, catSegs]
  | cons a acc' =>
    have hne : (a :: acc') ≠ ([] : List (List Char)) := by simp
    have hlen1 : (fromSegs (a :: acc')).length ≠ 1 :=
      fun hEq => hne ((length_fromSegs_eq_one_iff _ hacc).mp hEq)
    rw [if_pos (by rw [List.length_reverse]; exact hlen1)]
    have hcat : fromSegs ((a :: acc') ++ [s]) = fromSegs (a :: acc') ++ '/' :: s := by
      rw [fromSegs, fromSegs, if_neg (by simp), if_neg (by simp), catSegs_append]
      simp [catSegs]
    rw [hcat, List.reverse_append]
    simp

lemma cleanLoop_segs : ∀ (ss : List (List Char)) (s : List Char)
    (acc : List (List Char)) (post : List Char) (fuel : Nat),
    SegOk s → (∀ x ∈ ss, SegOk x) → (∀ x ∈ acc, SegOk x) →
    (post = [] ∨ post = ['/']) →
    (s ++ catSegs ss ++ post).length ≤ fuel →
    cleanLoop true fuel (s ++ catSegs ss ++ post) 1 (fromSegs acc).reverse =
      (fromSegs (acc ++ s :: ss)).reverse := by
  intro ss
  induction ss with
  | nil =>
    intro s acc post fuel hs hss hacc hpost hfuel
    simp only [catSegs, List.append_nil] at hfuel ⊢
    obtain ⟨fuel', rfl⟩ : ∃ f, fuel = f + 1 := by
      have h1 : 1 ≤ s.length := by
        cases s with
        | nil => exact absurd rfl hs.1
        | cons c s' => simp
      have h2 : (s ++ post).length = s.length + post.length := by simp
      exact ⟨fuel - 1, by omega⟩
    rw [cleanLoop_default_step s post hs (by rcases hpost with rfl | rfl <;> simp) fuel'
      ((fromSegs acc).reverse)]
    rw [revseg_out acc s hacc]
    rcases hpost with rfl | rfl
    · exact cleanLoop_nil true fuel' 1 _
    · have hf' : 1 ≤ fuel' := by
        have h1 : 1 ≤ s.length := by
          cases s with
          | nil => exact absurd rfl hs.1
          | cons c s' => simp
        have h2 : (s ++ ['/']).length = s.length + 1 := by simp
        omega
      obtain ⟨f'', rfl⟩ : ∃ f, fuel' = f + 1 := ⟨fuel' - 1, by omega⟩
      rw [show ['/'] = '/' :: ([] : List Char) from rfl, cleanLoop_slash]
      exact cleanLoop_nil true f'' 1 _
  | cons x ss' ih =>
    intro s acc post fuel hs hss hacc hpost hfuel
    have hx : SegOk x := hss x (List.mem_cons_self x ss')
    have hss' : ∀ y ∈ ss', SegOk y := fun y hy => hss y (List.mem_cons_of_mem x hy)
    have hslen : 1 ≤ s.length := by
      have := hs.1
      cases s with
      | nil => exact absurd rfl this
      | cons c s' => simp
    simp only [catSegs, List.length_append, List.length_cons] at hfuel
    obtain ⟨fuel', rfl⟩ : ∃ f, fuel = f + 1 := ⟨fuel - 1, by omega⟩
    have hcat : s ++ catSegs (x :: ss') ++ post =
        s ++ ('/' :: (x ++ catSegs ss' ++ post)) := by
      simp [catSegs]
    rw [hcat]
    rw [cleanLoop_default_step s ('/' :: (x ++ catSegs ss' ++ post)) hs (by simp) fuel' _]
    rw [revseg_out acc s hacc]
    obtain ⟨f'', rfl⟩ : ∃ f, fuel' = f + 1 := ⟨fuel' - 1, by omega⟩
    show cleanLoop true (f'' + 1) ('/' :: (x ++ catSegs ss' ++ post)) 1 _ = _
    rw [cleanLoop_slash]
    have := ih x (acc ++ [s]) post f'' hx hss'
      (fun y hy => by
        rcases List.mem_append.mp hy with hy | hy
        · exact hacc y hy
        · simp only [List.mem_singleton] at hy; exact hy ▸ hs)
      hpost
      (by
        have hg : (x ++ catSegs ss' ++ post).length =
            x.length + (catSegs ss').length + post.length := by
          rw [List.length_append, List.length_append]
        omega)
    rw [this]
    simp

lemma clean_fromSegs {ss : List (List Char)} (h : ∀ s ∈ ss, SegOk s) :
    clean (fromSegs ss) = fromSegs ss := by
  cases ss with
  | nil => rfl
  | cons s ss' =>
    have hfs : fromSegs (s :: ss') = '/' :: (s ++ catSegs ss') := by
      simp [fromSegs_cons]
    rw [hfs, clean_rooted]
    have hmain := cleanLoop_segs ss' s [] []
      (s ++ catSegs ss').length
      (h s (List.mem_cons_self s ss'))
      (fun y hy => h y (List.mem_cons_of_mem s hy))
      (by simp)
      (Or.inl rfl)
      (by simp)
    simp only [List.append_nil, List.nil_append] at hmain
    rw [show (fromSegs []).reverse = ['/'] from rfl] at hmain
    rw [hmain]
    rw [if_neg (by simp [fromSegs_ne_nil])]
    simp [hfs]

lemma clean_fromSegs_slash {ss : List (List Char)} (h : ∀ s ∈ ss, SegOk s) :
    clean (fromSegs ss ++ ['/']) = fromSegs ss := by
  cases ss with
  | nil => rfl
  | cons s ss' =>
    have hfs : fromSegs (s :: ss') ++ ['/'] = '/' :: (s ++ catSegs ss' ++ ['/']) := by
      simp [fromSegs_cons]
    rw [hfs, clean_rooted]
    have hmain := cleanLoop_segs ss' s [] ['/']
      (s ++ catSegs ss' ++ ['/']).length
      (h s (List.mem_cons_self s ss'))
      (fun y hy => h y (List.mem_cons_of_mem s hy))
      (by simp)
      (Or.inr rfl)
      (by simp)
    rw [show (fromSegs []).reverse = ['/'] from rfl] at hmain
    rw [hmain]
    rw [if_neg (by simp [fromSegs_ne_nil])]
    simp [fromSegs_cons]

lemma catSegs_head (ss : List (List Char)) :
    catSegs ss = [] ∨ (catSegs ss).head? = some '/' := by
  cases ss with
  | nil => left; rfl
  | cons s ss => right; simp [catSegs]

lemma length_le_length_fromSegs (ss : List (List Char)) :
    ss.length ≤ (fromSegs ss).length := by
  cases ss with
  | nil => simp [fromSegs]
  | cons s ss =>
    rw [fromSegs_cons]
    have hcat : ss.length ≤ (catSegs ss).length := by
      induction ss with
      | nil => simp [catSegs]
      | cons x ss ih =>
        simp only [catSegs, List.length_cons, List.cons_append, List.length_append]
        omega
    simp only [List.cons_append, List.length_cons, List.length_append]
    omega

lemma fromSegs_eq_root_iff (ss : List (List Char)) (h : ∀ s ∈ ss, SegOk s) :
    fromSegs ss = ['/'] ↔ ss = [] := by
  constructor
  · intro hEq
    refine (length_fromSegs_eq_one_iff ss h).mp ?_
    rw [hEq]
    rfl
  · rintro rfl; rfl

lemma fromSegs_ne_dot (ss : List (List Char)) : fromSegs ss ≠ ['.'] := by
  intro h
  have := fromSegs_head ss
  rw [h] at this
  simp at this

lemma fromSegs_inj : ∀ {as bs : List (List Char)},
    (∀ s ∈ as, SegOk s) → (∀ s ∈ bs, SegOk s) →
    fromSegs as = fromSegs bs → as = bs := by
  intro as
  induction as with
  | nil =>
    intro bs _ hb h
    cases bs with
    | nil => rfl
    | cons b bs' =>
      rw [fromSegs_nil, fromSegs_cons] at h
      have hbne := (hb b (List.mem_cons_self b bs')).1
      cases b with
      | nil => exact absurd rfl hbne
      | cons c cs => simp at h
  | cons a as' ih =>
    intro bs ha hb h
    cases bs with
    | nil =>
      rw [fromSegs_cons, fromSegs_nil] at h
      have hane := (ha a (List.mem_cons_self a as')).1
      cases a with
      | nil => exact absurd rfl hane
      | cons c cs => simp at h
    | cons b bs' =>
      rw [fromSegs_cons, fromSegs_cons] at h
      simp only [List.cons_append, List.cons.injEq, true_and] at h
      have hsplitA := takeWhile_append_all (fun x => x ≠ '/') a (catSegs as')
        (fun x hx => by
          simp only [ne_eq, decide_eq_true_eq]
          exact fun hEq => (ha a (List.mem_cons_self a as')).2.1 (hEq ▸ hx))
        (fun x t' hxt => by
          rcases catSegs_head as' with hh | hh
          · rw [hh] at hxt; simp at hxt
          · rw [hxt] at hh; simp only [List.head?_cons, Option.some.injEq] at hh
            simp [hh])
      have hsplitB := takeWhile_append_all (fun x => x ≠ '/') b (catSegs bs')
        (fun x hx => by
          simp only [ne_eq, decide_eq_true_eq]
          exact fun hEq => (hb b (List.mem_cons_self b bs')).2.1 (hEq ▸ hx))
        (fun x t' hxt => by
          rcases catSegs_head bs' with hh | hh
          · rw [hh] at hxt; simp at hxt
          · rw [hxt] at hh; simp only [List.head?_cons, Option.some.injEq] at hh
            simp [hh])
      have hab : a = b := by
        rw [← hsplitA.1, ← hsplitB.1, h]
      have hcat : catSegs as' = catSegs bs' := by
        rw [← hsplitA.2, ← hsplitB.2, h]
      have has' : fromSegs as' = fromSegs bs' := by
        by_cases h1 : as' = []
        · subst h1
          simp only [catSegs] at hcat
          cases bs' with
          | nil => rfl
          | cons x xs => simp [catSegs] at hcat
        · by_cases h2 : bs' = []
          · subst h2
            simp only [catSegs] at hcat
            cases as' with
            | nil => rfl
            | cons x xs => simp [catSegs] at hcat
          · rw [fromSegs, fromSegs, if_neg h1, if_neg h2]
            exact hcat
      have := ih (fun s hs => ha s (List.mem_cons_of_mem a hs))
        (fun s hs => hb s (List.mem_cons_of_mem b hs)) has'
      rw [hab, this]

lemma dir_fromSegs_concat (ss : List (List Char)) (x : List Char)
    (h : ∀ s ∈ ss ++ [x], SegOk s) :
    dir (fromSegs (ss ++ [x])) = fromSegs ss := by
  have hx : SegOk x := h x (by simp)
  have hss : ∀ s ∈ ss, SegOk s := fun s hs => h s (by simp [hs])
  have hxrev : ∀ c ∈ x.reverse, (fun y => y ≠ '/' : Char → Bool) c = true := by
    intro c hc
    simp only [ne_eq, decide_eq_true_eq]
    exact fun hEq => hx.2.1 (hEq ▸ (List.mem_reverse.mp hc))
  cases ss with
  | nil =>
    show dir (fromSegs [x]) = fromSegs []
    rw [fromSegs_cons]
    unfold dir dirRaw
    have : ('/' :: x ++ catSegs []).reverse = x.reverse ++ ['/'] := by
      simp [catSegs]
    rw [this]
    have hdrop := (takeWhile_append_all (fun y => y ≠ '/') x.reverse ['/']
      hxrev (fun c t' hct => by
        simp only [List.cons.injEq] at hct
        simp [← hct.1])).2
    rw [hdrop]
    rfl
  | cons a ss' =>
    have hcat : fromSegs ((a :: ss') ++ [x]) = fromSegs (a :: ss') ++ '/' :: x := by
      rw [fromSegs, fromSegs, if_neg (by simp), if_neg (by simp), catSegs_append]
      simp [catSegs]
    unfold dir dirRaw
    rw [hcat]
    have : (fromSegs (a :: ss') ++ '/' :: x).reverse =
        x.reverse ++ '/' :: (fromSegs (a :: ss')).reverse := by
      simp
    rw [this]
    have hdrop := (takeWhile_append_all (fun y => y ≠ '/') x.reverse
      ('/' :: (fromSegs (a :: ss')).reverse)
      hxrev (fun c t' hct => by
        simp only [List.cons.injEq] at hct
        simp [← hct.1])).2
    rw [hdrop]
    have : ('/' :: (fromSegs (a :: ss')).reverse).reverse =
        fromSegs (a :: ss') ++ ['/'] := by simp
    rw [this]
    exact clean_fromSegs_slash hss

lemma dir_root : dir ['/'] = ['/'] := rfl

lemma dir_fromSegs_dropLast (ss : List (List Char)) (h : ∀ s ∈ ss, SegOk s) :
    dir (fromSegs ss) = fromSegs ss.dropLast := by
  cases hss : ss.isEmpty with
  | true =>
    rw [List.isEmpty_iff] at hss
    subst hss
    exact dir_root
  | false =>
    rw [List.isEmpty_eq_false_iff_exists_mem] at hss
    obtain ⟨cs, x, rfl⟩ : ∃ cs x, ss = cs ++ [x] := by
      obtain ⟨y, hy⟩ := hss
      cases hss2 : ss with
      | nil => rw [hss2] at hy; simp at hy
      | cons a t =>
        refine ⟨(a :: t).dropLast, (a :: t).getLast (by simp), ?_⟩
        rw [List.dropLast_concat_getLast]
    rw [dir_fromSegs_concat cs x h, List.dropLast_concat]

lemma commonPrefix_cons_same (a : List Char) (as bs : List (List Char)) :
    commonPrefix (a :: as) (a :: bs) = a :: commonPrefix as bs := by
  simp [commonPrefix]

lemma commonPrefix_cons_ne {a b : List Char} (h : a ≠ b) (as bs : List (List Char)) :
    commonPrefix (a :: as) (b :: bs) = [] := by
  simp [commonPrefix, h]

lemma commonPrefix_isPrefix_left : ∀ as bs : List (List Char),
    commonPrefix as bs <+: as := by
  intro as
  induction as with
  | nil => intro bs; cases bs <;> simp [commonPrefix]
  | cons a as' ih =>
    intro bs
    cases bs with
    | nil => simp [commonPrefix]
    | cons b bs' =>
      by_cases hab : a = b
      · subst hab
        rw [commonPrefix_cons_same]
        exact List.cons_prefix_cons.mpr ⟨rfl, ih bs'⟩
      · simp [commonPrefix_cons_ne hab]

lemma commonPrefix_isPrefix_right : ∀ as bs : List (List Char),
    commonPrefix as bs <+: bs := by
  intro as
  induction as with
  | nil => intro bs; cases bs <;> simp [commonPrefix]
  | cons a as' ih =>
    intro bs
    cases bs with
    | nil => simp [commonPrefix]
    | cons b bs' =>
      by_cases hab : a = b
      · subst hab
        rw [commonPrefix_cons_same]
        exact List.cons_prefix_cons.mpr ⟨rfl, ih bs'⟩
      · simp [commonPrefix_cons_ne hab]

lemma commonPrefix_of_prefix_left : ∀ {as bs : List (List Char)},
    as <+: bs → commonPrefix as bs = as := by
  intro as
  induction as with
  | nil => intro bs _; cases bs <;> rfl
  | cons a as' ih =>
    intro bs h
    cases bs with
    | nil => simp at h
    | cons b bs' =>
      rw [List.cons_prefix_cons] at h
      obtain ⟨rfl, h2⟩ := h
      simp [commonPrefix, ih h2]

lemma commonPrefix_of_prefix_right : ∀ {as bs : List (List Char)},
    bs <+: as → commonPrefix as bs = bs := by
  intro as
  induction as with
  | nil =>
    intro bs h
    rw [List.prefix_nil] at h
    subst h; rfl
  | cons a as' ih =>
    intro bs h
    cases bs with
    | nil => rfl
    | cons b bs' =>
      rw [List.cons_prefix_cons] at h
      obtain ⟨rfl, h2⟩ := h
      simp [commonPrefix, ih h2]

lemma commonPrefix_of_dropLast_eq : ∀ {as bs : List (List Char)},
    as.dropLast = bs.dropLast → as ≠ bs →
    commonPrefix as bs = as.dropLast := by
  intro as
  induction as with
  | nil =>
    intro bs hdl hne
    cases bs with
    | nil => exact absurd rfl hne
    | cons b bs' =>
      cases bs' with
      | nil => rfl
      | cons c bs'' => simp at hdl
  | cons a as' ih =>
    intro bs hdl hne
    cases bs with
    | nil =>
      cases as' with
      | nil => rfl
      | cons c as'' => simp at hdl
    | cons b bs' =>
      cases has' : as' with
      | nil =>
        cases hbs' : bs' with
        | nil =>
          subst has'; subst hbs'
          have hab : a ≠ b := fun h => hne (by rw [h])
          simp [commonPrefix, hab]
        | cons c bs'' =>
          subst has'; subst hbs'
          simp at hdl
      | cons c as'' =>
        cases hbs' : bs' with
        | nil =>
          subst has'; subst hbs'
          simp at hdl
        | cons d bs'' =>
          subst has'; subst hbs'
          rw [List.dropLast_cons_of_ne_nil (show (c :: as'') ≠ [] by simp),
            List.dropLast_cons_of_ne_nil (show (d :: bs'') ≠ [] by simp)] at hdl
          simp only [List.cons.injEq] at hdl
          obtain ⟨rfl, hdl2⟩ := hdl
          have hne2 : (c :: as'') ≠ (d :: bs'') := fun h => hne (by rw [h])
          rw [List.dropLast_cons_of_ne_nil (show (c :: as'') ≠ [] by simp),
            commonPrefix_cons_same]
          rw [ih hdl2 hne2]

lemma commonPrefix_dropLast : ∀ {as bs : List (List Char)},
    ¬ (as <+: bs) → ¬ (bs <+: as) →
    commonPrefix as.dropLast bs.dropLast = commonPrefix as bs := by
  intro as
  induction as with
  | nil => intro bs h _; exact absurd (List.nil_prefix) h
  | cons a as' ih =>
    intro bs hab hba
    cases bs with
    | nil => exact absurd (List.nil_prefix) hba
    | cons b bs' =>
      by_cases heq : a = b
      · subst heq
        have has' : as' ≠ [] := by
          rintro rfl
          exact hab (List.cons_prefix_cons.mpr ⟨rfl, List.nil_prefix⟩)
        have hbs' : bs' ≠ [] := by
          rintro rfl
          exact hba (List.cons_prefix_cons.mpr ⟨rfl, List.nil_prefix⟩)
        have hab' : ¬ (as' <+: bs') := fun h => hab (List.cons_prefix_cons.mpr ⟨rfl, h⟩)
        have hba' : ¬ (bs' <+: as') := fun h => hba (List.cons_prefix_cons.mpr ⟨rfl, h⟩)
        rw [List.dropLast_cons_of_ne_nil has', List.dropLast_cons_of_ne_nil hbs',
          commonPrefix_cons_same, commonPrefix_cons_same]
        rw [ih hab' hba']
      · rw [commonPrefix_cons_ne heq]
        cases has' : as' with
        | nil => rfl
        | cons c as'' =>
          cases hbs' : bs' with
          | nil => cases (c :: as'').dropLast <;> rfl
          | cons d bs'' =>
            rw [List.dropLast_cons_of_ne_nil (show (c :: as'') ≠ [] by simp),
              List.dropLast_cons_of_ne_nil (show (d :: bs'') ≠ [] by simp)]
            rw [commonPrefix_cons_ne heq]

lemma isAncestorLoop_spec : ∀ (bs as : List (List Char)) (fuel : Nat),
    (∀ s ∈ bs, SegOk s) → (∀ s ∈ as, SegOk s) → as ≠ [] →
    bs.length < fuel →
    isAncestorLoop fuel (fromSegs as) (fromSegs bs) = decide (as <+: bs) := by
  intro bs
  induction bs using List.reverseRecOn with
  | nil =>
    intro as fuel _ ha hane hfuel
    obtain ⟨f, rfl⟩ : ∃ f, fuel = f + 1 := ⟨fuel - 1, by omega⟩
    show isAncestorLoop (f + 1) (fromSegs as) ['/'] = _
    rw [isAncestorLoop, if_pos rfl]
    have : ¬ (as <+: []) := by
      rw [List.prefix_nil]
      exact hane
    simp [this]
  | append_singleton cs x ih =>
    intro as fuel hb ha hane hfuel
    have hcs : ∀ s ∈ cs, SegOk s := fun s hs => hb s (by simp [hs])
    obtain ⟨f, rfl⟩ : ∃ f, fuel = f + 1 := ⟨fuel - 1, by omega⟩
    rw [isAncestorLoop]
    rw [if_neg (by
      intro hEq
      have := (fromSegs_eq_root_iff (cs ++ [x]) hb).mp hEq
      simp at this)]
    by_cases heq : fromSegs (cs ++ [x]) = fromSegs as
    · rw [if_pos heq]
      have := fromSegs_inj hb ha heq
      subst this
      simp
    · rw [if_neg heq]
      rw [dir_fromSegs_concat cs x hb]
      have hlen : cs.length < f := by
        simp only [List.length_append, List.length_cons] at hfuel
        simp at hfuel
        omega
      rw [ih as f hcs ha hane hlen]
      have hne : as ≠ cs ++ [x] := fun h => heq (by rw [h])
      have : (as <+: cs ++ [x]) ↔ (as <+: cs) := by
        rw [List.prefix_concat_iff]
        constructor
        · rintro (h | h)
          · exact absurd h hne
          · exact h
        · exact Or.inr
      simp [this]

lemma IsAncestor_fromSegs (as bs : List (List Char))
    (ha : ∀ s ∈ as, SegOk s) (hb : ∀ s ∈ bs, SegOk s) :
    IsAncestor (fromSegs as) (fromSegs bs) = decide (as ≠ bs ∧ as <+: bs) := by
  unfold IsAncestor
  simp only [clean_fromSegs ha, clean_fromSegs hb]
  by_cases heq : fromSegs as = fromSegs bs
  · have := fromSegs_inj ha hb heq
    subst this
    rw [if_pos (Or.inl heq)]
    simp
  · have hne : as ≠ bs := fun h => heq (by rw [h])
    rw [if_neg (by
      push_neg
      exact ⟨heq, fromSegs_ne_dot as, fromSegs_ne_dot bs⟩)]
    by_cases hroot : fromSegs as = ['/']
    · rw [if_pos hroot]
      have : as = [] := (fromSegs_eq_root_iff as ha).mp hroot
      subst this
      simp [hne, List.nil_prefix]
    · rw [if_neg hroot]
      have hane : as ≠ [] := fun h => hroot (by rw [h]; rfl)
      cases bs using List.reverseRecOn with
      | nil =>
        have h0 : fromSegs ([] : List (List Char)) = ['/'] := rfl
        rw [h0, dir_root]
        have hloop : ∀ f, isAncestorLoop (f + 1) (fromSegs as) ['/'] = false := by
          intro f
          rw [isAncestorLoop, if_pos rfl]
        have hpre : ¬ (as <+: []) := by rw [List.prefix_nil]; exact hane
        rw [show (['/'] : List Char).length + 1 = 1 + 1 from rfl, hloop 1]
        simp [hpre, hne]
      | append_singleton cs x =>
        rw [dir_fromSegs_concat cs x hb]
        have hcs : ∀ s ∈ cs, SegOk s := fun s hs => hb s (by simp [hs])
        have hfuel : cs.length < (fromSegs (cs ++ [x])).length + 1 := by
          have h1 := length_le_length_fromSegs (cs ++ [x])
          simp only [List.length_append, List.length_cons] at h1
          omega
        rw [isAncestorLoop_spec cs as _ hcs ha hane hfuel]
        have : (as <+: cs ++ [x]) ↔ (as <+: cs) := by
          rw [List.prefix_concat_iff]
          constructor
          · rintro (h | h)
            · exact absurd h (fun hEq => heq (by rw [hEq]))
            · exact h
          · exact Or.inr
        simp [this, hne]

lemma LCAfuel_spec : ∀ (fuel : Nat) (as bs : List (List Char)),
    (∀ s ∈ as, SegOk s) → (∀ s ∈ bs, SegOk s) →
    min as.length bs.length < fuel →
    LCAfuel fuel (fromSegs as) (fromSegs bs) =
      fromSegs (if as = bs then as.dropLast else commonPrefix as bs) := by
  intro fuel
  induction fuel with
  | zero => intro as bs _ _ h; omega
  | succ f ih =>
    intro as bs ha hb hfuel
    simp only [LCAfuel]
    by_cases heq : fromSegs as = fromSegs bs
    · have := fromSegs_inj ha hb heq
      subst this
      rw [if_pos heq, if_pos rfl]
      exact dir_fromSegs_dropLast as ha
    · have hne : as ≠ bs := fun h => heq (by rw [h])
      rw [if_neg heq, if_neg (fromSegs_ne_nil as), if_neg (fromSegs_ne_nil bs),
        if_neg hne]
      have hda : dir (fromSegs as) = fromSegs as.dropLast := dir_fromSegs_dropLast as ha
      have hdb : dir (fromSegs bs) = fromSegs bs.dropLast := dir_fromSegs_dropLast bs hb
      have hadl : ∀ s ∈ as.dropLast, SegOk s := fun s hs => ha s (List.dropLast_subset as hs)
      have hbdl : ∀ s ∈ bs.dropLast, SegOk s := fun s hs => hb s (List.dropLast_subset bs hs)
      by_cases hdd : dir (fromSegs as) = dir (fromSegs bs)
      · rw [if_pos hdd, hda]
        rw [hda, hdb] at hdd
        have hdleq : as.dropLast = bs.dropLast := fromSegs_inj hadl hbdl hdd
        rw [commonPrefix_of_dropLast_eq hdleq hne]
      · rw [if_neg hdd]
        rw [IsAncestor_fromSegs as bs ha hb, IsAncestor_fromSegs bs as hb ha]
        by_cases hpab : as <+: bs
        · rw [if_pos (by simp [hne, hpab])]
          rw [commonPrefix_of_prefix_left hpab]
        · rw [if_neg (by simp [hpab])]
          by_cases hpba : bs <+: as
          · rw [if_pos (by
              have hne2 : bs ≠ as := fun h => hne h.symm
              simp [hne2, hpba])]
            rw [commonPrefix_of_prefix_right hpba]
          · rw [if_neg (by simp [hpba])]
            have hane : as ≠ [] := by
              rintro rfl
              exact hpab (List.nil_prefix)
            have hbne : bs ≠ [] := by
              rintro rfl
              exact hpba (List.nil_prefix)
            rw [hda, hdb]
            have hmin : min as.dropLast.length bs.dropLast.length < f := by
              rw [List.length_dropLast, List.length_dropLast]
              have h1 : 1 ≤ as.length := by
                cases as with
                | nil => exact absurd rfl hane
                | cons x t => simp
              have h2 : 1 ≤ bs.length := by
                cases bs with
                | nil => exact absurd rfl hbne
                | cons x t => simp
              omega
            rw [ih as.dropLast bs.dropLast hadl hbdl hmin]
            have hdlne : as.dropLast ≠ bs.dropLast := by
              intro h
              exact hdd (by rw [hda, hdb, h])
            rw [if_neg hdlne]
            rw [commonPrefix_dropLast hpab hpba]

lemma LCA_fromSegs (as bs : List (List Char))
    (ha : ∀ s ∈ as, SegOk s) (hb : ∀ s ∈ bs, SegOk s) :
    LCA (fromSegs as) (fromSegs bs) =
      fromSegs (if as = bs then as.dropLast else commonPrefix as bs) := by
  unfold LCA
  refine LCAfuel_spec _ as bs ha hb ?_
  have h1 := length_le_length_fromSegs as
  have h2 := length_le_length_fromSegs bs
  have h3 : min as.length bs.length ≤ as.length := min_le_left _ _
  omega

lemma drop_cons_of_get {l : List Char} {n : Nat} {c : Char}
    (h : l.get? n = some c) : l.drop n = c :: l.drop (n + 1) := by
  have hn : n < l.length := (List.get?_eq_some.mp h).1
  have hc : l[n] = c := by
    obtain ⟨_, h2⟩ := List.get?_eq_some.mp h
    simpa using h2
  rw [List.drop_eq_getElem_cons hn, hc]

lemma glob_nil (v : List Char) : glob [] v = decide (v = []) := by
  rw [glob]

lemma glob_star_nil (ps : List Char) : glob ('*' :: ps) [] = glob ps [] := by
  rw [glob]
  simp

lemma glob_star_cons (ps : List Char) (d : Char) (vs : List Char) :
    glob ('*' :: ps) (d :: vs) = (glob ps (d :: vs) || glob ('*' :: ps) vs) := by
  rw [glob]
  simp

lemma glob_char_nil {c : Char} (h : c ≠ '*') (ps : List Char) :
    glob (c :: ps) [] = false := by
  rw [glob]
  simp [h]

lemma glob_char_cons {c : Char} (h : c ≠ '*') (ps : List Char) (d : Char)
    (vs : List Char) :
    glob (c :: ps) (d :: vs) = (decide (c = d) && glob ps vs) := by
  rw [glob]
  simp [h]

lemma glob_star_all (v : List Char) : glob ['*'] v = true := by
  induction v with
  | nil => rw [glob_star_nil, glob_nil]; simp
  | cons d vs ih => rw [glob_star_cons]; simp [ih]

lemma glob_star_of {ps v : List Char} (h : glob ps v = true) :
    glob ('*' :: ps) v = true := by
  cases v with
  | nil => rw [glob_star_nil]; exact h
  | cons d vs => rw [glob_star_cons]; simp [h]

lemma glob_star_absorb {ps : List Char} {d : Char} {vs : List Char}
    (h : glob ('*' :: ps) vs = true) : glob ('*' :: ps) (d :: vs) = true := by
  rw [glob_star_cons]
  simp [h]

lemma glob_star_iff (ps v : List Char) :
    glob ('*' :: ps) v = true ↔ ∃ k, k ≤ v.length ∧ glob ps (v.drop k) = true := by
  induction v with
  | nil =>
    rw [glob_star_nil]
    constructor
    · intro h; exact ⟨0, by simp, h⟩
    · rintro ⟨k, hk, h⟩
      have : k = 0 := Nat.le_zero.mp hk
      subst this
      exact h
  | cons d vs ih =>
    rw [glob_star_cons]
    constructor
    · intro h
      rcases Bool.or_eq_true_iff.mp h with h | h
      · exact ⟨0, by simp, h⟩
      · obtain ⟨k, hk, hg⟩ := ih.mp h
        exact ⟨k + 1, by simp; omega, hg⟩
    · rintro ⟨k, hk, hg⟩
      cases k with
      | zero => simp only [List.drop_zero] at hg; simp [hg]
      | succ k' =>
        refine Bool.or_eq_true_iff.mpr (Or.inr (ih.mpr ⟨k', ?_, hg⟩))
        simp at hk
        omega

lemma glob_star_drop_step (ps v : List Char) (k : Nat)
    (h : glob ('*' :: ps) (v.drop (k + 1)) = true) :
    glob ('*' :: ps) (v.drop k) = true := by
  cases hk : v.get? k with
  | none =>
    have hlen : v.length ≤ k := List.get?_eq_none.mp hk
    rw [List.drop_eq_nil_of_le hlen]
    rw [List.drop_eq_nil_of_le (by omega)] at h
    exact h
  | some c =>
    rw [drop_cons_of_get hk]
    exact glob_star_absorb h

lemma glob_star_drop_le (ps v : List Char) {k m : Nat} (hk : k ≤ m)
    (h : glob ('*' :: ps) (v.drop m) = true) :
    glob ('*' :: ps) (v.drop k) = true := by
  induction m with
  | zero =>
    have : k = 0 := by omega
    subst this
    exact h
  | succ m' ih =>
    by_cases hkm : k = m' + 1
    · subst hkm; exact h
    · exact ih (by omega) (glob_star_drop_step ps v m' h)

lemma glob_starfree_append (S T w : List Char) (h : ∀ c ∈ S, c ≠ '*') :
    glob (S ++ T) w = true ↔
      (S.length ≤ w.length ∧ w.take S.length = S ∧
        glob T (w.drop S.length) = true) := by
  induction S generalizing w with
  | nil => simp
  | cons c S' ih =>
    have hc : c ≠ '*' := h c (List.mem_cons_self c S')
    have hS' : ∀ x ∈ S', x ≠ '*' := fun x hx => h x (List.mem_cons_of_mem c hx)
    cases w with
    | nil =>
      rw [show (c :: S') ++ T = c :: (S' ++ T) from rfl, glob_char_nil hc]
      simp
    | cons d vs =>
      rw [show (c :: S') ++ T = c :: (S' ++ T) from rfl, glob_char_cons hc]
      constructor
      · intro hg
        obtain ⟨hcd, hg2⟩ : decide (c = d) = true ∧ glob (S' ++ T) vs = true := by
          simpa using hg
        have hcd' : c = d := by simpa using hcd
        subst hcd'
        obtain ⟨h1, h2, h3⟩ := (ih vs hS').mp hg2
        refine ⟨by simp; omega, ?_, h3⟩
        simp only [List.length_cons, List.take_succ_cons, h2]
      · rintro ⟨h1, h2, h3⟩
        simp only [List.length_cons, List.take_succ_cons, List.cons.injEq] at h2
        obtain ⟨rfl, h2b⟩ := h2
        have hrec : glob (S' ++ T) vs = true := (ih vs hS').mpr ⟨by simp at h1; omega, h2b, h3⟩
        simp [hrec]

lemma glob_append_star_self (q w : List Char) :
    glob (q ++ ['*']) (q ++ w) = true := by
  induction q with
  | nil => exact glob_star_all w
  | cons c q' ih =>
    by_cases hc : c = '*'
    · subst hc
      rw [show ('*' :: q') ++ ['*'] = '*' :: (q' ++ ['*']) from rfl]
      rw [show ('*' :: q') ++ w = '*' :: (q' ++ w) from rfl]
      exact glob_star_absorb (glob_star_of ih)
    · rw [show (c :: q') ++ ['*'] = c :: (q' ++ ['*']) from rfl]
      rw [show (c :: q') ++ w = c :: (q' ++ w) from rfl]
      rw [glob_char_cons hc]
      simp [ih]

lemma glob_self (p : List Char) : glob p p = true := by
  induction p with
  | nil => rw [glob_nil]; simp
  | cons c p' ih =>
    by_cases hc : c = '*'
    · subst hc
      rw [glob_star_cons]
      refine Bool.or_eq_true_iff.mpr (Or.inr (glob_star_of ih))
    · rw [glob_char_cons hc]
      simp [ih]

lemma parseLoop_sound (v p : List Char) : ∀ (fuel vi pi : Nat) (star : Option (Nat × Nat)),
    (∀ psi vsi, star = some (psi, vsi) → p.get? psi = some '*') →
    parseLoop v p fuel vi pi star = true →
    glob (p.drop pi) (v.drop vi) = true ∨
      ∃ psi vsi, star = some (psi, vsi) ∧
        glob (p.drop psi) (v.drop (vsi + 1)) = true := by
  intro fuel
  induction fuel with
  | zero =>
    intro vi pi star _ hrun
    simp [parseLoop] at hrun
  | succ f ih =>
    intro vi pi star hstar hrun
    simp only [parseLoop] at hrun
    by_cases hc1 : p.get? pi = some '*'
    · rw [if_pos hc1] at hrun
      by_cases hend : pi + 1 = p.length
      · left
        rw [drop_cons_of_get hc1, List.drop_eq_nil_of_le (le_of_eq hend.symm)]
        exact glob_star_all _
      · rw [if_neg hend] at hrun
        have hres := ih vi (pi + 1) (some (pi, vi))
          (by
            rintro psi vsi hh
            obtain ⟨rfl, rfl⟩ : pi = psi ∧ vi = vsi := by
              simpa only [Option.some.injEq, Prod.mk.injEq] using hh
            exact hc1)
          hrun
        rcases hres with hA | ⟨psi, vsi, hEq, hB⟩
        · left
          rw [drop_cons_of_get hc1]
          exact glob_star_of hA
        · left
          obtain ⟨rfl, rfl⟩ : pi = psi ∧ vi = vsi := by
            simpa only [Option.some.injEq, Prod.mk.injEq] using hEq
          rw [drop_cons_of_get hc1]
          rw [drop_cons_of_get hc1] at hB
          exact glob_star_drop_step _ v vi hB
    · rw [if_neg hc1] at hrun
      by_cases hc2 : vi < v.length ∧ pi < p.length ∧ v.get? vi = p.get? pi
      · rw [if_pos hc2] at hrun
        have hres := ih (vi + 1) (pi + 1) star hstar hrun
        obtain ⟨hvi, hpi, hvp⟩ := hc2
        have hcp : p.get? pi = some (p.get ⟨pi, hpi⟩) := List.get?_eq_get hpi
        set c := p.get ⟨pi, hpi⟩ with hcdef
        have hvc : v.get? vi = some c := by rw [hvp, hcp]
        have hcne : c ≠ '*' := fun h => hc1 (by rw [hcp, h])
        rcases hres with hA | hB
        · left
          rw [drop_cons_of_get hcp, drop_cons_of_get hvc, glob_char_cons hcne]
          simp [hA]
        · right; exact hB
      · rw [if_neg hc2] at hrun
        by_cases hc3 : vi = v.length ∧ pi = p.length
        · left
          rw [List.drop_eq_nil_of_le (le_of_eq hc3.1.symm),
            List.drop_eq_nil_of_le (le_of_eq hc3.2.symm), glob_nil]
          simp
        · rw [if_neg hc3] at hrun
          by_cases hc4 : vi = v.length ∧ pi < p.length
          · rw [if_pos hc4] at hrun
            exfalso
            obtain ⟨hvi, hpi⟩ := hc4
            have hcp : p.get? pi = some (p.get ⟨pi, hpi⟩) := List.get?_eq_get hpi
            have hcne : p.get ⟨pi, hpi⟩ ≠ '*' := fun h => hc1 (by rw [hcp, h])
            have hempty : (p.drop pi).takeWhile (· = '*') = [] := by
              rw [drop_cons_of_get hcp]
              have hcne2 : ¬ p[pi] = '*' := hcne
              simp [List.takeWhile_cons, hcne2]
            rw [hempty] at hrun
            simp at hrun
            omega
          · rw [if_neg hc4] at hrun
            cases star with
            | none =>
              have hrun2 : false = true := hrun
              exact absurd hrun2 (by decide)
            | some pr =>
              obtain ⟨psi, vsi⟩ := pr
              have hrun2 : (if vsi + 1 > v.length then false
                  else parseLoop v p f (vsi + 1) (psi + 1) (some (psi, vsi + 1))) =
                    true := hrun
              by_cases hbt : vsi + 1 > v.length
              · rw [if_pos hbt] at hrun2
                exact absurd hrun2 (by decide)
              · rw [if_neg hbt] at hrun2
                have hpsi := hstar psi vsi rfl
                have hres := ih (vsi + 1) (psi + 1) (some (psi, vsi + 1))
                  (by
                    rintro a b hh
                    obtain ⟨rfl, -⟩ : psi = a ∧ vsi + 1 = b := by
                      simpa only [Option.some.injEq, Prod.mk.injEq] using hh
                    exact hpsi)
                  hrun2
                right
                refine ⟨psi, vsi, rfl, ?_⟩
                rcases hres with hA | ⟨a, b, hab, hg⟩
                · rw [drop_cons_of_get hpsi]
                  exact glob_star_of hA
                · obtain ⟨rfl, rfl⟩ : psi = a ∧ vsi + 1 = b := by
                    simpa only [Option.some.injEq, Prod.mk.injEq] using hab
                  rw [drop_cons_of_get hpsi] at hg ⊢
                  exact glob_star_drop_step _ v (vsi + 1) hg

lemma get?_drop' (l : List Char) (n m : Nat) : (l.drop n).get? m = l.get? (n + m) := by
  rw [List.get?_eq_getElem?, List.get?_eq_getElem?, List.getElem?_drop]

lemma bound_lt_of {K m1 m1' m2 m2' : Nat} (hK : m2' < K)
    (h : m1' < m1 ∨ (m1' = m1 ∧ m2' < m2)) :
    m1' * K + m2' < m1 * K + m2 := by
  rcases h with h | ⟨rfl, h⟩
  · calc m1' * K + m2' < m1' * K + K := Nat.add_lt_add_left hK _
      _ = (m1' + 1) * K := by ring
      _ ≤ m1 * K := Nat.mul_le_mul_right K h
      _ ≤ m1 * K + m2 := Nat.le_add_right _ _
  · exact Nat.add_lt_add_left h _

lemma inv_B_implies (v p : List Char) (vi pi psi vsi : Nat)
    (hpi : pi ≤ p.length)
    (hinv : StarInv v p vi pi (some (psi, vsi)))
    (hB : glob (p.drop psi) (v.drop (vsi + 1)) = true) :
    ∃ m, vi < m ∧ glob (p.drop pi) (v.drop m) = true := by
  obtain ⟨hpsi, hle, hvle, hvi, hseg, hsf⟩ := hinv
  have hpsilt : psi < p.length := (List.get?_eq_some.mp hpsi).1
  have hsplit : p.drop (psi + 1) =
      (p.drop (psi + 1)).take (pi - (psi + 1)) ++ p.drop pi := by
    conv_lhs => rw [← List.take_append_drop (pi - (psi + 1)) (p.drop (psi + 1))]
    congr 1
    rw [List.drop_drop]
    congr 1
    omega
  rw [drop_cons_of_get hpsi] at hB
  rw [hsplit] at hB
  obtain ⟨k, hk, hg⟩ := (glob_star_iff _ _).mp hB
  rw [List.drop_drop] at hg
  have hsf' : ∀ c ∈ (p.drop (psi + 1)).take (pi - (psi + 1)), c ≠ '*' :=
    fun c hc hEq => hsf (hEq ▸ hc)
  obtain ⟨hlen, htake, hg2⟩ := (glob_starfree_append _ (p.drop pi) _ hsf').mp hg
  rw [List.drop_drop] at hg2
  refine ⟨vsi + 1 + k + ((p.drop (psi + 1)).take (pi - (psi + 1))).length, ?_, hg2⟩
  have hSlen : ((p.drop (psi + 1)).take (pi - (psi + 1))).length = pi - (psi + 1) := by
    rw [List.length_take, List.length_drop]
    omega
  omega

lemma parseLoop_complete (v p : List Char) : ∀ (fuel vi pi : Nat) (star : Option (Nat × Nat)),
    vi ≤ v.length → pi ≤ p.length →
    StarInv v p vi pi star →
    (v.length + 1 - starN star) * (v.length + p.length + 1) +
      (v.length + p.length - (vi + pi)) < fuel →
    (glob (p.drop pi) (v.drop vi) = true ∨
      ∃ psi vsi, star = some (psi, vsi) ∧
        glob (p.drop psi) (v.drop (vsi + 1)) = true) →
    parseLoop v p fuel vi pi star = true := by
  intro fuel
  induction fuel with
  | zero =>
    intro vi pi star _ _ _ hfuel _
    omega
  | succ f ih =>
    intro vi pi star hvi hpi hinv hfuel hAB
    have hfuel' : (v.length + 1 - starN star) * (v.length + p.length + 1) +
        (v.length + p.length - (vi + pi)) ≤ f := Nat.lt_succ_iff.mp hfuel
    simp only [parseLoop]
    by_cases hc1 : p.get? pi = some '*'
    · rw [if_pos hc1]
      by_cases hend : pi + 1 = p.length
      · rw [if_pos hend]
      · rw [if_neg hend]
        have hpilt : pi < p.length := (List.get?_eq_some.mp hc1).1
        have hA : glob (p.drop pi) (v.drop vi) = true := by
          rcases hAB with hA | ⟨psi, vsi, hst, hB⟩
          · exact hA
          · rw [hst] at hinv
            obtain ⟨m, hm, hg⟩ := inv_B_implies v p vi pi psi vsi hpi hinv hB
            rw [drop_cons_of_get hc1] at hg ⊢
            exact glob_star_drop_le _ v (le_of_lt hm) hg
        rw [drop_cons_of_get hc1] at hA
        have hA' : glob (p.drop (pi + 1)) (v.drop vi) = true ∨
            glob (p.drop pi) (v.drop (vi + 1)) = true := by
          cases hdv : v.drop vi with
          | nil =>
            rw [hdv, glob_star_nil] at hA
            left
            exact hA
          | cons d vs =>
            rw [hdv, glob_star_cons] at hA
            rcases Bool.or_eq_true_iff.mp hA with h | h
            · left; exact h
            · right
              have htl : v.drop (vi + 1) = vs := by
                rw [← List.tail_drop, hdv]
                rfl
              rw [drop_cons_of_get hc1, htl]
              exact h
        refine ih vi (pi + 1) (some (pi, vi)) hvi hpilt ?_ ?_ ?_
        · refine ⟨hc1, le_refl _, le_refl _, by omega, ?_, ?_⟩
          · simp
          · simp
        · refine lt_of_lt_of_le ?_ hfuel'
          apply bound_lt_of
          · omega
          · cases star with
            | none => left; simp only [starN]; omega
            | some pr =>
              obtain ⟨a, b⟩ := pr
              obtain ⟨-, -, hble, -, -, -⟩ := hinv
              simp only [starN]
              omega
        · rcases hA' with h | h
          · left; exact h
          · right; exact ⟨pi, vi, rfl, h⟩
    · rw [if_neg hc1]
      by_cases hc2 : vi < v.length ∧ pi < p.length ∧ v.get? vi = p.get? pi
      · rw [if_pos hc2]
        obtain ⟨hvlt, hplt, hvp⟩ := hc2
        have hcp : p.get? pi = some (p.get ⟨pi, hplt⟩) := List.get?_eq_get hplt
        have hcne : p.get ⟨pi, hplt⟩ ≠ '*' := fun h => hc1 (by rw [hcp, h])
        have hvc : v.get? vi = some (p.get ⟨pi, hplt⟩) := by rw [hvp, hcp]
        refine ih (vi + 1) (pi + 1) star hvlt hplt ?_ ?_ ?_
        · cases star with
          | none => trivial
          | some pr =>
            obtain ⟨psi, vsi⟩ := pr
            obtain ⟨hpsi, hple, hvle, hvieq, hseg, hsf⟩ := hinv
            have hn : pi + 1 - (psi + 1) = (pi - (psi + 1)) + 1 := by omega
            refine ⟨hpsi, by omega, by omega, by omega, ?_, ?_⟩
            · rw [hn, List.take_succ, List.take_succ, hseg]
              congr 1
              rw [← List.get?_eq_getElem?, ← List.get?_eq_getElem?,
                get?_drop', get?_drop']
              have h1 : psi + 1 + (pi - (psi + 1)) = pi := by omega
              have h2 : vsi + (pi - (psi + 1)) = vi := by omega
              rw [h1, h2, hvp]
            · rw [hn, List.take_succ]
              intro hmem
              rcases List.mem_append.mp hmem with hmem | hmem
              · exact hsf hmem
              · rw [← List.get?_eq_getElem?, get?_drop'] at hmem
                have h1 : psi + 1 + (pi - (psi + 1)) = pi := by omega
                rw [h1, hcp] at hmem
                simp only [Option.toList_some, List.mem_singleton] at hmem
                exact hcne hmem.symm
        · refine lt_of_lt_of_le ?_ hfuel'
          apply bound_lt_of
          · omega
          · right
            constructor
            · rfl
            · omega
        · rcases hAB with hA | hB
          · left
            rw [drop_cons_of_get hcp, drop_cons_of_get hvc, glob_char_cons hcne] at hA
            simpa using hA
          · right; exact hB
      · rw [if_neg hc2]
        by_cases hc3 : vi = v.length ∧ pi = p.length
        · rw [if_pos hc3]
        · rw [if_neg hc3]
          by_cases hc4 : vi = v.length ∧ pi < p.length
          · exfalso
            obtain ⟨hveq, hplt⟩ := hc4
            have hcp : p.get? pi = some (p.get ⟨pi, hplt⟩) := List.get?_eq_get hplt
            have hcne : p.get ⟨pi, hplt⟩ ≠ '*' := fun h => hc1 (by rw [hcp, h])
            rcases hAB with hA | ⟨psi, vsi, hst, hB⟩
            · rw [drop_cons_of_get hcp,
                List.drop_eq_nil_of_le (le_of_eq hveq.symm),
                glob_char_nil hcne] at hA
              exact absurd hA (by decide)
            · rw [hst] at hinv
              obtain ⟨m, hm, hg⟩ := inv_B_implies v p vi pi psi vsi hpi hinv hB
              rw [drop_cons_of_get hcp,
                List.drop_eq_nil_of_le (by omega : v.length ≤ m),
                glob_char_nil hcne] at hg
              exact absurd hg (by decide)
          · rw [if_neg hc4]
            have hvlt : vi < v.length := by
              rcases Nat.lt_or_ge vi v.length with h | h
              · exact h
              · have hveq : vi = v.length := le_antisymm hvi h
                rcases Nat.lt_or_ge pi p.length with h2 | h2
                · exact absurd ⟨hveq, h2⟩ hc4
                · exact absurd ⟨hveq, le_antisymm hpi h2⟩ hc3
            have hnA : ¬ glob (p.drop pi) (v.drop vi) = true := by
              intro hA
              obtain ⟨d, hd⟩ : ∃ d, v.get? vi = some d :=
                ⟨v.get ⟨vi, hvlt⟩, List.get?_eq_get hvlt⟩
              rcases Nat.lt_or_ge pi p.length with hplt | hpge
              · have hcp : p.get? pi = some (p.get ⟨pi, hplt⟩) := List.get?_eq_get hplt
                have hcne : p.get ⟨pi, hplt⟩ ≠ '*' := fun h => hc1 (by rw [hcp, h])
                have hnevp : v.get? vi ≠ p.get? pi := fun h => hc2 ⟨hvlt, hplt, h⟩
                rw [drop_cons_of_get hcp, drop_cons_of_get hd,
                  glob_char_cons hcne] at hA
                have hcd : p.get ⟨pi, hplt⟩ ≠ d := by
                  intro h
                  exact hnevp (by rw [hd, hcp, h])
                simp only [Bool.and_eq_true, decide_eq_true_eq] at hA
                exact hcd hA.1
              · rw [List.drop_eq_nil_of_le hpge, drop_cons_of_get hd, glob_nil] at hA
                simp at hA
            rcases hAB with hA | ⟨psi, vsi, hst, hB⟩
            · exact absurd hA hnA
            subst hst
            show (if vsi + 1 > v.length then false
                else parseLoop v p f (vsi + 1) (psi + 1) (some (psi, vsi + 1))) = true
            obtain ⟨hpsi, hple, hvle, hvieq, hseg, hsf⟩ := hinv
            have hpsilt : psi < p.length := (List.get?_eq_some.mp hpsi).1
            have hbt : ¬ (vsi + 1 > v.length) := by omega
            rw [if_neg hbt]
            refine ih (vsi + 1) (psi + 1) (some (psi, vsi + 1))
              (by omega) (by omega) ?_ ?_ ?_
            · refine ⟨hpsi, le_refl _, le_refl _, by omega, by simp, by simp⟩
            · refine lt_of_lt_of_le ?_ hfuel'
              apply bound_lt_of
              · omega
              · left
                simp only [starN]
                omega
            · rw [drop_cons_of_get hpsi] at hB
              cases hdv : v.drop (vsi + 1) with
              | nil =>
                rw [hdv, glob_star_nil] at hB
                left
                exact hB
              | cons d vs =>
                rw [hdv, glob_star_cons] at hB
                rcases Bool.or_eq_true_iff.mp hB with h | h
                · left; exact h
                · right
                  refine ⟨psi, vsi + 1, rfl, ?_⟩
                  have htl : v.drop (vsi + 1 + 1) = vs := by
                    rw [← List.tail_drop, hdv]
                    rfl
                  rw [drop_cons_of_get hpsi, htl]
                  exact h

lemma parse_eq_glob (value pattern : List Char) :
    parse value pattern = glob pattern value := by
  unfold parse
  cases hg : glob pattern value with
  | false =>
    cases hr : parseLoop value pattern
      ((value.length + 2) * (value.length + pattern.length + 1)) 0 0 none with
    | false => rfl
    | true =>
      exfalso
      have := parseLoop_sound value pattern _ 0 0 none
        (by rintro _ _ h; exact absurd h (by simp)) hr
      rcases this with hA | ⟨_, _, h, -⟩
      · rw [List.drop_zero, List.drop_zero] at hA
        rw [hA] at hg
        exact absurd hg (by decide)
      · exact absurd h (by simp)
  | true =>
    refine parseLoop_complete value pattern _ 0 0 none (by simp) (by simp) trivial ?_ ?_
    · have hK : (value.length + 2) * (value.length + pattern.length + 1) =
          (value.length + 1) * (value.length + pattern.length + 1) +
            (value.length + pattern.length + 1) := by ring
      simp only [starN, Nat.sub_zero]
      omega
    · left
      rw [List.drop_zero, List.drop_zero]
      exact hg

/-- **C9.** For all strings `x` and all patterns `p`: `Match(x, x) = true`,
`Match(x, "*") = true`, and `Match(x, p)` agrees with anchored (full-string)
POSIX-glob matching in which `'*'` matches zero or more arbitrary
characters (the reference matcher `glob`). -/
theorem claim_C9 : ∀ (x p : List Char),
    Match x [x] = true ∧ Match x [['*']] = true ∧ Match x [p] = glob p x := by
  intro x p
  refine ⟨?_, ?_, ?_⟩
  · show Match x [x] = true
    simp [Match]
  · show Match x [['*']] = true
    by_cases h : ['*'] = x
    · simp [Match, h]
    · simp [Match, h]
  · show Match x [p] = glob p x
    by_cases h1 : p = x
    · subst h1
      simp only [Match, if_pos rfl]
      exact (glob_self p).symm
    · by_cases h2 : p = ['*']
      · subst h2
        simp only [Match, if_neg h1, if_pos rfl]
        exact (glob_star_all x).symm
      · by_cases h3 : p.length = 0
        · have hp : p = [] := List.length_eq_zero.mp h3
          subst hp
          simp only [Match, if_neg h1, if_neg h2]
          rw [glob_nil]
          simp
        · by_cases h4 : p.getLast? = some '*' ∧ p.dropLast <+: x
          · simp only [Match, if_neg h1, if_neg h2, if_neg h3, if_pos h4]
            obtain ⟨hlast, hpre⟩ := h4
            have hpne : p ≠ [] := fun h => by rw [h] at hlast; exact absurd hlast (by simp)
            have hdecomp : p = p.dropLast ++ ['*'] := by
              conv_lhs => rw [← List.dropLast_append_getLast hpne]
              congr 1
              rw [List.getLast?_eq_getLast p hpne] at hlast
              simp only [Option.some.injEq] at hlast
              rw [hlast]
            obtain ⟨w, rfl⟩ := hpre
            have hres : glob p (p.dropLast ++ w) = true := by
              nth_rewrite 1 [hdecomp]
              exact glob_append_star_self p.dropLast w
            exact hres.symm
          · simp only [Match, if_neg h1, if_neg h2, if_neg h3, if_neg h4]
            rw [parse_eq_glob]
            cases glob p x <;> simp [Match]

lemma queueWF_push1 {q : Queue} (h : QueueWF q) (e : Event) :
    QueueWF (q.push1 e) := by
  obtain ⟨h1, h2⟩ := h
  unfold Queue.push1
  by_cases hk : e.kind.isCompletion
  · simp only [hk, if_pos]
    refine ⟨fun x hx => ?_, h2⟩
    rcases List.mem_append.mp hx with hx | hx
    · exact h1 x hx
    · simp only [List.mem_singleton] at hx; subst hx; exact hk
  · simp only [hk, if_neg, Bool.false_eq_true, not_false_iff]
    refine ⟨h1, fun x hx => ?_⟩
    rcases List.mem_append.mp hx with hx | hx
    · exact h2 x hx
    · simp only [List.mem_singleton] at hx; subst hx; exact hk

lemma queueWF_push {q : Queue} (h : QueueWF q) (es : List Event) :
    QueueWF (q.push es) := by
  induction es generalizing q with
  | nil => exact h
  | cons e rest ih => exact ih (queueWF_push1 h e)

lemma queueWF_pop {q : Queue} (h : QueueWF q) {e : Event} {q' : Queue}
    (hp : q.pop = some (e, q')) : QueueWF q' := by
  obtain ⟨h1, h2⟩ := h
  unfold Queue.pop at hp
  rcases hl : q.completionEvents.getLast? with _ | c
  · rw [hl] at hp
    rcases he : q.events with _ | ⟨x, rest⟩
    · simp [he] at hp
    · rw [he] at hp
      simp only [Option.some.injEq, Prod.mk.injEq] at hp
      obtain ⟨-, hq⟩ := hp
      subst hq
      refine ⟨h1, fun y hy => h2 y ?_⟩
      rw [he]; exact List.mem_cons_of_mem x hy
  · rw [hl] at hp
    simp only [Option.some.injEq, Prod.mk.injEq] at hp
    obtain ⟨-, hq⟩ := hp
    subst hq
    exact ⟨fun y hy => h1 y (List.dropLast_subset _ hy), h2⟩

lemma queueWF_runOps (ops : List (Option (List Event))) {q : Queue}
    (h : QueueWF q) : QueueWF (Queue.runOps ops q) := by
  induction ops generalizing q with
  | nil => exact h
  | cons op rest ih =>
    refine ih ?_
    unfold Queue.apply
    match op with
    | some es => exact queueWF_push h es
    | none =>
      rcases hp : q.pop with _ | ⟨e, q'⟩
      · simpa [hp] using h
      · simpa [hp] using queueWF_pop h hp

/-- **C3.** For every sequence of push and pop operations on the event
queue: the bucket discipline is maintained from the empty queue (push places
each event into the bucket determined by its kind); pop returns the most
recently pushed completion event whenever at least one is queued (LIFO among
completion events, and in particular popping right after pushing a
completion event returns exactly that event and restores the queue);
otherwise it returns the oldest queued normal event (FIFO) or reports that
no event is available. -/
theorem claim_C3 :
    (∀ ops : List (Option (List Event)), QueueWF (Queue.runOps ops Queue.empty)) ∧
    (∀ (q : Queue) (h : q.completionEvents ≠ []),
        q.pop = some (q.completionEvents.getLast h,
          ⟨q.completionEvents.dropLast, q.events⟩)) ∧
    (∀ q : Queue, QueueWF q → q.completionEvents ≠ [] →
        ∃ c q', q.pop = some (c, q') ∧ c.kind.isCompletion) ∧
    (∀ (q : Queue) (c : Event), c.kind.isCompletion → (q.push1 c).pop = some (c, q)) ∧
    (∀ q : Queue, q.completionEvents = [] →
        q.pop = q.events.head?.map (fun e => (e, Queue.mk [] q.events.tail))) ∧
    (∀ (q : Queue) (e : Event), ¬ e.kind.isCompletion →
        q.push1 e = Queue.mk q.completionEvents (q.events ++ [e])) := by
  refine ⟨?_, ?_, ?_, ?_, ?_, ?_⟩
  · intro ops
    refine queueWF_runOps ops ⟨?_, ?_⟩ <;> intro e he <;> simp [Queue.empty] at he
  · intro q h
    unfold Queue.pop
    rw [List.getLast?_eq_getLast q.completionEvents h]
  · intro q hwf h
    refine ⟨q.completionEvents.getLast h, ⟨q.completionEvents.dropLast, q.events⟩, ?_, ?_⟩
    · unfold Queue.pop
      rw [List.getLast?_eq_getLast q.completionEvents h]
    · exact hwf.1 _ (List.getLast_mem h)
  · intro q c hc
    unfold Queue.push1 Queue.pop
    simp only [hc, if_pos, List.getLast?_concat, List.dropLast_concat]
  · intro q h
    unfold Queue.pop
    rcases he : q.events with _ | ⟨e, rest⟩ <;> simp [h, he]
  · intro q e he
    unfold Queue.push1
    simp [he]

/-- Witness for C3: instantiates each guarded conjunct at a concrete
queue holding one completion and one normal event. -/
theorem claim_C3_witness :
    (Queue.mk [⟨['c'], .Completion, 1⟩] [⟨['n'], .Normal, 2⟩]).pop =
        some (⟨['c'], .Completion, 1⟩, Queue.mk [] [⟨['n'], .Normal, 2⟩]) ∧
    (∃ c q', (Queue.mk [⟨['c'], .Completion, 1⟩] [⟨['n'], .Normal, 2⟩]).pop = some (c, q') ∧
        c.kind.isCompletion) ∧
    (Queue.mk [] [⟨['n'], .Normal, 2⟩]).push1 ⟨['c'], .Completion, 1⟩ =
        Queue.mk [⟨['c'], .Completion, 1⟩] [⟨['n'], .Normal, 2⟩] ∧
    ((Queue.mk [] [⟨['n'], .Normal, 2⟩]).push1 ⟨['c'], .Completion, 1⟩).pop =
        some (⟨['c'], .Completion, 1⟩, Queue.mk [] [⟨['n'], .Normal, 2⟩]) ∧
    (Queue.mk [] [⟨['n'], .Normal, 2⟩]).pop =
        some (⟨['n'], .Normal, 2⟩, Queue.mk [] []) ∧
    (Queue.mk [] []).pop = none := by
  refine ⟨?_, ?_, by decide, ?_, ?_, by decide⟩
  · exact claim_C3.2.1 (Queue.mk [⟨['c'], .Completion, 1⟩] [⟨['n'], .Normal, 2⟩]) (by decide)
  · exact claim_C3.2.2.1 (Queue.mk [⟨['c'], .Completion, 1⟩] [⟨['n'], .Normal, 2⟩])
      (by decide) (by decide)
  · exact claim_C3.2.2.2.1 (Queue.mk [] [⟨['n'], .Normal, 2⟩]) ⟨['c'], .Completion, 1⟩ (by decide)
  · exact claim_C3.2.2.2.2.1 (Queue.mk [] [⟨['n'], .Normal, 2⟩]) (by decide)

/-! ### C8: transition-kind derivation -/

lemma modelWF_trans {m : Model} (hwf : ModelWF m) {q : QName} {t : TransitionData}
    (hmem : (q, Member.mtransition t) ∈ m.members) : TransWF m t :=
  (hwf.2.2 _ hmem).2

/-- C8: for every transition of a well-formed compiled model, its kind is
derived by exactly these rules in this order: `Self` when the target equals
the source; `Internal` when the target is empty; `Local` when the source is
a strict ancestor of the target (a proper segment-wise prefix of its
canonical name); `External` otherwise. -/
theorem claim_C8 (m : Model) (q : QName) (t : TransitionData)
    (hwf : ModelWF m) (hmem : (q, Member.mtransition t) ∈ m.members) :
    t.kind =
      if t.target = t.source then TKind.Self
      else if t.target = [] then TKind.Internal
      else if segsOf t.source ≠ segsOf t.target ∧ segsOf t.source <+: segsOf t.target
        then TKind.Local
      else TKind.External := by
  have htw := modelWF_trans hwf hmem
  obtain ⟨hne, hcs, hfs, htgt, hkind, _⟩ := htw
  rw [hkind]
  unfold transitionKind
  by_cases h1 : t.target = t.source
  · simp [h1]
  by_cases h2 : t.target = []
  · simp [h1, h2]
  have hct := htgt h2
  have hIA : IsAncestor t.source t.target =
      decide (segsOf t.source ≠ segsOf t.target ∧ segsOf t.source <+: segsOf t.target) := by
    conv_lhs => rw [hcs.1, hct.1.1]
    exact IsAncestor_fromSegs _ _ hcs.2 hct.1.2
  simp only [if_neg h1, if_neg h2, hIA]
  by_cases h3 : segsOf t.source ≠ segsOf t.target ∧ segsOf t.source <+: segsOf t.target
  · simp [h3]
  · simp [h3]

/-! ### Canonical-name helpers, `hsm.stop` and `hsm.Dispatch` (C10, C7) -/

lemma splitOnSlash_seg : ∀ (s : List Char), s ≠ [] → '/' ∉ s →
    splitOnSlash s = [s] := by
  intro s
  induction s with
  | nil => intro h; exact absurd rfl h
  | cons c s' ih =>
    intro _ hns
    have hc : ¬ c = '/' := by
      rintro rfl; exact hns (List.mem_cons_self _ _)
    have hs' : '/' ∉ s' := fun h => hns (List.mem_cons_of_mem _ h)
    simp only [splitOnSlash, if_neg hc]
    cases hk : s' with
    | nil => rfl
    | cons d t =>
      rw [← hk, ih (by rw [hk]; simp) hs']

lemma splitOnSlash_append (s r : List Char) (hns : '/' ∉ s) :
    splitOnSlash (s ++ '/' :: r) = s :: splitOnSlash r := by
  induction s with
  | nil => simp [splitOnSlash]
  | cons c s' ih =>
    have hc : ¬ c = '/' := by
      rintro rfl; exact hns (List.mem_cons_self _ _)
    have hs' : '/' ∉ s' := fun h => hns (List.mem_cons_of_mem _ h)
    show splitOnSlash (c :: (s' ++ '/' :: r)) = (c :: s') :: splitOnSlash r
    simp only [splitOnSlash, if_neg hc, ih hs']

lemma splitOnSlash_catSegs : ∀ (ss : List (List Char)) (s : List Char),
    SegOk s → (∀ x ∈ ss, SegOk x) →
    splitOnSlash (s ++ catSegs ss) = s :: ss := by
  intro ss
  induction ss with
  | nil =>
    intro s hs _
    simp only [catSegs, List.append_nil]
    exact splitOnSlash_seg s hs.1 hs.2.1
  | cons s2 rest ih =>
    intro s hs hall
    have hcat : catSegs (s2 :: rest) = '/' :: (s2 ++ catSegs rest) := rfl
    rw [hcat, splitOnSlash_append s _ hs.2.1,
      ih s2 (hall _ (List.mem_cons_self _ _))
        (fun x hx => hall _ (List.mem_cons_of_mem _ hx))]

/-- `segsOf` inverts `fromSegs` on valid segment lists. -/
lemma segsOf_fromSegs (ss : List (List Char)) (h : ∀ s ∈ ss, SegOk s) :
    segsOf (fromSegs ss) = ss := by
  cases ss with
  | nil => rfl
  | cons s rest =>
    have hs := h s (List.mem_cons_self _ _)
    have hcat : fromSegs (s :: rest) = '/' :: (s ++ catSegs rest) := rfl
    rw [hcat]
    have hne : s ++ catSegs rest ≠ [] := by
      simp only [ne_eq, List.append_eq_nil]
      rintro ⟨h1, -⟩
      exact hs.1 h1
    show (if s ++ catSegs rest = [] then [] else splitOnSlash (s ++ catSegs rest)) =
      s :: rest
    rw [if_neg hne]
    exact splitOnSlash_catSegs rest s hs
      (fun x hx => h x (List.mem_cons_of_mem _ hx))

lemma canonName_fromSegs (ss : List (List Char)) (h : ∀ s ∈ ss, SegOk s) :
    CanonName (fromSegs ss) :=
  ⟨by rw [segsOf_fromSegs ss h], by rw [segsOf_fromSegs ss h]; exact h⟩

lemma find?_mem {m : Model} {q : QName} {el : Member}
    (h : m.find? q = some el) : (q, el) ∈ m.members := by
  unfold Model.find? at h
  cases hf : m.members.find? (fun kv => kv.1 = q) with
  | none => rw [hf] at h; simp at h
  | some kv =>
    rw [hf] at h
    simp only [Option.map_some', Option.some.injEq] at h
    have hm := List.mem_of_find?_eq_some hf
    have hp := List.find?_some hf
    rcases kv with ⟨k1, k2⟩
    simp only [decide_eq_true_eq] at hp
    simp only at h
    subst hp; subst h
    exact hm

lemma canonName_of_find? {m : Model} (hwf : ModelWF m) {q : QName} {el : Member}
    (h : m.find? q = some el) : CanonName q :=
  (hwf.2.2 _ (find?_mem h)).1

lemma find?_nil_none {m : Model} (hwf : ModelWF m) : m.find? [] = none := by
  cases h : m.find? [] with
  | none => rfl
  | some el => exact absurd (canonName_of_find? hwf h).1 (by decide)

lemma stateAtB_elim {m : Model} {q : QName} (h : stateAtB m q = true) :
    ∃ s, m.find? q = some (Member.mstate VKind.State s) := by
  unfold stateAtB at h
  split at h
  · next s heq => exact ⟨s, heq⟩
  · simp at h

lemma segsOf_ne_nil_of_ne_root {q : QName} (hc : CanonName q) (hq : q ≠ ['/']) :
    segsOf q ≠ [] := by
  intro h
  apply hq
  rw [hc.1, h]
  rfl

lemma dir_canon {q : QName} (hc : CanonName q) :
    dir q = fromSegs (segsOf q).dropLast ∧ CanonName (dir q) := by
  have h1 : dir q = fromSegs (segsOf q).dropLast := by
    conv_lhs => rw [hc.1]
    exact dir_fromSegs_dropLast _ hc.2
  refine ⟨h1, ?_⟩
  rw [h1]
  exact canonName_fromSegs _ (fun s hs => hc.2 s ((List.dropLast_sublist _).subset hs))

/-- The exit walk of `hsm.stop`, started at any state member of a
well-formed model, always ends with the root state stored. -/
lemma stopLoop_root (m : Model) (hwf : ModelWF m) :
    ∀ (fuel : Nat) (q : QName), stateAtB m q = true → (segsOf q).length < fuel →
      (stopLoop m fuel q q).1 = ['/'] := by
  intro fuel
  induction fuel with
  | zero => intro q _ h; omega
  | succ n ih =>
    intro q hq hlen
    obtain ⟨s, hf⟩ := stateAtB_elim hq
    have hmem := find?_mem hf
    have hcq : CanonName q := (hwf.2.2 _ hmem).1
    by_cases hroot : q = ['/']
    · subst hroot
      simp only [stopLoop, show Owner ['/'] = [] from rfl, find?_nil_none hwf]
    · have hb := (hwf.2.2 _ hmem).2
      have hdirstate : stateAtB m (dir q) = true := hb.2.1 hroot
      have hOwner : Owner q = dir q := by unfold Owner; rw [if_neg hroot]
      obtain ⟨s2, hf2⟩ := stateAtB_elim hdirstate
      simp only [stopLoop, hOwner, hf2]
      apply ih (dir q) hdirstate
      have hseg : segsOf (dir q) = (segsOf q).dropLast := by
        rw [(dir_canon hcq).1]
        exact segsOf_fromSegs _
          (fun x hx => hcq.2 x ((List.dropLast_sublist _).subset hx))
      rw [hseg]
      have hne := segsOf_ne_nil_of_ne_root hcq hroot
      have : 1 ≤ (segsOf q).length := by
        cases hz : segsOf q with
        | nil => exact absurd hz hne
        | cons a t => simp
      rw [List.length_dropLast]
      omega

/-- C10: after `stop` completes on a started instance (active leaf a state
member), the stored state is the root, never nil: `State()` reports `"/"`
rather than the empty string, and a later `Dispatch` still enqueues the
event (running the processing loop) instead of returning the closed
channel. -/
theorem claim_C10 (m : Model) (leaf : QName) (ev : Event) (qu : Queue)
    (hwf : ModelWF m) (hleaf : stateAtB m leaf = true) :
    (stopFinal m leaf).1 = ['/'] ∧
    StateF (some (stopFinal m leaf).1) = ['/'] ∧
    (DispatchF (some (stopFinal m leaf).1) ev qu).1 = DispatchAction.enqueue := by
  have hroot : (stopFinal m leaf).1 = ['/'] := by
    unfold stopFinal
    apply stopLoop_root m hwf _ leaf hleaf
    obtain ⟨s, hf⟩ := stateAtB_elim hleaf
    have hc := canonName_of_find? hwf hf
    have h1 : (segsOf leaf).length ≤ leaf.length := by
      conv_rhs => rw [hc.1]
      exact length_le_length_fromSegs _
    omega
  exact ⟨hroot, by rw [hroot]; rfl, by rw [hroot]; rfl⟩

/-- Witness for C10: stopping the example machine at leaf `/a`. -/
theorem claim_C10_witness :
    ModelWF exampleM ∧ stateAtB exampleM (qn "/a") = true ∧
    ((stopFinal exampleM (qn "/a")).1 = ['/'] ∧
     StateF (some (stopFinal exampleM (qn "/a")).1) = ['/'] ∧
     (DispatchF (some (stopFinal exampleM (qn "/a")).1)
       ⟨[('x' : Char)], .Normal, 1⟩ Queue.empty).1 = DispatchAction.enqueue) :=
  ⟨by decide, by decide,
    claim_C10 exampleM (qn "/a") ⟨[('x' : Char)], .Normal, 1⟩ Queue.empty
      (by decide) (by decide)⟩

/-- C7 counterexample: the claim says every event dispatched to a stopped
instance gets the already-closed channel and changes nothing.  In the code,
`stop` leaves the root state stored, so `Dispatch` on the stopped example
machine enqueues the event and mutates the queue instead. -/
theorem claim_C7_cex :
    ModelWF exampleM ∧
    (stopFinal exampleM (qn "/a")).1 = ['/'] ∧
    (DispatchF (some (stopFinal exampleM (qn "/a")).1)
      ⟨[('y' : Char)], .Normal, 1⟩ Queue.empty).1 ≠ DispatchAction.closedChannel ∧
    (DispatchF (some (stopFinal exampleM (qn "/a")).1)
      ⟨[('y' : Char)], .Normal, 1⟩ Queue.empty).2 ≠ Queue.empty := by decide

/-- C7 amended: `Dispatch` returns the already-closed completion signal
(with nothing enqueued) exactly for a nil machine or one whose loaded state
is nil — an instance that was never initialized.  A stopped instance keeps
the root state stored, so dispatching to it enqueues the event (normalizing
a zero kind) rather than being rejected. -/
theorem claim_C7 (m : Model) (leaf : QName) (ev : Event) (qu : Queue)
    (hwf : ModelWF m) (hleaf : stateAtB m leaf = true) :
    DispatchF none ev qu = (DispatchAction.closedChannel, qu) ∧
    (stopFinal m leaf).1 = ['/'] ∧
    DispatchF (some (stopFinal m leaf).1) ev qu =
      (DispatchAction.enqueue,
        qu.push [if ev.kind = .Unset then { ev with kind := .Normal } else ev]) := by
  have hroot : (stopFinal m leaf).1 = ['/'] := by
    unfold stopFinal
    apply stopLoop_root m hwf _ leaf hleaf
    obtain ⟨s, hf⟩ := stateAtB_elim hleaf
    have hc := canonName_of_find? hwf hf
    have h1 : (segsOf leaf).length ≤ leaf.length := by
      conv_rhs => rw [hc.1]
      exact length_le_length_fromSegs _
    omega
  exact ⟨rfl, hroot, rfl⟩

/-- Witness for C7's amended theorem at the example machine. -/
theorem claim_C7_witness :
    ModelWF exampleM ∧ stateAtB exampleM (qn "/b") = true ∧
    (DispatchF none ⟨[('z' : Char)], .Normal, 1⟩ Queue.empty =
        (DispatchAction.closedChannel, Queue.empty) ∧
     (stopFinal exampleM (qn "/b")).1 = ['/'] ∧
     DispatchF (some (stopFinal exampleM (qn "/b")).1)
         ⟨[('z' : Char)], .Normal, 1⟩ Queue.empty =
       (DispatchAction.enqueue, Queue.empty.push
         [if (⟨[('z' : Char)], .Normal, 1⟩ : Event).kind = .Unset then
            { (⟨[('z' : Char)], .Normal, 1⟩ : Event) with kind := .Normal }
          else ⟨[('z' : Char)], .Normal, 1⟩])) :=
  ⟨by decide, by decide,
    claim_C7 exampleM (qn "/b") ⟨[('z' : Char)], .Normal, 1⟩ Queue.empty
      (by decide) (by decide)⟩

/-! ### C5: internal transitions run only their effects -/

lemma getState?_elim {m : Model} {q : QName} {k : VKind} {s : StateData}
    (h : m.getState? q = some (k, s)) : m.find? q = some (.mstate k s) := by
  unfold Model.getState? at h
  by_cases hq : q = []
  · rw [if_pos hq] at h; exact absurd h (by simp)
  · rw [if_neg hq] at h
    split at h
    · next k' s' heq =>
      obtain ⟨rfl, rfl⟩ := Prod.mk.injEq .. ▸ Option.some.injEq .. ▸ h
      exact heq
    · exact absurd h (by simp)

lemma getTransition?_elim {m : Model} {q : QName} {t : TransitionData}
    (h : m.getTransition? q = some t) : m.find? q = some (.mtransition t) := by
  unfold Model.getTransition? at h
  by_cases hq : q = []
  · rw [if_pos hq] at h; exact absurd h (by simp)
  · rw [if_neg hq] at h
    split at h
    · next t' heq =>
      obtain rfl : t' = t := by injection h
      exact heq
    · exact absurd h (by simp)

lemma find?_entry {m : Model} {q : QName} {el : Member}
    (h : m.find? q = some el) :
    m.members.find? (fun kv => kv.1 = q) = some (q, el) := by
  unfold Model.find? at h
  cases hf : m.members.find? (fun kv => kv.1 = q) with
  | none => rw [hf] at h; simp at h
  | some kv =>
    rw [hf] at h
    simp only [Option.map_some', Option.some.injEq] at h
    have hp := List.find?_some hf
    rcases kv with ⟨k1, k2⟩
    simp only [decide_eq_true_eq] at hp
    simp only at h
    subst hp; subst h
    rfl

lemma selectTransition_nil (m : Model) (geval : QName → Event → Bool)
    (ev : Event) : ∀ fuel, selectTransition m geval ev fuel [] = none := by
  intro fuel
  cases fuel with
  | zero => rfl
  | succ n => simp [selectTransition]

/-- What the walk's selection guarantees: the selected transition is the
enabled pick of some visited state, an ancestor (segment prefix) of the
starting name. -/
lemma selectTransition_spec (m : Model) (geval : QName → Event → Bool)
    (ev : Event) (hwf : ModelWF m) :
    ∀ (fuel : Nat) (q : QName) (t : TransitionData),
      CanonName q →
      selectTransition m geval ev fuel q = some t →
      ∃ q' k s, CanonName q' ∧ segsOf q' <+: segsOf q ∧
        m.find? q' = some (.mstate k s) ∧
        enabledF m geval ev s.transitions = some t := by
  intro fuel
  induction fuel with
  | zero => intro q t _ h; exact absurd h (by simp [selectTransition])
  | succ n ih =>
    intro q t hcq hsel
    by_cases hq0 : q = []
    · rw [hq0] at hsel
      exact absurd hsel (by simp [selectTransition])
    simp only [selectTransition, if_neg hq0] at hsel
    cases hgs : m.getState? q with
    | none => rw [hgs] at hsel; exact absurd hsel (by simp)
    | some ks =>
      rcases ks with ⟨k, s⟩
      simp only [hgs] at hsel
      cases hen : enabledF m geval ev s.transitions with
      | some t' =>
        simp only [hen] at hsel
        obtain rfl : t' = t := by injection hsel
        exact ⟨q, k, s, hcq, List.prefix_refl _, getState?_elim hgs, hen⟩
      | none =>
        simp only [hen] at hsel
        by_cases hdef : s.deferred ≠ [] ∧ Match ev.name s.deferred
        · rw [if_pos hdef] at hsel; exact absurd hsel (by simp)
        rw [if_neg hdef] at hsel
        by_cases hroot : q = ['/']
        · rw [hroot] at hsel
          rw [show Owner ['/'] = [] from rfl, selectTransition_nil] at hsel
          exact absurd hsel (by simp)
        · have hOwner : Owner q = dir q := by unfold Owner; rw [if_neg hroot]
          rw [hOwner] at hsel
          obtain ⟨q', k', s', hc', hpre', hf', hen'⟩ :=
            ih (dir q) t (dir_canon hcq).2 hsel
          refine ⟨q', k', s', hc', ?_, hf', hen'⟩
          have hdd : segsOf (dir q) = (segsOf q).dropLast := by
            rw [(dir_canon hcq).1]
            exact segsOf_fromSegs _
              (fun x hx => hcq.2 x ((List.dropLast_sublist _).subset hx))
          rw [hdd] at hpre'
          exact hpre'.trans
            (by rw [List.dropLast_eq_take]; exact List.take_prefix _ _)

lemma enabledF_mem (m : Model) (geval : QName → Event → Bool) (ev : Event) :
    ∀ (ts : List QName) (t : TransitionData),
      enabledF m geval ev ts = some t →
      ∃ tq ∈ ts, m.getTransition? tq = some t := by
  intro ts
  induction ts with
  | nil => intro t h; exact absurd h (by simp [enabledF])
  | cons tq rest ih =>
    intro t h
    simp only [enabledF] at h
    cases hg : m.getTransition? tq with
    | none =>
      simp only [hg] at h
      obtain ⟨tq', htq', hgt'⟩ := ih t h
      exact ⟨tq', List.mem_cons_of_mem _ htq', hgt'⟩
    | some t' =>
      simp only [hg] at h
      by_cases he : enabledOn m geval ev t'.guard t'.events = true
      · rw [if_pos he] at h
        obtain rfl : t' = t := by injection h
        exact ⟨tq, List.mem_cons_self _ _, hg⟩
      · rw [if_neg he] at h
        obtain ⟨tq', htq', hgt'⟩ := ih t h
        exact ⟨tq', List.mem_cons_of_mem _ htq', hgt'⟩

lemma catSegs_append' (a b : List (List Char)) :
    catSegs (a ++ b) = catSegs a ++ catSegs b := catSegs_append a b

lemma fromSegs_isPrefixOf {as bs : List (List Char)} (h : as <+: bs) :
    (fromSegs as).isPrefixOf (fromSegs bs) = true := by
  rw [List.isPrefixOf_iff_prefix]
  obtain ⟨cs, rfl⟩ := h
  cases as with
  | nil =>
    cases cs with
    | nil => exact List.prefix_refl _
    | cons c cs' =>
      refine ⟨(fromSegs (c :: cs')).tail, ?_⟩
      have : fromSegs (c :: cs') = '/' :: (c ++ catSegs cs') := rfl
      rw [this]
      rfl
  | cons a as' =>
    refine ⟨catSegs cs, ?_⟩
    have h1 : fromSegs (a :: as') = catSegs (a :: as') := rfl
    have h2 : fromSegs ((a :: as') ++ cs) = catSegs ((a :: as') ++ cs) := rfl
    rw [h1, h2, catSegs_append]

/-- Looking a vertex member's name up in a freshly computed path table. -/
lemma computePaths_lookup :
    ∀ (members : List (QName × Member)) (source target l : QName) (k : TKind)
      (el : Member),
      members.find? (fun kv => kv.1 = l) = some (l, el) →
      (match el with
       | .mstate _ _ => True | .mvertex _ _ => True | _ => False) →
      source.isPrefixOf l = true →
      (computePaths members source target k).find? (fun kv => kv.1 = l) =
        some (l, ⟨computeEnter source target k,
          if k = .Internal then [] else
            exitChain (l.length + 1) l (LCA source target)⟩) := by
  intro members
  induction members with
  | nil => intro source target l k el h; simp at h
  | cons kv rest ih =>
    intro source target l k el hfind hvx hpre
    rcases kv with ⟨l', el'⟩
    by_cases hl : l' = l
    · subst hl
      have hel : el' = el := by
        rw [List.find?_cons_of_pos _ (by simp)] at hfind
        simp only [Option.some.injEq, Prod.mk.injEq] at hfind
        exact hfind.2
      subst hel
      cases el' with
      | mstate k0 s0 =>
        simp only [computePaths, List.filterMap_cons, if_pos hpre]
        rw [List.find?_cons_of_pos _ (by simp)]
      | mvertex k0 ts0 =>
        simp only [computePaths, List.filterMap_cons, if_pos hpre]
        rw [List.find?_cons_of_pos _ (by simp)]
      | mtransition t0 => exact absurd hvx (by simp)
      | mbehavior => exact absurd hvx (by simp)
      | mconstraint => exact absurd hvx (by simp)
    · have hfind' : rest.find? (fun kv => kv.1 = l) = some (l, el) := by
        rw [List.find?_cons_of_neg _ (by simp [hl])] at hfind
        exact hfind
      have := ih source target l k el hfind' hvx hpre
      simp only [computePaths] at this ⊢
      cases el' with
      | mstate k0 s0 =>
        simp only [List.filterMap_cons]
        by_cases hp' : source.isPrefixOf l' = true
        · rw [if_pos hp', List.find?_cons_of_neg _ (by simp [hl])]
          exact this
        · rw [if_neg hp']
          exact this
      | mvertex k0 ts0 =>
        simp only [List.filterMap_cons]
        by_cases hp' : source.isPrefixOf l' = true
        · rw [if_pos hp', List.find?_cons_of_neg _ (by simp [hl])]
          exact this
        · rw [if_neg hp']
          exact this
      | mtransition t0 => simpa only [List.filterMap_cons] using this
      | mbehavior => simpa only [List.filterMap_cons] using this
      | mconstraint => simpa only [List.filterMap_cons] using this

/-- C5: a transition of `Internal` kind selected by the walk runs no entry
behavior, no exit behavior and no activity of any state: the step's trace
is exactly the transition's effects in declaration order, and the element
`hsm.transition` returns is the active leaf it was given. -/
theorem claim_C5 (m : Model) (geval : QName → Event → Bool) (ev : Event)
    (leaf : QName) (t : TransitionData) (wfuel efuel : Nat)
    (hwf : ModelWF m) (hleaf : stateAtB m leaf = true)
    (hsel : selectTransition m geval ev wfuel leaf = some t)
    (hint : t.kind = .Internal) :
    engine m geval ev (efuel + 1) (.trans leaf t) =
      (some leaf, t.effect.filterMap
        (fun b => if m.isBehavior b then some (Step.eff b) else none)) ∧
    ∀ st ∈ (engine m geval ev (efuel + 1) (.trans leaf t)).2,
      ∃ b, st = Step.eff b := by
  obtain ⟨s0, hf0⟩ := stateAtB_elim hleaf
  have hcleaf : CanonName leaf := canonName_of_find? hwf hf0
  obtain ⟨q', k', s', hc', hpre', hf', hen'⟩ :=
    selectTransition_spec m geval ev hwf wfuel leaf t hcleaf hsel
  obtain ⟨tq, htqmem, hgt⟩ := enabledF_mem m geval ev s'.transitions t hen'
  have hmemq' := find?_mem hf'
  have hbq' := (hwf.2.2 _ hmemq').2
  have hsrc : t.source = q' := by
    have hso := hbq'.2.2.1 tq htqmem
    unfold sourceOkB at hso
    rw [hgt] at hso
    exact of_decide_eq_true hso
  have hkq' : k' = VKind.State ∨ k' = VKind.FinalState := hbq'.1
  have htw : TransWF m t := modelWF_trans hwf (find?_mem (getTransition?_elim hgt))
  have hnotinit : ¬ kindIs m t.source [VKind.Initial] := by
    unfold kindIs
    rw [hsrc, hf']
    rcases hkq' with rfl | rfl <;> simp
  have hpaths : t.paths = computePaths m.members t.source t.target t.kind := by
    have := htw.2.2.2.2.2.2.2
    rwa [if_neg hnotinit] at this
  have hprefix : t.source.isPrefixOf leaf = true := by
    have hh := fromSegs_isPrefixOf hpre'
    rw [← hc'.1, ← hcleaf.1] at hh
    rw [hsrc]
    exact hh
  have hentry := find?_entry hf0
  have hlook := computePaths_lookup m.members t.source t.target leaf t.kind
    (Member.mstate VKind.State s0) hentry (by simp) hprefix
  rw [hint] at hlook
  simp only [if_pos rfl] at hlook
  have hmap : (t.paths.find? (fun kv => kv.1 = leaf)).map (·.2) =
      some ⟨computeEnter t.source t.target TKind.Internal, []⟩ := by
    rw [hpaths, hint, hlook]
    rfl
  have hE : engine m geval ev (efuel + 1) (.trans leaf t) =
      (some leaf, t.effect.filterMap
        (fun b => if m.isBehavior b then some (Step.eff b) else none)) := by
    simp only [engine, hmap, hint]
    rfl
  refine ⟨hE, ?_⟩
  intro st hst
  rw [hE] at hst
  simp only [List.mem_filterMap] at hst
  obtain ⟨b, _, hb⟩ := hst
  by_cases hbb : m.isBehavior b = true
  · rw [if_pos hbb] at hb
    exact ⟨b, by injection hb with h; exact h.symm⟩
  · rw [if_neg hbb] at hb
    exact absurd hb (by simp)

/-- Witness for C5: the internal transition `/b/t2` of the example machine
selected at leaf `/b` for event `i`. -/
theorem claim_C5_witness :
    ModelWF exampleM ∧ stateAtB exampleM (qn "/b") = true ∧
    selectTransition exampleM (fun _ _ => true) ⟨[('i' : Char)], .Normal, 1⟩ 4
      (qn "/b") = some exT2 ∧ exT2.kind = .Internal ∧
    (engine exampleM (fun _ _ => true) ⟨[('i' : Char)], .Normal, 1⟩ 1
        (.trans (qn "/b") exT2) =
      (some (qn "/b"), exT2.effect.filterMap
        (fun b => if exampleM.isBehavior b then some (Step.eff b) else none)) ∧
     ∀ st ∈ (engine exampleM (fun _ _ => true) ⟨[('i' : Char)], .Normal, 1⟩ 1
        (.trans (qn "/b") exT2)).2, ∃ b, st = Step.eff b) :=
  ⟨by decide, by decide, by decide, by decide,
    claim_C5 exampleM (fun _ _ => true) ⟨[('i' : Char)], .Normal, 1⟩ (qn "/b")
      exT2 3 0 (by decide) (by decide) (by decide) (by decide)⟩

/-! ### C1: the RTC selection walk -/

lemma enabledOn_false (m : Model) (geval : QName → Event → Bool) (ev : Event)
    (guard : QName) (hc : m.isConstraint guard = true)
    (hg : geval guard ev = false) :
    ∀ events, enabledOn m geval ev guard events = false := by
  intro events
  induction events with
  | nil => rfl
  | cons e rest ih =>
    simp only [enabledOn]
    by_cases hm : Match ev.name [e] = true
    · rw [if_neg (by simp [hm]), if_pos (by simp [hc, hg])]
      exact ih
    · rw [if_pos (by simpa using hm)]
      exact ih

/-- `hsm.enabled`'s inner loop decides: some pattern matches and the guard
(when there is a constraint) accepts. -/
lemma enabledOn_iff (m : Model) (geval : QName → Event → Bool) (ev : Event)
    (guard : QName) :
    ∀ events, enabledOn m geval ev guard events = true ↔
      ((∃ p ∈ events, Match ev.name [p] = true) ∧
        (m.isConstraint guard = true → geval guard ev = true)) := by
  intro events
  induction events with
  | nil => simp [enabledOn]
  | cons e rest ih =>
    simp only [enabledOn]
    by_cases hm : Match ev.name [e] = true
    · by_cases hrej : m.isConstraint guard = true ∧ ¬ geval guard ev = true
      · rw [if_neg (by simp [hm]), if_pos (by simpa using hrej)]
        have hfalse := enabledOn_false m geval ev guard hrej.1
          (by rcases hgv : geval guard ev with _ | _
              · rfl
              · exact absurd hgv hrej.2) rest
        rw [hfalse]
        constructor
        · intro h; exact absurd h (by simp)
        · rintro ⟨-, himp⟩
          exact absurd (himp hrej.1) hrej.2
      · rw [if_neg (by simp [hm]), if_neg (by simpa using hrej)]
        refine ⟨fun _ => ⟨⟨e, List.mem_cons_self _ _, hm⟩, fun hcon => ?_⟩,
          fun _ => rfl⟩
        by_cases hgv : geval guard ev = true
        · exact hgv
        · exact absurd ⟨hcon, hgv⟩ hrej
    · rw [if_pos (by simpa using hm)]
      rw [ih]
      constructor
      · rintro ⟨⟨p, hp, hpm⟩, himp⟩
        exact ⟨⟨p, List.mem_cons_of_mem _ hp, hpm⟩, himp⟩
      · rintro ⟨⟨p, hp, hpm⟩, himp⟩
        rcases List.mem_cons.mp hp with rfl | hp'
        · exact absurd hpm hm
        · exact ⟨⟨p, hp', hpm⟩, himp⟩

/-- `hsm.enabled` agrees with the claim's per-transition description. -/
lemma enabledF_eq_claim (m : Model) (geval : QName → Event → Bool)
    (ev : Event) : ∀ ts, enabledF m geval ev ts = claimEnabledF m geval ev ts := by
  intro ts
  induction ts with
  | nil => rfl
  | cons tq rest ih =>
    cases hg : m.getTransition? tq with
    | none => simp only [enabledF, claimEnabledF, hg]; exact ih
    | some t =>
      simp only [enabledF, claimEnabledF, hg]
      by_cases hcond : (t.events.any (fun p => Match ev.name [p]) = true) ∧
          (m.isConstraint t.guard = true → geval t.guard ev = true)
      · rw [if_pos ((enabledOn_iff m geval ev t.guard t.events).mpr
          ⟨List.any_eq_true.mp hcond.1, hcond.2⟩)]
        rw [if_pos (by exact_mod_cast hcond)]
      · rw [if_neg (fun h => hcond
          ⟨List.any_eq_true.mpr ((enabledOn_iff m geval ev t.guard t.events).mp h).1,
            ((enabledOn_iff m geval ev t.guard t.events).mp h).2⟩)]
        rw [if_neg (by exact_mod_cast hcond)]
        exact ih

/-- C1 counterexample: in the deferral-shadowing model the leaf `/p/a`
defers `e` while its parent `/p` has an enabled transition on `e`.  The
claim's search selects the parent's transition, but the code's walk stops
at the deferring leaf and selects nothing — the event is set aside
instead. -/
theorem claim_C1_cex :
    ModelWF mc1 ∧ stateAtB mc1 (qn "/p/a") = true ∧
    claimSelect mc1 (fun _ _ => true) ⟨[('e' : Char)], .Normal, 1⟩ 4
      (qn "/p/a") = some mc1T ∧
    selectTransition mc1 (fun _ _ => true) ⟨[('e' : Char)], .Normal, 1⟩ 4
      (qn "/p/a") = none ∧
    processWalk mc1 (fun _ _ => true) 8 ⟨[('e' : Char)], .Normal, 1⟩
      (qn "/p/a") 4 (qn "/p/a") = .deferredEv := by decide

/-- C1 amended: the RTC step selects a transition by walking from the
active leaf up through its ancestor states, examining each visited state's
outgoing transitions in stored order — declaration order with
wildcard-pattern transitions stably moved last — and selecting the first
with a matching pattern and satisfied guard; however, the upward search
stops, selecting nothing, at the first visited state whose deferral
patterns match the event name.  (`ModelWF` records that the stored order
is the wildcard-last stable reorder of declaration order, as a fixed
point of that reorder.) -/
theorem claim_C1 (m : Model) (geval : QName → Event → Bool) (ev : Event)
    (hwf : ModelWF m) :
    ∀ (fuel : Nat) (q : QName),
      selectTransition m geval ev fuel q = claimSelectD m geval ev fuel q := by
  intro fuel
  induction fuel with
  | zero => intro q; rfl
  | succ n ih =>
    intro q
    by_cases hq0 : q = []
    · simp only [selectTransition, claimSelectD, if_pos hq0]
    cases hgs : m.getState? q with
    | none => simp only [selectTransition, claimSelectD, if_neg hq0, hgs]
    | some ks =>
      rcases ks with ⟨k, s⟩
      have hsort : s.transitions = sortTransitions m s.transitions := by
        have hb := (hwf.2.2 _ (find?_mem (getState?_elim hgs))).2
        exact hb.2.2.2.1
      simp only [selectTransition, claimSelectD, if_neg hq0, hgs]
      rw [← hsort, enabledF_eq_claim]
      cases hce : claimEnabledF m geval ev s.transitions with
      | some t => simp only [hce]
      | none =>
        simp only [hce]
        by_cases hdef : s.deferred ≠ [] ∧ Match ev.name s.deferred
        · rw [if_pos hdef, if_pos hdef]
        · rw [if_neg hdef, if_neg hdef, ih]

/-- Witness for C1's amended theorem: with no deferral in the way, both
searches select `/a`'s transition `t1` for event `c` at leaf `/a`. -/
theorem claim_C1_witness :
    ModelWF exampleM ∧
    selectTransition exampleM (fun _ _ => true) ⟨[('c' : Char)], .Normal, 1⟩ 4
        (qn "/a") =
      claimSelectD exampleM (fun _ _ => true) ⟨[('c' : Char)], .Normal, 1⟩ 4
        (qn "/a") ∧
    selectTransition exampleM (fun _ _ => true) ⟨[('c' : Char)], .Normal, 1⟩ 4
        (qn "/a") = some exT1 :=
  ⟨by decide,
    claim_C1 exampleM (fun _ _ => true) ⟨[('c' : Char)], .Normal, 1⟩
      (by decide) 4 (qn "/a"),
    by decide⟩

/-! ### C6: the active element after a step -/

lemma getVertex?_elim {m : Model} {q : QName} {k : VKind} {ts : List QName}
    (h : m.getVertex? q = some (k, ts)) : m.find? q = some (.mvertex k ts) := by
  unfold Model.getVertex? at h
  by_cases hq : q = []
  · rw [if_pos hq] at h; exact absurd h (by simp)
  · rw [if_neg hq] at h
    split at h
    · next k' ts' heq =>
      obtain ⟨rfl, rfl⟩ : k' = k ∧ ts' = ts := by
        have := Option.some.injEq .. ▸ h
        exact Prod.mk.injEq .. ▸ this
      exact heq
    · exact absurd h (by simp)

lemma transMemB_of_find {m : Model} {q : QName} {t : TransitionData}
    (h : m.find? q = some (.mtransition t)) : transMemB m t = true := by
  unfold transMemB
  rw [List.any_eq_true]
  exact ⟨(q, .mtransition t), find?_mem h, by simp⟩

lemma transWF_of_transMemB {m : Model} {t : TransitionData} (hwf : ModelWF m)
    (h : transMemB m t = true) : TransWF m t := by
  unfold transMemB at h
  rw [List.any_eq_true] at h
  obtain ⟨kv, hkv, heq⟩ := h
  simp only [decide_eq_true_eq] at heq
  have hmw := (hwf.2.2 _ hkv).2
  rw [heq] at hmw
  exact hmw

lemma choiceTargets_elim {m : Model} {t : TransitionData}
    (hct : choiceTargetsOkB m = true) (htm : transMemB m t = true)
    (hch : kindIs m t.source [VKind.Choice]) : t.target ≠ [] := by
  unfold choiceTargetsOkB at hct
  rw [List.all_eq_true] at hct
  unfold transMemB at htm
  rw [List.any_eq_true] at htm
  obtain ⟨kv, hkv, heq⟩ := htm
  simp only [decide_eq_true_eq] at heq
  have hh := hct kv hkv
  rw [heq] at hh
  simp only [Bool.or_eq_true, Bool.not_eq_true', decide_eq_true_eq,
    decide_eq_false_iff_not] at hh
  rcases hh with hh | hh
  · exact absurd hch hh
  · exact hh

lemma mstateAtB_of_stateAtB {m : Model} {q : QName}
    (h : stateAtB m q = true) : mstateAtB m q = true := by
  unfold stateAtB at h
  split at h
  · next s heq => unfold mstateAtB; rw [heq]
  · simp at h

lemma vertexAtB_of_stateAtB {m : Model} {q : QName}
    (h : stateAtB m q = true) : vertexAtB m q = true := by
  unfold stateAtB at h
  split at h
  · next s heq => unfold vertexAtB; rw [heq]
  · simp at h

lemma owner_state_of_vertexAtB {m : Model} {q : QName} (hwf : ModelWF m)
    (h : vertexAtB m q = true) (hq : q ≠ ['/']) : stateAtB m (dir q) = true := by
  unfold vertexAtB at h
  split at h
  · next k s heq => exact ((hwf.2.2 _ (find?_mem heq)).2).2.1 hq
  · next k ts heq => exact ((hwf.2.2 _ (find?_mem heq)).2).2.1 hq
  · simp at h

/-- Every proper segment-prefix of a state or vertex member names a state
member: states and vertices are declared inside states all the way up. -/
lemma prefix_state (m : Model) (hwf : ModelWF m) :
    ∀ (k : Nat) (q : QName) (ps : List (List Char)),
      vertexAtB m q = true → CanonName q →
      ps <+: segsOf q → ps.length + (k + 1) = (segsOf q).length →
      mstateAtB m (fromSegs ps) = true := by
  intro k
  induction k with
  | zero =>
    intro q ps hv hc hpre hlen
    have hqroot : q ≠ ['/'] := by
      rintro rfl
      have : segsOf ['/'] = [] := rfl
      rw [this] at hlen
      simp at hlen
    have hps : ps = (segsOf q).dropLast := by
      have h1 : ps = (segsOf q).take ps.length := List.prefix_iff_eq_take.mp hpre
      rw [List.dropLast_eq_take, h1]
      congr 1
      omega
    have hdir : dir q = fromSegs ps := by
      rw [hps]; exact (dir_canon hc).1
    rw [← hdir]
    exact mstateAtB_of_stateAtB (owner_state_of_vertexAtB hwf hv hqroot)
  | succ k ih =>
    intro q ps hv hc hpre hlen
    have hqroot : q ≠ ['/'] := by
      rintro rfl
      have : segsOf ['/'] = [] := rfl
      rw [this] at hlen
      simp at hlen
    have howner := owner_state_of_vertexAtB hwf hv hqroot
    have hseg : segsOf (dir q) = (segsOf q).dropLast := by
      rw [(dir_canon hc).1]
      exact segsOf_fromSegs _
        (fun x hx => hc.2 x ((List.dropLast_sublist _).subset hx))
    apply ih (dir q) ps (vertexAtB_of_stateAtB howner) (dir_canon hc).2
    · rw [hseg]
      have h1 : ps = (segsOf q).take ps.length := List.prefix_iff_eq_take.mp hpre
      have h2 : (segsOf q).dropLast.take ps.length = (segsOf q).take ps.length := by
        rw [List.dropLast_eq_take, List.take_take]
        congr 1
        omega
      rw [h1, ← h2]
      exact List.take_prefix _ _
    · rw [hseg, List.length_dropLast]
      omega

lemma enterChain_getLast : ∀ (fuel : Nat) (e lca : QName),
    enterChain fuel e lca ≠ [] → (enterChain fuel e lca).getLast? = some e := by
  intro fuel e lca h
  cases fuel with
  | zero => exact absurd rfl h
  | succ n =>
    by_cases hc : e = lca ∨ e = ['/'] ∨ e = []
    · rw [enterChain, if_pos hc] at h
      exact absurd rfl h
    · rw [enterChain, if_neg hc]
      exact List.getLast?_concat _

lemma enterChain_nil_cases (fuel : Nat) (e lca : QName)
    (h : enterChain (fuel + 1) e lca = []) : e = lca ∨ e = ['/'] ∨ e = [] := by
  by_cases hc : e = lca ∨ e = ['/'] ∨ e = []
  · exact hc
  · rw [enterChain, if_neg hc] at h
    exact absurd h (by simp)

lemma computeEnter_getLast (s g : QName) (k : TKind)
    (hSelf : k = .Self → g = s) (hne : computeEnter s g k ≠ []) :
    (computeEnter s g k).getLast? = some g := by
  unfold computeEnter at *
  by_cases hself : k = .Self
  · rw [if_pos hself]
    rw [List.getLast?_concat]
    rw [hSelf hself]
  · rw [if_neg hself] at hne ⊢
    simp only [List.append_nil] at hne ⊢
    exact enterChain_getLast _ g _ hne

lemma computeEnter_nil (s g : QName) (k : TKind) (hself : k ≠ .Self)
    (h : computeEnter s g k = []) : g = LCA s g ∨ g = ['/'] ∨ g = [] := by
  unfold computeEnter at h
  rw [if_neg hself, List.append_nil] at h
  exact enterChain_nil_cases _ _ _ h

/-- Every entry of a computed path table carries the shared enter list and,
for internal transitions, an empty exit list. -/
lemma computePaths_entry {members : List (QName × Member)}
    {source target : QName} {k : TKind} {kv : QName × Paths}
    (h : kv ∈ computePaths members source target k) :
    kv.2.enter = computeEnter source target k ∧
      (k = .Internal → kv.2.exit = []) := by
  unfold computePaths at h
  rw [List.mem_filterMap] at h
  obtain ⟨a, _, ha⟩ := h
  rcases a with ⟨q0, el0⟩
  cases el0 with
  | mstate k0 s0 =>
    simp only at ha
    by_cases hp : source.isPrefixOf q0 = true
    · rw [if_pos hp] at ha
      obtain rfl : (q0, (⟨computeEnter source target k,
          if k = .Internal then [] else
            exitChain (q0.length + 1) q0 (LCA source target)⟩ : Paths)) = kv := by
        injection ha
      refine ⟨rfl, fun hk => ?_⟩
      simp only [if_pos hk]
    · rw [if_neg hp] at ha
      exact absurd ha (by simp)
  | mvertex k0 ts0 =>
    simp only at ha
    by_cases hp : source.isPrefixOf q0 = true
    · rw [if_pos hp] at ha
      obtain rfl : (q0, (⟨computeEnter source target k,
          if k = .Internal then [] else
            exitChain (q0.length + 1) q0 (LCA source target)⟩ : Paths)) = kv := by
        injection ha
      refine ⟨rfl, fun hk => ?_⟩
      simp only [if_pos hk]
    · rw [if_neg hp] at ha
      exact absurd ha (by simp)
  | mtransition t0 => exact absurd ha (by simp)
  | mbehavior => exact absurd ha (by simp)
  | mconstraint => exact absurd ha (by simp)

/-- The path entry the engine looks up in any well-formed transition's
table carries the shared enter list, and an empty exit list when the
transition is internal. -/
lemma paths_lookup_entry {m : Model} {t : TransitionData} (hwf : ModelWF m)
    (htm : transMemB m t = true) {cur : QName} {p : Paths}
    (h : (t.paths.find? (fun kv => kv.1 = cur)).map (·.2) = some p) :
    p.enter = computeEnter t.source t.target t.kind ∧
      (t.kind = .Internal → p.exit = []) := by
  have htw := transWF_of_transMemB hwf htm
  have hpaths := htw.2.2.2.2.2.2.2
  cases hfind : t.paths.find? (fun kv => kv.1 = cur) with
  | none => rw [hfind] at h; exact absurd h (by simp)
  | some kv =>
    rw [hfind] at h
    simp only [Option.map_some', Option.some.injEq] at h
    subst h
    have hmem := List.mem_of_find?_eq_some hfind
    by_cases hinit : kindIs m t.source [VKind.Initial]
    · rw [if_pos hinit] at hpaths
      rw [hpaths] at hmem
      simp only [List.mem_singleton] at hmem
      subst hmem
      refine ⟨rfl, fun hk => ?_⟩
      exact absurd (htw.2.2.2.2.2.2.1 hinit)
        (by
          have hkd := htw.2.2.2.2.1
          rw [hk] at hkd
          unfold transitionKind at hkd
          by_cases h1 : t.target = t.source
          · rw [if_pos h1] at hkd; exact absurd hkd (by simp)
          · rw [if_neg h1] at hkd
            by_cases h2 : t.target = []
            · simp [h2]
            · rw [if_neg h2] at hkd
              by_cases h3 : IsAncestor t.source t.target = true
              · rw [if_pos h3] at hkd; exact absurd hkd (by simp)
              · rw [if_neg h3] at hkd; exact absurd hkd (by simp))
    · rw [if_neg hinit] at hpaths
      rw [hpaths] at hmem
      exact computePaths_entry hmem

/-- An internal transition cannot start from an `Initial` vertex, so its
path entries all come from `computePaths` and carry empty exit lists. -/
lemma internal_not_self (t : TransitionData) (hk : t.kind = .Internal)
    (hkd : t.kind = transitionKind t.source t.target) (hs : t.source ≠ []) :
    t.target = [] ∧ t.target ≠ t.source := by
  rw [hk] at hkd
  unfold transitionKind at hkd
  by_cases h1 : t.target = t.source
  · rw [if_pos h1] at hkd; exact absurd hkd.symm (by simp)
  by_cases h2 : t.target = []
  · exact ⟨h2, h1⟩
  rw [if_neg h1, if_neg h2] at hkd
  by_cases h3 : IsAncestor t.source t.target = true
  · rw [if_pos h3] at hkd; exact absurd hkd.symm (by simp)
  · rw [if_neg h3] at hkd; exact absurd hkd.symm (by simp)

/-- The engine invariant behind C6: under well-formedness and targeted
choice branches, every element the engine returns is a state member. -/
lemma engine_state_invariant (m : Model) (geval : QName → Event → Bool)
    (ev : Event) (hwf : ModelWF m) (hct : choiceTargetsOkB m = true) :
    ∀ (fuel : Nat) (call : Call), CallOk m call →
      ∀ st, (engine m geval ev fuel call).1 = some st →
        mstateAtB m st = true := by
  intro fuel
  induction fuel with
  | zero => intro call _ st h; exact absurd h (by simp [engine])
  | succ n ih =>
    intro call hok st hres
    cases call with
    | enter q d =>
      rw [engine] at hres
      cases hfq : m.find? q with
      | none => rw [hfq] at hres; exact absurd hres (by simp)
      | some el =>
        rw [hfq] at hres
        cases el with
        | mstate k s =>
          cases k with
          | State =>
            simp only at hres
            by_cases hd : ¬ d = true ∨ s.initial = []
            · rw [if_pos hd] at hres
              obtain rfl : q = st := by injection hres
              unfold mstateAtB; rw [hfq]
            · rw [if_neg hd] at hres
              cases hgv : m.getVertex? s.initial with
              | none =>
                rw [hgv] at hres
                obtain rfl : q = st := by injection hres
                unfold mstateAtB; rw [hfq]
              | some kts =>
                rcases kts with ⟨kv0, ts0⟩
                rw [hgv] at hres
                cases ts0 with
                | nil =>
                  simp only at hres
                  obtain rfl : q = st := by injection hres
                  unfold mstateAtB; rw [hfq]
                | cons t0 rest0 =>
                  simp only at hres
                  cases hgt : m.getTransition? t0 with
                  | none =>
                    rw [hgt] at hres
                    obtain rfl : q = st := by injection hres
                    unfold mstateAtB; rw [hfq]
                  | some t =>
                    rw [hgt] at hres
                    simp only at hres
                    refine ih (.trans q t) ?_ st hres
                    have hfv := getVertex?_elim hgv
                    have hsrc : t.source = s.initial := by
                      have hmw := (hwf.2.2 _ (find?_mem hfv)).2
                      have hso := hmw.2.2 t0 (List.mem_cons_self _ _)
                      unfold sourceOkB at hso
                      rw [hgt] at hso
                      exact of_decide_eq_true hso
                    refine ⟨transMemB_of_find (getTransition?_elim hgt), ?_, ?_⟩
                    · rw [hsrc]; unfold vertexAtB; rw [hfv]
                    · intro _; unfold mstateAtB; rw [hfq]
          | FinalState =>
            simp only at hres
            obtain rfl : q = st := by injection hres
            unfold mstateAtB; rw [hfq]
          | Initial => exact absurd hres (by simp)
          | Choice => exact absurd hres (by simp)
        | mvertex k ts =>
          cases k with
          | Choice =>
            simp only at hres
            refine ih (.choose q ts) ?_ st hres
            have hmw := (hwf.2.2 _ (find?_mem hfq)).2
            exact ⟨hmw.2.2, by unfold kindIs; rw [hfq]; simp⟩
          | State => exact absurd hres (by simp)
          | FinalState => exact absurd hres (by simp)
          | Initial => exact absurd hres (by simp)
        | mtransition t => exact absurd hres (by simp)
        | mbehavior => exact absurd hres (by simp)
        | mconstraint => exact absurd hres (by simp)
    | choose q ts =>
      cases ts with
      | nil => rw [engine] at hres; exact absurd hres (by simp)
      | cons tq rest =>
        rw [engine] at hres
        cases hgt : m.getTransition? tq with
        | none =>
          simp only [hgt] at hres
          exact ih (.choose q rest) ⟨fun x hx => hok.1 x (List.mem_cons_of_mem _ hx),
            hok.2⟩ st hres
        | some t =>
          simp only [hgt] at hres
          by_cases hrej : m.isConstraint t.guard = true ∧ ¬ geval t.guard ev = true
          · rw [if_pos hrej] at hres
            exact ih (.choose q rest) ⟨fun x hx => hok.1 x (List.mem_cons_of_mem _ hx),
              hok.2⟩ st hres
          · rw [if_neg hrej] at hres
            have htm := transMemB_of_find (getTransition?_elim hgt)
            have hsrc : t.source = q := by
              have hso := hok.1 tq (List.mem_cons_self _ _)
              unfold sourceOkB at hso
              rw [hgt] at hso
              exact of_decide_eq_true hso
            have htw := transWF_of_transMemB hwf htm
            have hni : t.kind ≠ .Internal := by
              intro hk
              have := (internal_not_self t hk htw.2.2.2.2.1 htw.1).1
              exact choiceTargets_elim hct htm (hsrc ▸ hok.2) this
            refine ih (.trans q t) ⟨htm, ?_, fun hk => absurd hk hni⟩ st hres
            rw [hsrc]
            have := hok.2
            unfold kindIs at this
            unfold vertexAtB
            cases hfq : m.find? q with
            | none => rw [hfq] at this; exact absurd this (by simp)
            | some el =>
              rw [hfq] at this
              cases el <;> simp_all
    | trans current t =>
      rw [engine] at hres
      obtain ⟨htm, hvx, hInt⟩ := hok
      have htw := transWF_of_transMemB hwf htm
      cases hfind : (t.paths.find? (fun kv => kv.1 = current)).map (·.2) with
      | none => rw [hfind] at hres; exact absurd hres (by simp)
      | some path =>
        rw [hfind] at hres
        simp only at hres
        have hentry := paths_lookup_entry hwf htm hfind
        by_cases hexok : path.exit.all (fun x => (m.find? x).isSome) = true
        · rw [if_neg (by simp [hexok])] at hres
          by_cases hki : t.kind = .Internal
          · rw [if_pos hki] at hres
            have hexit : path.exit = [] := hentry.2 hki
            rw [hexit] at hres
            simp only [List.getLast?_nil] at hres
            obtain rfl : current = st := by injection hres
            exact hInt hki
          · rw [if_neg hki] at hres
            simp only at hres
            refine ih (.enters t (match path.exit.getLast? with
              | some last => last | none => current) path.enter) ⟨htm, ?_⟩ st hres
            rw [hentry.1]
            by_cases hne : computeEnter t.source t.target t.kind = []
            · right
              have htgtne : t.target ≠ [] := by
                intro h0
                apply hki
                rw [htw.2.2.2.2.1]
                unfold transitionKind
                rw [if_neg (fun h => htw.1 (h.symm.trans h0)), if_pos h0]
              refine ⟨htgtne, ?_⟩
              have hself : t.kind ≠ .Self := by
                intro hk
                have hcne : computeEnter t.source t.target t.kind ≠ [] := by
                  unfold computeEnter
                  rw [if_pos hk]
                  simp
                exact hcne hne
              rcases computeEnter_nil _ _ _ hself hne with hlca | hroot | hnil
              · -- target = LCA source target: a proper ancestor of the source
                have hcs : CanonName t.source := htw.2.1
                have hct' : CanonName t.target := (htw.2.2.2.1 htgtne).1
                have htgts : t.target ≠ t.source := by
                  intro h0
                  apply hself
                  rw [htw.2.2.2.2.1]
                  unfold transitionKind
                  rw [if_pos h0]
                have hsegne : segsOf t.target ≠ segsOf t.source := by
                  intro h0
                  apply htgts
                  rw [hct'.1, h0, ← hcs.1]
                have hlca2 : LCA t.source t.target =
                    fromSegs (commonPrefix (segsOf t.source) (segsOf t.target)) := by
                  conv_lhs => rw [hcs.1, hct'.1]
                  rw [LCA_fromSegs _ _ hcs.2 hct'.2]
                  rw [if_neg (fun h => hsegne h.symm)]
                have hgs : segsOf t.target =
                    commonPrefix (segsOf t.source) (segsOf t.target) := by
                  apply fromSegs_inj hct'.2
                    (fun x hx => hcs.2 x ((commonPrefix_isPrefix_left _ _).subset hx))
                  rw [← hct'.1, ← hlca2]
                  exact hlca
                have hpre : segsOf t.target <+: segsOf t.source := by
                  rw [hgs]
                  exact commonPrefix_isPrefix_left _ _
                have hlt : (segsOf t.target).length < (segsOf t.source).length := by
                  rcases eq_or_lt_of_le hpre.length_le with heq | hlt
                  · exact absurd (List.IsPrefix.eq_of_length hpre heq) hsegne
                  · exact hlt
                have hst : mstateAtB m (fromSegs (segsOf t.target)) = true := by
                  obtain ⟨d, hd⟩ : ∃ d, (segsOf t.target).length + (d + 1) =
                      (segsOf t.source).length := ⟨(segsOf t.source).length -
                        (segsOf t.target).length - 1, by omega⟩
                  exact prefix_state m hwf d t.source (segsOf t.target) hvx hcs hpre hd
                rw [← hct'.1] at hst
                exact hst
              · rw [hroot]
                exact mstateAtB_of_stateAtB hwf.2.1
              · exact absurd hnil htgtne
            · left
              refine computeEnter_getLast _ _ _ ?_ hne
              intro hk
              have hkd := htw.2.2.2.2.1
              rw [hk] at hkd
              unfold transitionKind at hkd
              by_cases h1 : t.target = t.source
              · exact h1
              · rw [if_neg h1] at hkd
                by_cases h2 : t.target = []
                · rw [if_pos h2] at hkd; exact absurd hkd (by simp)
                · rw [if_neg h2] at hkd
                  by_cases h3 : IsAncestor t.source t.target = true
                  · rw [if_pos h3] at hkd; exact absurd hkd (by simp)
                  · rw [if_neg h3] at hkd; exact absurd hkd (by simp)
        · rw [if_pos (by simp [hexok])] at hres
          exact absurd hres (by simp)
    | enters t cur rest =>
      obtain ⟨htm, hdisj⟩ := hok
      cases rest with
      | nil =>
        rw [engine] at hres
        by_cases hfs : (m.find? t.target).isSome = true
        · rw [if_pos hfs] at hres
          obtain rfl : t.target = st := by injection hres
          rcases hdisj with hl | hr
          · exact absurd hl (by simp)
          · exact hr.2
        · rw [if_neg hfs] at hres
          exact absurd hres (by simp)
      | cons e rest' =>
        rw [engine] at hres
        by_cases hfe : (m.find? e).isSome = true
        · rw [if_pos hfe] at hres
          by_cases hde : e = t.target
          · simp only [if_pos hde] at hres
            exact ih (.enter e (decide (e = t.target))) trivial st hres
          · simp only [if_neg hde] at hres
            refine ih (.enters t
              (match (engine m geval ev n (.enter e (decide (e = t.target)))).1 with
               | some x => x | none => cur) rest') ⟨htm, ?_⟩ st hres
            cases rest' with
            | nil =>
              rcases hdisj with hl | hr
              · have he : ([e] : List QName).getLast? = some e := rfl
                rw [he] at hl
                have he2 : e = t.target := by injection hl
                exact absurd he2 hde
              · exact Or.inr hr
            | cons e2 rest'' =>
              rcases hdisj with hl | hr
              · left
                rw [List.getLast?_cons_cons] at hl
                exact hl
              · exact Or.inr hr
        · rw [if_neg hfe] at hres
          exact absurd hres (by simp)

/-- C6 counterexample: dispatching `e` in the choice-internal model fires
`/a --e--> /c`; the choice's only branch is targetless (internal), so the
engine returns the `Choice` vertex `/c` itself and the walk stores it as
the active element. -/
theorem claim_C6_cex :
    ModelWF mc6 ∧ stateAtB mc6 (qn "/a") = true ∧
    (engine mc6 (fun _ _ => true) ⟨[('e' : Char)], .Normal, 1⟩ 9
      (.trans (qn "/a") mc6T)).1 = some (qn "/c") ∧
    mc6.find? (qn "/c") = some (.mvertex .Choice [qn "/c/t0"]) ∧
    processWalk mc6 (fun _ _ => true) 9 ⟨[('e' : Char)], .Normal, 1⟩
        (qn "/a") 3 (qn "/a") =
      .fired (qn "/c")
        (engine mc6 (fun _ _ => true) ⟨[('e' : Char)], .Normal, 1⟩ 9
          (.trans (qn "/a") mc6T)).2 := by decide

/-- C6 amended: in a well-formed compiled model in which every transition
out of a `Choice` vertex has a non-empty target (a condition the builder
does not enforce, as the counterexample shows), every RTC step that fires
— including steps resolving `Choice` vertices and recursive default entry
through `Initial` vertices — stores a `State` or `FinalState` member as
the active element, never an `Initial` vertex, a `Choice` vertex or a
transition. -/
theorem claim_C6 (m : Model) (geval : QName → Event → Bool) (ev : Event)
    (leaf : QName) (engineFuel : Nat)
    (hwf : ModelWF m) (hct : choiceTargetsOkB m = true)
    (hleaf : mstateAtB m leaf = true) :
    ∀ (wfuel : Nat) (q : QName) (st : QName) (tr : List Step),
      processWalk m geval engineFuel ev leaf wfuel q = .fired st tr →
      mstateAtB m st = true := by
  intro wfuel
  induction wfuel with
  | zero => intro q st tr h; exact absurd h (by simp [processWalk])
  | succ n ih =>
    intro q st tr h
    by_cases hq0 : q = []
    · rw [hq0] at h
      exact absurd h (by simp [processWalk])
    simp only [processWalk, if_neg hq0] at h
    cases hgs : m.getState? q with
    | none => rw [hgs] at h; exact absurd h (by simp)
    | some ks =>
      rcases ks with ⟨k, s⟩
      simp only [hgs] at h
      cases hen : enabledF m geval ev s.transitions with
      | some t =>
        simp only [hen] at h
        cases hr : (engine m geval ev engineFuel (.trans leaf t)).1 with
        | none => simp only [hr] at h; exact absurd h (by simp)
        | some st' =>
          simp only [hr] at h
          injection h with h1 h2
          subst h1
          obtain ⟨tq, htq, hgt⟩ := enabledF_mem m geval ev s.transitions t hen
          have hsrc : t.source = q := by
            have hso := ((hwf.2.2 _ (find?_mem (getState?_elim hgs))).2).2.2.1 tq htq
            unfold sourceOkB at hso
            rw [hgt] at hso
            exact of_decide_eq_true hso
          refine engine_state_invariant m geval ev hwf hct engineFuel
            (.trans leaf t) ⟨transMemB_of_find (getTransition?_elim hgt), ?_, ?_⟩
            _ hr
          · rw [hsrc]
            unfold vertexAtB
            rw [getState?_elim hgs]
          · intro _; exact hleaf
      | none =>
        simp only [hen] at h
        by_cases hdef : s.deferred ≠ [] ∧ Match ev.name s.deferred
        · rw [if_pos hdef] at h
          exact absurd h (by simp)
        · rw [if_neg hdef] at h
          exact ih (Owner q) st tr h

/-- Witness for C6's amended theorem: firing `/a --c--> /b/b1` in the
example machine stores the state `/b/b1`. -/
theorem claim_C6_witness :
    ModelWF exampleM ∧ choiceTargetsOkB exampleM = true ∧
    mstateAtB exampleM (qn "/a") = true ∧
    processWalk exampleM (fun _ _ => true) 9 ⟨[('c' : Char)], .Normal, 1⟩
      (qn "/a") 3 (qn "/a") =
      .fired (qn "/b/b1")
        (engine exampleM (fun _ _ => true) ⟨[('c' : Char)], .Normal, 1⟩ 9
          (.trans (qn "/a") exT1)).2 ∧
    mstateAtB exampleM (qn "/b/b1") = true :=
  ⟨by decide, by decide, by decide, by decide,
    claim_C6 exampleM (fun _ _ => true) ⟨[('c' : Char)], .Normal, 1⟩ (qn "/a") 9
      (by decide) (by decide) (by decide) 3 (qn "/a") (qn "/b/b1")
      (engine exampleM (fun _ _ => true) ⟨[('c' : Char)], .Normal, 1⟩ 9
        (.trans (qn "/a") exT1)).2 (by decide)⟩

/-! ### C4: deferral and re-queue bookkeeping -/

/-- One `hsm.process` iteration keeps the deferral books balanced: the
events held before the step plus the events set aside by it equal the
events pushed back by it plus the events still held after it, in order. -/
lemma roundStep_defer_eq (m : Model) (geval : QName → Event → Bool)
    (engineFuel : Nat) (st : RoundState) (ev0 : Event) :
    st.deferred ++ (roundStep m geval engineFuel st ev0).deferredNow =
      ((roundStep m geval engineFuel st ev0).pushed).flatten ++
        (roundStep m geval engineFuel st ev0).st.deferred := by
  unfold roundStep
  cases hw : processWalk m geval engineFuel
      (if ev0.id = 0 then { ev0 with id := st.nextId } else ev0)
      st.leaf (st.leaf.length + 1) st.leaf with
  | fired newLeaf tr =>
    by_cases hd : st.deferred ≠ []
    · simp [hw, hd]
    · simp [hw, hd]
  | firedAbort tr => simp [hw]
  | deferredEv => simp [hw]
  | dropped => simp [hw]

/-- Every event deferred during a processing round is pushed back exactly
once, and the round ends with nothing still held: the concatenation of all
push-back batches equals the hold log (in order) prefixed by whatever was
held at the start. -/
lemma processRound_accounting (m : Model) (geval : QName → Event → Bool)
    (engineFuel : Nat) :
    ∀ (fuel : Nat) (st fin : RoundState) (plog : List (List Event))
      (dlog : List Event),
      processRound m geval engineFuel fuel st = (fin, plog, dlog, true) →
      st.deferred ++ dlog = plog.flatten ∧ fin.deferred = [] := by
  intro fuel
  induction fuel with
  | zero =>
    intro st fin plog dlog h
    have := congrArg (fun x => x.2.2.2) h
    simp [processRound] at this
  | succ n ih =>
    intro st fin plog dlog h
    rw [processRound] at h
    cases hpop : st.queue.pop with
    | none =>
      simp only [hpop] at h
      have h1 := congrArg (fun x => x.1) h
      have h2 := congrArg (fun x => x.2.1) h
      have h3 := congrArg (fun x => x.2.2.1) h
      simp only at h1 h2 h3
      refine ⟨?_, ?_⟩
      · rw [← h2, ← h3]
        simp
      · rw [← h1]
    | some evq =>
      rcases evq with ⟨ev0, q'⟩
      simp only [hpop] at h
      have h1 := congrArg (fun x => x.1) h
      have h2 := congrArg (fun x => x.2.1) h
      have h3 := congrArg (fun x => x.2.2.1) h
      have h4 := congrArg (fun x => x.2.2.2) h
      simp only at h1 h2 h3 h4
      have hr : processRound m geval engineFuel n
          (roundStep m geval engineFuel ⟨st.leaf, q', st.deferred, st.nextId⟩ ev0).st =
          ((processRound m geval engineFuel n
              (roundStep m geval engineFuel ⟨st.leaf, q', st.deferred, st.nextId⟩ ev0).st).1,
            (processRound m geval engineFuel n
              (roundStep m geval engineFuel ⟨st.leaf, q', st.deferred, st.nextId⟩ ev0).st).2.1,
            (processRound m geval engineFuel n
              (roundStep m geval engineFuel ⟨st.leaf, q', st.deferred, st.nextId⟩ ev0).st).2.2.1,
            true) := by
        rw [← h4]
      obtain ⟨ihd, ihfin⟩ := ih _ _ _ _ hr
      constructor
      · rw [← h2, ← h3]
        have hbook := roundStep_defer_eq m geval engineFuel
          ⟨st.leaf, q', st.deferred, st.nextId⟩ ev0
        simp only at hbook
        calc st.deferred ++
              ((roundStep m geval engineFuel ⟨st.leaf, q', st.deferred, st.nextId⟩ ev0).deferredNow ++
                (processRound m geval engineFuel n _).2.2.1)
            = (st.deferred ++
                (roundStep m geval engineFuel ⟨st.leaf, q', st.deferred, st.nextId⟩ ev0).deferredNow) ++
                (processRound m geval engineFuel n _).2.2.1 := by
              rw [List.append_assoc]
          _ = ((roundStep m geval engineFuel ⟨st.leaf, q', st.deferred, st.nextId⟩ ev0).pushed.flatten ++
                (roundStep m geval engineFuel ⟨st.leaf, q', st.deferred, st.nextId⟩ ev0).st.deferred) ++
                (processRound m geval engineFuel n _).2.2.1 := by
              rw [hbook]
          _ = (roundStep m geval engineFuel ⟨st.leaf, q', st.deferred, st.nextId⟩ ev0).pushed.flatten ++
                ((roundStep m geval engineFuel ⟨st.leaf, q', st.deferred, st.nextId⟩ ev0).st.deferred ++
                  (processRound m geval engineFuel n _).2.2.1) := by
              rw [List.append_assoc]
          _ = (roundStep m geval engineFuel ⟨st.leaf, q', st.deferred, st.nextId⟩ ev0).pushed.flatten ++
                (processRound m geval engineFuel n _).2.1.flatten := by
              rw [ihd]
          _ = ((roundStep m geval engineFuel ⟨st.leaf, q', st.deferred, st.nextId⟩ ev0).pushed ++
                (processRound m geval engineFuel n _).2.1).flatten := by
              rw [List.flatten_append]
      · rw [← h1]
        exact ihfin

/-- C4 counterexample: with leaf `/d` deferring `u` and firing on `c`,
running the round on queue `[u, c]` re-queues the deferred `u` in the
middle of the round (when `c` fires) — the push log shows the batch
`[u]` before the final drain push `[]` — and the re-queued `u` is consumed
by the same round, so the final queue is empty rather than holding `u`
at the tail of the normal bucket. -/
theorem claim_C4_cex :
    ModelWF mc4 ∧
    processRound mc4 (fun _ _ => true) 9 5
        ⟨qn "/d", Queue.push Queue.empty
          [⟨("u").data, .Normal, 7⟩, ⟨("c").data, .Normal, 8⟩], [], 10⟩ =
      (⟨qn "/d2", Queue.empty, [], 10⟩,
        [[⟨("u").data, .Normal, 7⟩], []],
        [⟨("u").data, .Normal, 7⟩], true) ∧
    (processRound mc4 (fun _ _ => true) 9 5
        ⟨qn "/d", Queue.push Queue.empty
          [⟨("u").data, .Normal, 7⟩, ⟨("c").data, .Normal, 8⟩], [], 10⟩).1.queue =
      Queue.empty := by decide

/-- C4 amended: an event with no enabled transition whose name matches a
deferral pattern of a visited state is appended once to the round's hold
list and nothing is pushed for it at that point; the held events are
re-queued as a batch (preserving their order) each time a transition
fires, and once more when the loop drains the queue — so across a finished
round every deferred event is re-queued exactly once, in order (the
concatenation of the push-back batches equals the hold log), and nothing
remains held; an event that is neither enabled nor deferred is dropped
with the leaf, queue and hold list unchanged. -/
theorem claim_C4 (m : Model) (geval : QName → Event → Bool)
    (engineFuel : Nat) :
    (∀ (st : RoundState) (ev0 : Event),
      processWalk m geval engineFuel
          (if ev0.id = 0 then { ev0 with id := st.nextId } else ev0)
          st.leaf (st.leaf.length + 1) st.leaf = .deferredEv →
        roundStep m geval engineFuel st ev0 =
          ⟨⟨st.leaf, st.queue,
              st.deferred ++ [if ev0.id = 0 then { ev0 with id := st.nextId } else ev0],
              if ev0.id = 0 then st.nextId + 1 else st.nextId⟩,
            [], [if ev0.id = 0 then { ev0 with id := st.nextId } else ev0]⟩) ∧
    (∀ (st : RoundState) (ev0 : Event) (nl : QName) (tr : List Step),
      processWalk m geval engineFuel
          (if ev0.id = 0 then { ev0 with id := st.nextId } else ev0)
          st.leaf (st.leaf.length + 1) st.leaf = .fired nl tr →
        st.deferred ≠ [] →
        roundStep m geval engineFuel st ev0 =
          ⟨⟨nl, st.queue.push st.deferred, [],
              if ev0.id = 0 then st.nextId + 1 else st.nextId⟩,
            [st.deferred], []⟩) ∧
    (∀ (st : RoundState) (ev0 : Event),
      processWalk m geval engineFuel
          (if ev0.id = 0 then { ev0 with id := st.nextId } else ev0)
          st.leaf (st.leaf.length + 1) st.leaf = .dropped →
        roundStep m geval engineFuel st ev0 =
          ⟨⟨st.leaf, st.queue, st.deferred,
              if ev0.id = 0 then st.nextId + 1 else st.nextId⟩, [], []⟩) ∧
    (∀ (fuel : Nat) (st fin : RoundState) (plog : List (List Event))
        (dlog : List Event),
      st.deferred = [] →
      processRound m geval engineFuel fuel st = (fin, plog, dlog, true) →
      plog.flatten = dlog ∧ fin.deferred = []) := by
  refine ⟨?_, ?_, ?_, ?_⟩
  · intro st ev0 hw
    unfold roundStep
    simp only [hw]
  · intro st ev0 nl tr hw hd
    unfold roundStep
    simp only [hw, if_pos hd]
  · intro st ev0 hw
    unfold roundStep
    simp only [hw]
  · intro fuel st fin plog dlog hd h
    obtain ⟨h1, h2⟩ := processRound_accounting m geval engineFuel fuel st fin plog dlog h
    rw [hd] at h1
    exact ⟨h1.symm, h2⟩

/-- Witness for C4's amended theorem on the requeue-timing model: the
deferral step for `u` at leaf `/d`, and the full-round accounting for the
queue `[u, c]`. -/
theorem claim_C4_witness :
    (processWalk mc4 (fun _ _ => true) 9
        (if (⟨("u").data, .Normal, 7⟩ : Event).id = 0 then
          { (⟨("u").data, .Normal, 7⟩ : Event) with id := (10 : Nat) } else
          ⟨("u").data, .Normal, 7⟩)
        (qn "/d") ((qn "/d").length + 1) (qn "/d") = .deferredEv ∧
      roundStep mc4 (fun _ _ => true) 9
          ⟨qn "/d", Queue.empty, [], 10⟩ ⟨("u").data, .Normal, 7⟩ =
        ⟨⟨qn "/d", Queue.empty,
            [] ++ [if (⟨("u").data, .Normal, 7⟩ : Event).id = 0 then
              { (⟨("u").data, .Normal, 7⟩ : Event) with id := (10 : Nat) } else
              ⟨("u").data, .Normal, 7⟩],
            if (⟨("u").data, .Normal, 7⟩ : Event).id = 0 then 10 + 1 else 10⟩,
          [], [if (⟨("u").data, .Normal, 7⟩ : Event).id = 0 then
            { (⟨("u").data, .Normal, 7⟩ : Event) with id := (10 : Nat) } else
            ⟨("u").data, .Normal, 7⟩]⟩) ∧
    ([[⟨("u").data, .Normal, 7⟩], []] : List (List Event)).flatten =
        [⟨("u").data, .Normal, 7⟩] ∧
      (⟨qn "/d2", Queue.empty, [], 10⟩ : RoundState).deferred = [] :=
  ⟨⟨by decide,
    (claim_C4 mc4 (fun _ _ => true) 9).1 ⟨qn "/d", Queue.empty, [], 10⟩
      ⟨("u").data, .Normal, 7⟩ (by decide)⟩,
    (claim_C4 mc4 (fun _ _ => true) 9).2.2.2 5
      ⟨qn "/d", Queue.push Queue.empty
        [⟨("u").data, .Normal, 7⟩, ⟨("c").data, .Normal, 8⟩], [], 10⟩
      ⟨qn "/d2", Queue.empty, [], 10⟩
      [[⟨("u").data, .Normal, 7⟩], []]
      [⟨("u").data, .Normal, 7⟩] (by decide) (by decide)⟩

/-! ### C2: precomputed enter/exit lists and the execution order -/

lemma takeWhile_all {α : Type} (p : α → Bool) :
    ∀ (l : List α), (∀ x ∈ l, p x = true) → l.takeWhile p = l := by
  intro l h
  induction l with
  | nil => rfl
  | cons x xs ih =>
    rw [List.takeWhile_cons, h x (List.mem_cons_self _ _)]
    simp only [ite_true]
    rw [ih (fun y hy => h y (List.mem_cons_of_mem _ hy))]

lemma chainBelow_nil (l : Nat) (gs : List (List Char)) (h : gs.length ≤ l) :
    chainBelow l gs = [] := by
  unfold chainBelow
  rw [Nat.sub_eq_zero_of_le h]
  rfl

lemma chainBelow_concat (l : Nat) (gs : List (List Char)) (h : l < gs.length) :
    chainBelow l gs = chainBelow l gs.dropLast ++ [fromSegs gs] := by
  unfold chainBelow
  have h1 : gs.length - l = (gs.length - 1 - l) + 1 := by omega
  rw [h1, List.range'_1_concat, List.map_append]
  congr 1
  · rw [List.length_dropLast]
    apply List.map_congr_left
    intro k hk
    rw [List.mem_range'_1] at hk
    congr 1
    rw [List.dropLast_eq_take, List.take_take]
    congr 1
    omega
  · have h2 : l + 1 + (gs.length - 1 - l) = gs.length := by omega
    rw [List.map_singleton, h2, List.take_length]

lemma chainBelow_mem {l : Nat} {gs : List (List Char)} {x : QName}
    (hx : x ∈ chainBelow l gs) :
    ∃ k, l + 1 ≤ k ∧ k ≤ gs.length ∧ x = fromSegs (gs.take k) := by
  unfold chainBelow at hx
  rw [List.mem_map] at hx
  obtain ⟨k, hk, rfl⟩ := hx
  rw [List.mem_range'_1] at hk
  exact ⟨k, hk.1, by omega, rfl⟩

lemma chainBelow_dropLast (l : Nat) (gs : List (List Char)) (h : l < gs.length) :
    (chainBelow l gs).dropLast =
      (List.range' (l + 1) (gs.length - 1 - l)).map (fun k => fromSegs (gs.take k)) := by
  unfold chainBelow
  have h1 : gs.length - l = (gs.length - 1 - l) + 1 := by omega
  rw [h1, List.range'_1_concat, List.map_append, List.map_singleton,
    List.dropLast_concat]

/-- The builder's enter-chain walk computes the claim's chain of elements
below the LCA. -/
lemma enterChain_spec (lcs : List (List Char)) (hl : ∀ x ∈ lcs, SegOk x) :
    ∀ (fuel : Nat) (gs : List (List Char)), (∀ x ∈ gs, SegOk x) →
      lcs <+: gs → gs.length - lcs.length < fuel →
      enterChain fuel (fromSegs gs) (fromSegs lcs) = chainBelow lcs.length gs := by
  intro fuel
  induction fuel with
  | zero => intro gs _ _ h; omega
  | succ n ih =>
    intro gs hgs hpre hlen
    by_cases heq : gs = lcs
    · subst heq
      rw [enterChain, if_pos (Or.inl rfl)]
      rw [chainBelow_nil _ _ (le_refl _)]
    · have hlt : lcs.length < gs.length := by
        rcases eq_or_lt_of_le hpre.length_le with he | hlt
        · exact absurd (List.IsPrefix.eq_of_length hpre he).symm heq
        · exact hlt
      have hne1 : fromSegs gs ≠ fromSegs lcs :=
        fun h => heq (fromSegs_inj hgs hl h)
      have hne2 : fromSegs gs ≠ ['/'] := by
        intro h
        have hnil := (fromSegs_eq_root_iff gs hgs).mp h
        rw [hnil] at hlt
        simp at hlt
      rw [enterChain, if_neg (by
        rintro (h | h | h)
        · exact hne1 h
        · exact hne2 h
        · exact fromSegs_ne_nil gs h)]
      rw [dir_fromSegs_dropLast gs hgs]
      have hpre' : lcs <+: gs.dropLast := by
        have h1 : lcs = gs.take lcs.length := List.prefix_iff_eq_take.mp hpre
        have h2 : gs.dropLast.take lcs.length = gs.take lcs.length := by
          rw [List.dropLast_eq_take, List.take_take]
          congr 1
          omega
        rw [h1, ← h2]
        exact List.take_prefix _ _
      rw [ih gs.dropLast (fun x hx => hgs x ((List.dropLast_sublist _).subset hx))
        hpre' (by rw [List.length_dropLast]; omega)]
      exact (chainBelow_concat lcs.length gs hlt).symm

/-- The builder's per-leaf exit-chain walk computes the claim's walked
elements, deepest first. -/
lemma exitChain_spec (lcs : List (List Char)) (hl : ∀ x ∈ lcs, SegOk x) :
    ∀ (fuel : Nat) (ls : List (List Char)), (∀ x ∈ ls, SegOk x) →
      lcs <+: ls → ls.length - lcs.length < fuel →
      exitChain fuel (fromSegs ls) (fromSegs lcs) =
        (chainBelow lcs.length ls).reverse := by
  intro fuel
  induction fuel with
  | zero => intro ls _ _ h; omega
  | succ n ih =>
    intro ls hls hpre hlen
    by_cases heq : ls = lcs
    · subst heq
      rw [exitChain, if_pos (Or.inl rfl)]
      rw [chainBelow_nil _ _ (le_refl _)]
      rfl
    · have hlt : lcs.length < ls.length := by
        rcases eq_or_lt_of_le hpre.length_le with he | hlt
        · exact absurd (List.IsPrefix.eq_of_length hpre he).symm heq
        · exact hlt
      have hne1 : fromSegs ls ≠ fromSegs lcs :=
        fun h => heq (fromSegs_inj hls hl h)
      have hne2 : fromSegs ls ≠ ['/'] := by
        intro h
        have hnil := (fromSegs_eq_root_iff ls hls).mp h
        rw [hnil] at hlt
        simp at hlt
      rw [exitChain, if_neg (by
        rintro (h | h)
        · exact hne1 h
        · exact fromSegs_ne_nil ls h)]
      rw [if_neg hne2]
      rw [dir_fromSegs_dropLast ls hls]
      have hpre' : lcs <+: ls.dropLast := by
        have h1 : lcs = ls.take lcs.length := List.prefix_iff_eq_take.mp hpre
        have h2 : ls.dropLast.take lcs.length = ls.take lcs.length := by
          rw [List.dropLast_eq_take, List.take_take]
          congr 1
          omega
        rw [h1, ← h2]
        exact List.take_prefix _ _
      rw [ih ls.dropLast (fun x hx => hls x ((List.dropLast_sublist _).subset hx))
        hpre' (by rw [List.length_dropLast]; omega)]
      rw [chainBelow_concat lcs.length ls hlt, List.reverse_append]
      rfl

lemma elMarkers_append (a b : List Step) :
    elMarkers (a ++ b) = elMarkers a ++ elMarkers b :=
  List.filterMap_append a b _

lemma elMarkers_exitProtocol (m : Model) (q : QName) :
    elMarkers (exitProtocol m q) = [Step.exitEl q] := by
  unfold exitProtocol
  show Step.exitEl q :: elMarkers _ = [Step.exitEl q]
  congr 1
  cases hfq : m.find? q with
  | none => rfl
  | some el =>
    cases el with
    | mstate k s =>
      apply List.filterMap_eq_nil.mpr
      intro x hx
      rw [List.mem_filterMap] at hx
      obtain ⟨b, _, hb⟩ := hx
      by_cases hbb : m.isBehavior b = true
      · rw [if_pos hbb] at hb
        obtain rfl : Step.exitB b = x := by injection hb
        rfl
      · rw [if_neg hbb] at hb
        exact absurd hb (by simp)
    | mvertex k ts => rfl
    | mtransition t => rfl
    | mbehavior => rfl
    | mconstraint => rfl

lemma elMarkers_exits (m : Model) :
    ∀ (ex : List QName),
      elMarkers ((ex.map (exitProtocol m)).flatten) = ex.map Step.exitEl := by
  intro ex
  induction ex with
  | nil => rfl
  | cons q rest ih =>
    rw [List.map_cons, List.flatten_cons, elMarkers_append,
      elMarkers_exitProtocol, ih]
    rfl

lemma elMarkers_effs (m : Model) (l : List QName) :
    elMarkers (l.filterMap (fun b => if m.isBehavior b then some (Step.eff b) else none)) =
      l.filterMap (fun b => if m.isBehavior b then some (Step.eff b) else none) := by
  induction l with
  | nil => rfl
  | cons b rest ih =>
    by_cases hb : m.isBehavior b = true
    · simp only [List.filterMap_cons, if_pos hb]
      exact congrArg (Step.eff b :: ·) ih
    · simp only [List.filterMap_cons, if_neg hb]
      exact ih

lemma elMarkers_behavior_block (l : List QName) (p : QName → Bool)
    (mk : QName → Step)
    (hmk : ∀ b, (match mk b with
      | Step.exitEl q => some (Step.exitEl q)
      | Step.enterEl q => some (Step.enterEl q)
      | Step.eff q => some (Step.eff q)
      | _ => none) = none) :
    elMarkers (l.filterMap (fun b => if p b then some (mk b) else none)) = [] := by
  apply List.filterMap_eq_nil.mpr
  intro x hx
  rw [List.mem_filterMap] at hx
  obtain ⟨b, _, hb⟩ := hx
  by_cases hbb : p b = true
  · rw [if_pos hbb] at hb
    obtain rfl : mk b = x := by injection hb
    exact hmk b
  · rw [if_neg hbb] at hb
    exact absurd hb (by simp)

/-- Every entry-protocol invocation first marks the element being
entered, whatever its kind. -/
lemma enter_head (m : Model) (geval : QName → Event → Bool) (ev : Event)
    (f : Nat) (q : QName) (d : Bool) (hf : 1 ≤ f) :
    ∃ cont, elMarkers (engine m geval ev f (.enter q d)).2 =
      Step.enterEl q :: cont := by
  obtain ⟨n, rfl⟩ : ∃ n, f = n + 1 := ⟨f - 1, by omega⟩
  rw [engine]
  split
  · rename_i s heq
    by_cases hd : ¬ d = true ∨ s.initial = []
    · simp only [if_pos hd]
      exact ⟨_, rfl⟩
    · simp only [if_neg hd]
      split
      · split
        · exact ⟨_, rfl⟩
        · exact ⟨_, rfl⟩
      · exact ⟨_, rfl⟩
  · exact ⟨_, rfl⟩
  · exact ⟨_, rfl⟩
  · exact ⟨_, rfl⟩

/-- Entering a state member without default entry returns the state and
marks exactly the one element. -/
lemma enter_nondefault (m : Model) (geval : QName → Event → Bool) (ev : Event)
    (hwf : ModelWF m) (f : Nat) (q : QName) (hf : 1 ≤ f)
    (hq : mstateAtB m q = true) :
    (engine m geval ev f (.enter q false)).1 = some q ∧
    elMarkers (engine m geval ev f (.enter q false)).2 = [Step.enterEl q] := by
  obtain ⟨n, rfl⟩ : ∃ n, f = n + 1 := ⟨f - 1, by omega⟩
  unfold mstateAtB at hq
  split at hq
  case h_2 => simp at hq
  case h_1 k s heq =>
    have hk := ((hwf.2.2 _ (find?_mem heq)).2).1
    rw [engine, heq]
    rcases hk with rfl | rfl
    · refine ⟨rfl, ?_⟩
      show Step.enterEl q :: elMarkers
          (s.entry.filterMap
              (fun b => if m.isBehavior b then some (Step.entryB b) else none) ++
            s.activities.filterMap
              (fun b => if m.isBehavior b then some (Step.act b) else none)) =
        [Step.enterEl q]
      rw [elMarkers_append]
      rw [elMarkers_behavior_block _ _ _ (fun b => rfl),
        elMarkers_behavior_block _ _ _ (fun b => rfl)]
      rfl
    · exact ⟨rfl, rfl⟩

/-- The enter loop of `hsm.transition` marks the listed elements in order
(up to the continuation of the final default entry), provided the listed
elements exist and the non-final ones are plain states other than the
target. -/
lemma enters_markers (m : Model) (geval : QName → Event → Bool) (ev : Event)
    (hwf : ModelWF m) (t : TransitionData) :
    ∀ (rest : List QName) (f : Nat) (cur : QName),
      rest.length + 1 ≤ f →
      (∀ e ∈ rest, (m.find? e).isSome = true) →
      (∀ e ∈ rest.dropLast, e ≠ t.target ∧ mstateAtB m e = true) →
      ∃ cont, elMarkers (engine m geval ev f (.enters t cur rest)).2 =
        rest.map Step.enterEl ++ cont := by
  intro rest
  induction rest with
  | nil =>
    intro f cur hf _ _
    obtain ⟨n, rfl⟩ : ∃ n, f = n + 1 := ⟨f - 1, by omega⟩
    rw [engine]
    by_cases hfs : (m.find? t.target).isSome = true
    · rw [if_pos hfs]; exact ⟨[], rfl⟩
    · rw [if_neg hfs]; exact ⟨[], rfl⟩
  | cons e rest' ih =>
    intro f cur hf hmem hnt
    simp only [List.length_cons] at hf
    obtain ⟨n, rfl⟩ : ∃ n, f = n + 1 := ⟨f - 1, by omega⟩
    rw [engine]
    rw [if_pos (hmem e (List.mem_cons_self _ _))]
    by_cases hde : e = t.target
    · simp only [if_pos hde]
      obtain ⟨cont, hc⟩ := enter_head m geval ev n e _ (by omega)
      cases rest' with
      | nil => exact ⟨cont, by rw [hc]; rfl⟩
      | cons x xs =>
        have hmm : e ∈ (e :: x :: xs).dropLast := by
          rw [List.dropLast_cons₂]
          exact List.mem_cons_self _ _
        exact absurd hde (hnt e hmm).1
    · have hdec : decide (e = t.target) = false := decide_eq_false hde
      simp only [if_neg hde, hdec]
      cases rest' with
      | nil =>
        obtain ⟨cont, hc⟩ := enter_head m geval ev n e _ (by omega)
        refine ⟨cont ++ elMarkers (engine m geval ev n
          (.enters t (match (engine m geval ev n (.enter e false)).1 with
            | some x => x | none => cur) [])).2, ?_⟩
        rw [elMarkers_append, hc]
        simp only [List.map_cons, List.map_nil, List.cons_append, List.nil_append,
          List.append_assoc]
      | cons x xs =>
        have hst : mstateAtB m e = true := by
          refine (hnt e ?_).2
          rw [List.dropLast_cons₂]
          exact List.mem_cons_self _ _
        have h1 := enter_nondefault m geval ev hwf n e (by omega) hst
        obtain ⟨cont, hc⟩ := ih n
          (match (engine m geval ev n (.enter e false)).1 with
            | some x => x | none => cur)
          (by simp only [List.length_cons] at hf ⊢; omega)
          (fun y hy => hmem y (List.mem_cons_of_mem _ hy))
          (fun y hy => hnt y (by rw [List.dropLast_cons₂]; exact List.mem_cons_of_mem _ hy))
        refine ⟨cont, ?_⟩
        rw [elMarkers_append, h1.2, hc]
        simp only [List.map_cons, List.cons_append, List.singleton_append,
          List.nil_append]

lemma isSome_of_mstateAtB {m : Model} {q : QName} (h : mstateAtB m q = true) :
    (m.find? q).isSome = true := by
  unfold mstateAtB at h
  split at h
  · next k s heq => rw [heq]; rfl
  · simp at h

lemma isSome_of_vertexAtB {m : Model} {q : QName} (h : vertexAtB m q = true) :
    (m.find? q).isSome = true := by
  unfold vertexAtB at h
  split at h
  · next k s heq => rw [heq]; rfl
  · next k ts heq => rw [heq]; rfl
  · simp at h

lemma vertexAtB_elim {m : Model} {q : QName} (h : vertexAtB m q = true) :
    ∃ el, m.find? q = some el ∧
      (match el with
       | Member.mstate _ _ => True | Member.mvertex _ _ => True | _ => False) := by
  unfold vertexAtB at h
  split at h
  · next k s heq => exact ⟨_, heq, trivial⟩
  · next k ts heq => exact ⟨_, heq, trivial⟩
  · simp at h

lemma transitionKind_self {s g : QName} (h : transitionKind s g = .Self) :
    g = s := by
  unfold transitionKind at h
  by_cases h1 : g = s
  · exact h1
  · rw [if_neg h1] at h
    by_cases h2 : g = []
    · rw [if_pos h2] at h; exact absurd h (by simp)
    · rw [if_neg h2] at h
      by_cases h3 : IsAncestor s g = true
      · rw [if_pos h3] at h; exact absurd h (by simp)
      · rw [if_neg h3] at h; exact absurd h (by simp)

/-- C2 counterexample: for the self-transition `/s --e--> /s`, the builder
precomputes the enter list `[/s, /s]` (the chain below the LCA with the
source appended once more), but executing the transition marks `/s` as
entered only once — the enter loop returns at the first element equal to
the target, so the appended copy is never executed, contradicting the
claim that execution runs exactly the precomputed enter elements. -/
theorem claim_C2_cex :
    ModelWF mc2 ∧
    (qn "/s/t", Member.mtransition mc2T) ∈ mc2.members ∧
    mc2T.kind = TKind.Self ∧
    computeEnter mc2T.source mc2T.target mc2T.kind = [qn "/s", qn "/s"] ∧
    elMarkers (engine mc2 (fun _ _ => true) ⟨[('e' : Char)], .Normal, 1⟩ 9
        (.trans (qn "/s") mc2T)).2 =
      [Step.exitEl (qn "/s"), Step.eff (qn "/s/t/eff"),
        Step.enterEl (qn "/s")] := by decide

/-- C2 amended: for every transition `t` of a well-formed model with
source `s`, non-empty target `g` and a non-initial source, (a) the
builder's shared enter list is the chain of elements from `LCA(s,g)` down
to `g` excluding the LCA, with `s` appended once more for `Self`
transitions; (b) for each vertex member `ℓ` whose ancestor chain includes
`s`, the stored exit list is the walk from `ℓ` up to but not including
`LCA(s,g)`; and (c) executing `t` from `ℓ` runs exactly those exit
protocols in order, then the effects in declaration order, then the enter
protocols in order — except that the enter loop stops at the first element
equal to the target (so for a `Self` transition the source is entered
once, not twice), entering the target by default entry whose continuation
is `cont`. -/
theorem claim_C2 (m : Model) (geval : QName → Event → Bool) (ev : Event)
    (q0 : QName) (t : TransitionData) (ℓ : QName) (efuel : Nat)
    (hwf : ModelWF m)
    (hmem : (q0, Member.mtransition t) ∈ m.members)
    (htgt : t.target ≠ [])
    (hnotinit : ¬ kindIs m t.source [VKind.Initial])
    (hgv : vertexAtB m t.target = true)
    (hlv : vertexAtB m ℓ = true)
    (hlpre : segsOf t.source <+: segsOf ℓ)
    (hef : (computeEnter t.source t.target t.kind).length + 2 ≤ efuel) :
    computeEnter t.source t.target t.kind =
      chainBelow (lcaSegs (segsOf t.source) (segsOf t.target)).length
          (segsOf t.target) ++
        (if t.kind = .Self then [t.source] else []) ∧
    (t.paths.find? (fun kv => kv.1 = ℓ)).map (·.2) =
      some ⟨computeEnter t.source t.target t.kind,
        (chainBelow (lcaSegs (segsOf t.source) (segsOf t.target)).length
          (segsOf ℓ)).reverse⟩ ∧
    ∃ cont, elMarkers (engine m geval ev efuel (.trans ℓ t)).2 =
      ((chainBelow (lcaSegs (segsOf t.source) (segsOf t.target)).length
          (segsOf ℓ)).reverse).map Step.exitEl ++
        t.effect.filterMap
          (fun b => if m.isBehavior b then some (Step.eff b) else none) ++
        ((if t.kind = .Self then [t.source]
          else chainBelow (lcaSegs (segsOf t.source) (segsOf t.target)).length
            (segsOf t.target)).map Step.enterEl) ++ cont := by
  have htw : TransWF m t := modelWF_trans hwf hmem
  have hcs : CanonName t.source := htw.2.1
  have hct' : CanonName t.target := (htw.2.2.2.1 htgt).1
  have htgtsome : (m.find? t.target).isSome = true := (htw.2.2.2.1 htgt).2
  have hkd : t.kind = transitionKind t.source t.target := htw.2.2.2.2.1
  have hki : t.kind ≠ .Internal :=
    fun hk => htgt (internal_not_self t hk hkd htw.1).1
  have hpaths : t.paths = computePaths m.members t.source t.target t.kind := by
    have := htw.2.2.2.2.2.2.2
    rwa [if_neg hnotinit] at this
  obtain ⟨elℓ, hfℓ, hvxℓ⟩ := vertexAtB_elim hlv
  have hlc : CanonName ℓ := (hwf.2.2 _ (find?_mem hfℓ)).1
  -- the LCA's segments
  have hl1 : LCA t.source t.target =
      fromSegs (lcaSegs (segsOf t.source) (segsOf t.target)) := by
    conv_lhs => rw [hcs.1, hct'.1]
    rw [LCA_fromSegs _ _ hcs.2 hct'.2]
    rfl
  have hlok : ∀ x ∈ lcaSegs (segsOf t.source) (segsOf t.target), SegOk x := by
    intro x hx
    unfold lcaSegs at hx
    by_cases he : segsOf t.source = segsOf t.target
    · rw [if_pos he] at hx
      exact hcs.2 x ((List.dropLast_sublist _).subset hx)
    · rw [if_neg he] at hx
      exact hcs.2 x ((commonPrefix_isPrefix_left _ _).subset hx)
  have hlpre_g : lcaSegs (segsOf t.source) (segsOf t.target) <+: segsOf t.target := by
    unfold lcaSegs
    by_cases he : segsOf t.source = segsOf t.target
    · rw [if_pos he, he, List.dropLast_eq_take]
      exact List.take_prefix _ _
    · rw [if_neg he]
      exact commonPrefix_isPrefix_right _ _
  have hlpre_s : lcaSegs (segsOf t.source) (segsOf t.target) <+: segsOf t.source := by
    unfold lcaSegs
    by_cases he : segsOf t.source = segsOf t.target
    · rw [if_pos he]
      conv_rhs => rw [he]
      rw [he, List.dropLast_eq_take]
      exact List.take_prefix _ _
    · rw [if_neg he]
      exact commonPrefix_isPrefix_left _ _
  have hlpre_l : lcaSegs (segsOf t.source) (segsOf t.target) <+: segsOf ℓ :=
    hlpre_s.trans hlpre
  -- (a)
  have ha1 := enterChain_spec (lcaSegs (segsOf t.source) (segsOf t.target)) hlok
    ((fromSegs (segsOf t.target)).length + 1) (segsOf t.target) hct'.2 hlpre_g
    (by
      have h1 := length_le_length_fromSegs (segsOf t.target)
      omega)
  rw [← hct'.1, ← hl1] at ha1
  have ha : computeEnter t.source t.target t.kind =
      chainBelow (lcaSegs (segsOf t.source) (segsOf t.target)).length
          (segsOf t.target) ++
        (if t.kind = .Self then [t.source] else []) := by
    unfold computeEnter
    rw [ha1]
  -- (b)
  have hb1 := exitChain_spec (lcaSegs (segsOf t.source) (segsOf t.target)) hlok
    ((fromSegs (segsOf ℓ)).length + 1) (segsOf ℓ) hlc.2 hlpre_l
    (by
      have h1 := length_le_length_fromSegs (segsOf ℓ)
      omega)
  rw [← hlc.1, ← hl1] at hb1
  have hentryℓ := find?_entry hfℓ
  have hstrpre : t.source.isPrefixOf ℓ = true := by
    have hh := fromSegs_isPrefixOf hlpre
    rw [← hcs.1, ← hlc.1] at hh
    exact hh
  have hlook := computePaths_lookup m.members t.source t.target ℓ t.kind elℓ
    hentryℓ hvxℓ hstrpre
  have hb : (t.paths.find? (fun kv => kv.1 = ℓ)).map (·.2) =
      some ⟨computeEnter t.source t.target t.kind,
        (chainBelow (lcaSegs (segsOf t.source) (segsOf t.target)).length
          (segsOf ℓ)).reverse⟩ := by
    rw [hpaths, hlook]
    rw [if_neg hki, hb1]
    rfl
  refine ⟨ha, hb, ?_⟩
  -- (c)
  obtain ⟨ef, rfl⟩ : ∃ ef, efuel = ef + 1 := ⟨efuel - 1, by omega⟩
  rw [engine]
  simp only [hb]
  -- all exit elements exist
  have hexmem : ∀ x ∈ (chainBelow
      (lcaSegs (segsOf t.source) (segsOf t.target)).length (segsOf ℓ)).reverse,
      (m.find? x).isSome = true := by
    intro x hx
    rw [List.mem_reverse] at hx
    obtain ⟨k, hk1, hk2, rfl⟩ := chainBelow_mem hx
    by_cases hke : k = (segsOf ℓ).length
    · rw [hke, List.take_length, ← hlc.1]
      exact isSome_of_vertexAtB hlv
    · have hkl : k < (segsOf ℓ).length := by omega
      have htk : ((segsOf ℓ).take k).length = k := by
        rw [List.length_take]
        omega
      have := prefix_state m hwf ((segsOf ℓ).length - k - 1) ℓ ((segsOf ℓ).take k)
        hlv hlc (List.take_prefix _ _) (by omega)
      exact isSome_of_mstateAtB this
  have hallex : ((chainBelow
      (lcaSegs (segsOf t.source) (segsOf t.target)).length (segsOf ℓ)).reverse).all
      (fun x => (m.find? x).isSome) = true :=
    List.all_eq_true.mpr (fun x hx => hexmem x hx)
  rw [if_neg (by simp only [hallex]; simp)]
  rw [if_neg hki]
  rw [takeWhile_all _ _ hexmem]
  -- the enter part
  by_cases hself : t.kind = .Self
  · -- the enter list starts with the target; the loop returns there
    have hts : t.target = t.source := transitionKind_self (hkd ▸ hself)
    have hseq : segsOf t.source = segsOf t.target := by rw [hts]
    have hfirst : ∃ rest₀, computeEnter t.source t.target t.kind =
        t.target :: rest₀ := by
      rw [ha, if_pos hself]
      by_cases hss : segsOf t.target = []
      · refine ⟨[], ?_⟩
        have hlnil : lcaSegs (segsOf t.source) (segsOf t.target) = [] := by
          unfold lcaSegs
          rw [if_pos hseq, hseq, hss]
          rfl
        rw [hlnil, hss, chainBelow_nil _ _ (by simp), hts]
        rfl
      · have hlen1 : 1 ≤ (segsOf t.target).length := by
          cases hz : segsOf t.target with
          | nil => exact absurd hz hss
          | cons a l => simp
        have hll : (lcaSegs (segsOf t.source) (segsOf t.target)).length =
            (segsOf t.target).length - 1 := by
          unfold lcaSegs
          rw [if_pos hseq, hseq, List.length_dropLast]
        refine ⟨[t.source], ?_⟩
        rw [hll]
        rw [chainBelow_concat _ _ (by omega)]
        rw [chainBelow_nil _ _ (by rw [List.length_dropLast])]
        rw [← hct'.1]
        rfl
    obtain ⟨rest₀, hfe⟩ := hfirst
    rw [hfe]
    obtain ⟨ef2, rfl⟩ : ∃ e2, ef = e2 + 1 := by
      rw [hfe] at hef
      exact ⟨ef - 1, by simp at hef; omega⟩
    rw [engine, if_pos htgtsome]
    simp only [eq_self_iff_true, if_true, decide_True]
    obtain ⟨cont, hc⟩ := enter_head m geval ev ef2 t.target true (by
        rw [hfe] at hef
        simp at hef
        omega)
    refine ⟨cont, ?_⟩
    rw [elMarkers_append, elMarkers_append, elMarkers_exits,
      elMarkers_effs, hc]
    rw [if_pos hself]
    rw [hts]
    simp only [List.map_cons, List.map_nil, List.append_assoc,
      List.cons_append, List.nil_append, List.singleton_append]
  · have henl : computeEnter t.source t.target t.kind =
        chainBelow (lcaSegs (segsOf t.source) (segsOf t.target)).length
          (segsOf t.target) := by
      rw [ha, if_neg hself, List.append_nil]
    rw [henl]
    have hentmem : ∀ x ∈ chainBelow
        (lcaSegs (segsOf t.source) (segsOf t.target)).length (segsOf t.target),
        (m.find? x).isSome = true := by
      intro x hx
      obtain ⟨k, hk1, hk2, rfl⟩ := chainBelow_mem hx
      by_cases hke : k = (segsOf t.target).length
      · rw [hke, List.take_length, ← hct'.1]
        exact htgtsome
      · have hkl : k < (segsOf t.target).length := by omega
        have htk : ((segsOf t.target).take k).length = k := by
          rw [List.length_take]
          omega
        have := prefix_state m hwf ((segsOf t.target).length - k - 1) t.target
          ((segsOf t.target).take k) hgv hct' (List.take_prefix _ _) (by omega)
        exact isSome_of_mstateAtB this
    have hdrop : ∀ x ∈ (chainBelow
        (lcaSegs (segsOf t.source) (segsOf t.target)).length
          (segsOf t.target)).dropLast,
        x ≠ t.target ∧ mstateAtB m x = true := by
      intro x hx
      by_cases hlt : (lcaSegs (segsOf t.source) (segsOf t.target)).length <
          (segsOf t.target).length
      · rw [chainBelow_dropLast _ _ hlt] at hx
        rw [List.mem_map] at hx
        obtain ⟨k, hk, rfl⟩ := hx
        rw [List.mem_range'_1] at hk
        have hkl : k < (segsOf t.target).length := by omega
        have htk : ((segsOf t.target).take k).length = k := by
          rw [List.length_take]
          omega
        constructor
        · intro hx2
          have hx3 : fromSegs ((segsOf t.target).take k) =
              fromSegs (segsOf t.target) := hx2.trans hct'.1
          have := fromSegs_inj
            (fun y hy => hct'.2 y (List.take_subset _ _ hy)) hct'.2 hx3
          have hlen := congrArg List.length this
          rw [htk] at hlen
          omega
        · exact prefix_state m hwf ((segsOf t.target).length - k - 1) t.target
            ((segsOf t.target).take k) hgv hct' (List.take_prefix _ _) (by omega)
      · rw [chainBelow_nil _ _ (by omega)] at hx
        simp at hx
    obtain ⟨cont, hR⟩ := enters_markers m geval ev hwf t
      (chainBelow (lcaSegs (segsOf t.source) (segsOf t.target)).length
        (segsOf t.target)) ef
      (match ((chainBelow (lcaSegs (segsOf t.source) (segsOf t.target)).length
          (segsOf ℓ)).reverse).getLast? with
        | some last => last
        | none => ℓ)
      (by
        rw [henl] at hef
        omega)
      hentmem hdrop
    refine ⟨cont, ?_⟩
    rw [elMarkers_append, elMarkers_append, elMarkers_exits,
      elMarkers_effs, hR]
    rw [if_neg hself]
    simp only [List.append_assoc]

/-- Witness for C2's amended theorem at the example machine's transition
`/a/t1` executed from leaf `/a`. -/
theorem claim_C2_witness :
    (ModelWF exampleM ∧ exT1.target ≠ [] ∧
      segsOf exT1.source <+: segsOf (qn "/a")) ∧
    (computeEnter exT1.source exT1.target exT1.kind =
        chainBelow (lcaSegs (segsOf exT1.source) (segsOf exT1.target)).length
            (segsOf exT1.target) ++
          (if exT1.kind = .Self then [exT1.source] else []) ∧
      (exT1.paths.find? (fun kv => kv.1 = qn "/a")).map (·.2) =
        some ⟨computeEnter exT1.source exT1.target exT1.kind,
          (chainBelow (lcaSegs (segsOf exT1.source) (segsOf exT1.target)).length
            (segsOf (qn "/a"))).reverse⟩ ∧
      ∃ cont, elMarkers (engine exampleM (fun _ _ => true)
          ⟨[('c' : Char)], .Normal, 1⟩ 4 (.trans (qn "/a") exT1)).2 =
        ((chainBelow (lcaSegs (segsOf exT1.source) (segsOf exT1.target)).length
            (segsOf (qn "/a"))).reverse).map Step.exitEl ++
          exT1.effect.filterMap
            (fun b => if exampleM.isBehavior b then some (Step.eff b) else none) ++
          ((if exT1.kind = .Self then [exT1.source]
            else chainBelow (lcaSegs (segsOf exT1.source) (segsOf exT1.target)).length
              (segsOf exT1.target)).map Step.enterEl) ++ cont) :=
  ⟨⟨by decide, by decide, by decide⟩,
    claim_C2 exampleM (fun _ _ => true) ⟨[('c' : Char)], .Normal, 1⟩ (qn "/a/t1")
      exT1 (qn "/a") 4 (by decide) (by decide) (by decide) (by decide) (by decide)
      (by decide) (by decide) (by decide)⟩

/-- Witness for C8 at the example model's transition `/a/t1`
(`/a` is not an ancestor of `/b/b1`, so the derived kind is `External`). -/
theorem claim_C8_witness :
    ModelWF exampleM ∧
    exT1.kind =
      (if exT1.target = exT1.source then TKind.Self
       else if exT1.target = [] then TKind.Internal
       else if segsOf exT1.source ≠ segsOf exT1.target ∧
           segsOf exT1.source <+: segsOf exT1.target
         then TKind.Local
       else TKind.External) :=
  ⟨by decide, claim_C8 exampleM (qn "/a/t1") exT1 (by decide) (by decide)⟩

end HsmSpec
